import Mathlib

/-!
Distributed 2-D Jacobi solver with device-initiated one-sided halo exchange, and two
FPGA reference designs.

Namespace `Jacobi`: shallow embedding of
`Libraries/MPI/jacobian_solver/src/04_jacobian_device_mpi_one-sided_device_initiated_notify/`
`mpi3_onesided_jacobian_gpu_sycl_device_initiated_notify.cpp`.
Namespace `MemoryTransfers`: the burst transfers of
`ReferenceDesigns/cholesky_inversion/src/memory_transfers.hpp`.
Namespace `Query9`: the `ProducerOrders` and `Compute` kernels of
`ReferenceDesigns/db/src/query9/query9_kernel.cpp`.

Conventions of the embedding of the solver.

* C `int` values are integers (`Int`); `/` and `%` of the source are the truncating
  `Int.tdiv` and `Int.tmod`.  The definitions named as in the source (`GetMySubarray`,
  `XY_2_IDX`, `total_size`, `lanePuts`, ...) evaluate the `int` expressions exactly.  The
  definitions with the suffix `32` (`GetMySubarray32`, `XY_2_IDX32`, `total_size32`,
  `lanePuts32`, `laneAccess32`, ...) evaluate every `int` expression at 32 bits, with two's
  complement wrap.  The two agree while the padded grid size `(Nx + 2) * (Ny + 2)` is an
  `int` value (`GetMySubarray32_eq`, `total_size32_eq`, `lanePuts32_eq`, `laneAccess32_eq`),
  as it is at the constants of the source (`GetMySubarray32_source`).  Results on the values
  of the offset and index expressions themselves are stated for the 32-bit definitions.
* The grid size constants `Nx`, `Ny` of the source are parameters, as are the communicator
  size and the rank that `MPI_Comm_size` / `MPI_Comm_rank` return.
* `double` is an arbitrary type `α` with an addition, a multiplication and decimal literals;
  every expression keeps the operand order of the source, so a statement proved for all `α`
  holds for IEEE doubles as well as for exact arithmetic.
* A buffer is a map from element index to value.  The memory of all processes is a `World`:
  rank, then buffer index (0 or 1), then element index.
* `main` on one rank is a list of events in program order (`mainEvents`).  The job of all
  ranks (`jobEvents`) adds that the collective `MPI_Win_create` returns on a rank only once
  every rank has called it, and that `MPI_Abort` does not return.
* The lanes of a work-group and the processes run concurrently in the source.  The
  embedding executes the loop body of one lane at a time, in the order given by a schedule,
  which is a parameter: results are stated for every order.  A put-with-notify is delivered
  when it is issued, and an iteration of all processes ends before the next one starts.
* With more workers than rows (`W > Ny`) every `y_size` is `0` and the border loop of the
  source reads outside its buffers; the results on runs assume `ValidConfig`, which excludes
  this case.
-/

namespace Jacobi

/-! ## Definitions -/

/-- The record `struct subarray` (source lines 25-29). -/
structure subarray where
  rank : Int
  comm_size : Int
  x_size : Int
  y_size : Int
  l_nbh_offt : Int
deriving DecidableEq, Repr

/-- The row width of the padded buffer: macro `ROW_SIZE` (line 31). -/
def ROW_SIZE (S : subarray) : Int := S.x_size + 2

/-- The element index of the cell `(X, Y)`: macro `XY_2_IDX` (line 32). -/
def XY_2_IDX (X Y : Int) (S : subarray) : Int := (Y + 1) * ROW_SIZE S + (X + 1)

/-- The decomposer `GetMySubarray` (lines 69-85), statement by statement, with the `int`
expressions evaluated exactly (`GetMySubarray32` evaluates them at 32 bits).  The result of
`MPI_Comm_size` and `MPI_Comm_rank` are the arguments `comm_size` and `rank`. -/
def GetMySubarray (Nx Ny comm_size rank : Int) : subarray :=
  let sub : subarray :=
    { rank := rank, comm_size := comm_size, x_size := 0, y_size := 0, l_nbh_offt := 0 }
  let sub := { sub with y_size := Int.tdiv Ny sub.comm_size }
  let sub := { sub with x_size := Nx }
  let sub := { sub with l_nbh_offt := (sub.x_size + 2) * (sub.y_size + 1) + 1 }
  let tail := Int.tmod sub.y_size sub.comm_size
  if tail ≠ 0 then
    let sub := if sub.rank < tail then { sub with y_size := sub.y_size + 1 } else sub
    let sub :=
      if sub.rank > 0 ∧ sub.rank - 1 < tail then
        { sub with l_nbh_offt := sub.l_nbh_offt + (sub.x_size + 2) }
      else sub
    sub
  else sub

/-- The `y_size` values of ranks `0 .. W-1`, in rank order. -/
def ySizes (Nx Ny : Int) (W : Nat) : List Int :=
  (List.range W).map (fun (r : Nat) => (GetMySubarray Nx Ny (W : Int) (r : Int)).y_size)

/-- A buffer of `double` cells, by element index. -/
abbrev Buf (α : Type) := Int → α

/-- The device memory of all processes: rank, buffer index (`A_device[0]`, `A_device[1]`),
element index. -/
abbrev World (α : Type) := Int → Nat → Buf α

/-- The C loop `for (v = lo; v < hi; v++) body`, as a state transformer. -/
def forRange {σ : Type} (lo hi : Int) (body : Int → σ → σ) (s : σ) : σ :=
  (List.range (hi - lo).toNat).foldl (fun acc (k : Nat) => body (lo + (k : Int)) acc) s

section Kernel

variable {α : Type} [Add α] [Mul α] [OfScientific α]

/-- The update expression of the kernel (lines 162-164, 166-168 and 192-194), for the cell
with element index `idx`, read from buffer `a`. -/
def stencil (a : Buf α) (S : subarray) (idx : Int) : α :=
  0.25 * (a (idx - 1) + a (idx + 1) + a (idx - ROW_SIZE S) + a (idx + ROW_SIZE S))

/-- The body of the border loop (lines 161-168) for one `column`. -/
def borderColumn (S : subarray) (a : Buf α) (column : Int) (a_out : Buf α) : Buf α :=
  let idx := XY_2_IDX column 0 S
  let a_out := Function.update a_out idx (stencil a S idx)
  let idx := XY_2_IDX column (S.y_size - 1) S
  Function.update a_out idx (stencil a S idx)

/-- The border loop (lines 160-169) over the columns `lb .. ub - 1`. -/
def computeBorder (S : subarray) (a : Buf α) (lb ub : Int) (a_out : Buf α) : Buf α :=
  forRange lb ub (borderColumn S a) a_out

/-- The body of the interior loops (lines 191-194) for one cell. -/
def interiorCell (S : subarray) (a : Buf α) (row column : Int) (a_out : Buf α) : Buf α :=
  let idx := XY_2_IDX column row S
  Function.update a_out idx (stencil a S idx)

/-- The interior loops (lines 189-196): rows `1 .. y_size - 2`, columns `lb .. ub - 1`. -/
def computeInterior (S : subarray) (a : Buf α) (lb ub : Int) (a_out : Buf α) : Buf α :=
  forRange 1 (S.y_size - 1) (fun row => forRange lb ub (interiorCell S a row)) a_out

end Kernel

/-- Columns per lane (line 146). -/
def col_per_wg (S : subarray) (work_group_size : Int) : Int :=
  Int.tdiv S.x_size work_group_size

/-- First column of a lane (line 148). -/
def my_x_lb (S : subarray) (work_group_size local_id : Int) : Int :=
  col_per_wg S work_group_size * local_id

/-- One past the last column of a lane (line 149). -/
def my_x_ub (S : subarray) (work_group_size local_id : Int) : Int :=
  my_x_lb S work_group_size local_id + col_per_wg S work_group_size

/-- The arguments of one `MPI_Put_notify` call: the origin is `origin_count` elements of the
caller's buffer `A_device[origin_buf]` from element `origin_idx` on, the target is
`target_count` elements from displacement `target_disp` of window `win` of `target_rank`. -/
structure PutNotify where
  origin_buf : Nat
  origin_idx : Int
  origin_count : Int
  target_rank : Int
  target_disp : Int
  target_count : Int
  notification_idx : Int
  win : Nat
deriving DecidableEq, Repr

/-- The put-with-notify calls one lane issues in iteration `i` (lines 172-186), in program
order: the upward transfer, then the downward one. -/
def lanePuts (S : subarray) (work_group_size local_id : Int) (i : Nat) : List PutNotify :=
  (if S.rank ≠ 0 then
    [{ origin_buf := (i + 1) % 2
       origin_idx := XY_2_IDX (my_x_lb S work_group_size local_id) 0 S
       origin_count := col_per_wg S work_group_size
       target_rank := S.rank - 1
       target_disp := S.l_nbh_offt + my_x_lb S work_group_size local_id
       target_count := col_per_wg S work_group_size
       notification_idx := 0
       win := (i + 1) % 2 }]
  else []) ++
  (if S.rank ≠ S.comm_size - 1 then
    [{ origin_buf := (i + 1) % 2
       origin_idx := XY_2_IDX (my_x_lb S work_group_size local_id) (S.y_size - 1) S
       origin_count := col_per_wg S work_group_size
       target_rank := S.rank + 1
       target_disp := 1 + my_x_lb S work_group_size local_id
       target_count := col_per_wg S work_group_size
       notification_idx := 0
       win := (i + 1) % 2 }]
  else [])

/-- The value of `c_expected` after lines 155-186. -/
def c_expected (S : subarray) (work_group_size : Int) : Int :=
  let c := 0
  let c := if S.rank ≠ 0 then c + work_group_size else c
  let c := if S.rank ≠ S.comm_size - 1 then c + work_group_size else c
  c

section Kernel

variable {α : Type} [Add α] [Mul α] [OfScientific α]

/-- What the lane `local_id` writes to the memory of its own process in iteration `i`
(lines 153-196 without the transfers): border rows, then interior rows, read from
`A_device[i % 2]` and written to `A_device[(i + 1) % 2]`. -/
def laneCompute (S : subarray) (work_group_size local_id : Int) (i : Nat)
    (A_device : Nat → Buf α) : Nat → Buf α :=
  let a := A_device (i % 2)
  let a_out := A_device ((i + 1) % 2)
  let a_out := computeBorder S a (my_x_lb S work_group_size local_id)
    (my_x_ub S work_group_size local_id) a_out
  let a_out := computeInterior S a (my_x_lb S work_group_size local_id)
    (my_x_ub S work_group_size local_id) a_out
  Function.update A_device ((i + 1) % 2) a_out

/-- Iteration `i` on the memory of one process: the lanes listed in `sched` run their loop
body one after the other. -/
def kernelIter (S : subarray) (work_group_size : Int) (i : Nat) (sched : List Int)
    (A_device : Nat → Buf α) : Nat → Buf α :=
  sched.foldl (fun A local_id => laneCompute S work_group_size local_id i A) A_device

/-- Replace buffer `b` of process `r`. -/
def setBuf (w : World α) (r : Int) (b : Nat) (buf : Buf α) : World α :=
  fun r' b' => if r' = r ∧ b' = b then buf else w r' b'

/-- The effect of a delivered `MPI_Put_notify` issued by process `origin`: the origin
elements are copied to the target window; the window `win[k]` is registered over
`A_device[k]` with displacement unit `sizeof(double)` (lines 121-126). -/
def MPI_Put_notify (origin : Int) (p : PutNotify) (w : World α) : World α :=
  fun r b k =>
    if r = p.target_rank ∧ b = p.win ∧ p.target_disp ≤ k ∧ k < p.target_disp + p.target_count
    then w origin p.origin_buf (p.origin_idx + (k - p.target_disp))
    else w r b k

/-- The loop body of lane `local_id` of process `r` for iteration `i` (lines 153-196) on the
memory of all processes: border rows, the transfers (delivered at once), interior rows. -/
def laneStep (Nx Ny W work_group_size : Int) (i : Nat) (r local_id : Int) (w : World α) :
    World α :=
  let my_subarray := GetMySubarray Nx Ny W r
  let lb := my_x_lb my_subarray work_group_size local_id
  let ub := my_x_ub my_subarray work_group_size local_id
  let w := setBuf w r ((i + 1) % 2)
    (computeBorder my_subarray (w r (i % 2)) lb ub (w r ((i + 1) % 2)))
  let w := (lanePuts my_subarray work_group_size local_id i).foldl
    (fun w p => MPI_Put_notify r p w) w
  setBuf w r ((i + 1) % 2)
    (computeInterior my_subarray (w r (i % 2)) lb ub (w r ((i + 1) % 2)))

/-- Iteration `i` of all processes: the pairs (rank, lane) of `sched` run one after the
other. -/
def iteration (Nx Ny W work_group_size : Int) (i : Nat) (sched : List (Int × Int))
    (w : World α) : World α :=
  sched.foldl (fun w p => laneStep Nx Ny W work_group_size i p.1 p.2 w) w

/-- The iterations `0 .. N-1`, iteration `i` under the schedule `scheds i`; every transfer of
an iteration is delivered before the next iteration starts. -/
def run (Nx Ny W work_group_size : Int) (scheds : Nat → List (Int × Int)) (N : Nat)
    (w : World α) : World α :=
  (List.range N).foldl (fun w i => iteration Nx Ny W work_group_size i (scheds i) w) w

/-- The zero fill of the staging buffer (lines 43-45). -/
def zeroFill (sub : subarray) (A : Buf α) : Buf α :=
  forRange 0 (sub.y_size + 2) (fun i =>
    forRange 0 (sub.x_size + 2) (fun j A =>
      Function.update A (i * (sub.x_size + 2) + j) 0.0)) A

/-- The top boundary, set on rank `0` only (lines 47-49). -/
def setTop (sub : subarray) (A : Buf α) : Buf α :=
  if sub.rank = 0 then
    forRange 1 (sub.x_size + 1) (fun i A => Function.update A i 1.0) A
  else A

/-- The bottom boundary, set on the last rank only (lines 50-52). -/
def setBottom (sub : subarray) (A : Buf α) : Buf α :=
  if sub.rank = sub.comm_size - 1 then
    forRange 1 (sub.x_size + 1) (fun i A =>
      Function.update A ((sub.x_size + 2) * (sub.y_size + 1) + i) 10.0) A
  else A

/-- The left and right boundary of the owned rows (lines 54-58). -/
def setSides (sub : subarray) (A : Buf α) : Buf α :=
  forRange 1 (sub.y_size + 1) (fun i A =>
    let row_offt := i * (sub.x_size + 2)
    let A := Function.update A row_offt 1.0
    Function.update A (row_offt + sub.x_size + 1) 1.0) A

/-- The procedure `InitDeviceArrays` (lines 35-66): the staging buffer `A`, whose content after
the host allocation is arbitrary, is filled and copied to both device buffers. -/
def InitDeviceArrays (sub : subarray) (A : Buf α) : Buf α × Buf α :=
  let A := zeroFill sub A
  let A := setTop sub A
  let A := setBottom sub A
  let A := setSides sub A
  (A, A)

/-- The memory of all processes after `GetMySubarray` and `InitDeviceArrays` (lines 102-103);
`host r` is the content of the fresh host allocation of process `r`. -/
def initWorld (Nx Ny W : Int) (host : Int → Buf α) : World α :=
  fun r b =>
    if b = 0 then (InitDeviceArrays (GetMySubarray Nx Ny W r) (host r)).1
    else (InitDeviceArrays (GetMySubarray Nx Ny W r) (host r)).2

/-- Reference, after the words of the specification: one step of a single-process Jacobi
iteration on a grid `g x y` of `Nx` by `Ny` owned cells with a border of one cell. -/
def jacobiRefStep (Nx Ny : Int) (g : Int → Int → α) : Int → Int → α :=
  fun x y =>
    if 0 ≤ x ∧ x < Nx ∧ 0 ≤ y ∧ y < Ny then
      0.25 * (g (x - 1) y + g (x + 1) y + g x (y - 1) + g x (y + 1))
    else g x y

/-- Reference: `n` steps of the single-process Jacobi iteration. -/
def jacobiRef (Nx Ny : Int) : Nat → (Int → Int → α) → Int → Int → α
  | 0, g => g
  | n + 1, g => jacobiRefStep Nx Ny (jacobiRef Nx Ny n g)

end Kernel

/-- The schedule that runs the lanes `0 .. L-1` of the ranks `0 .. W-1` in order. -/
def allLanes (W L : Nat) : List (Int × Int) :=
  (List.range W).flatMap (fun (r : Nat) =>
    (List.range L).map (fun (l : Nat) => ((r : Int), (l : Int))))

/-- A schedule of an iteration: it names only lanes `0 .. L-1` of ranks `0 .. W-1`, and each
of them at least once. -/
def FairSched (W L : Int) (sched : List (Int × Int)) : Prop :=
  (∀ p ∈ sched, 0 ≤ p.1 ∧ p.1 < W ∧ 0 ≤ p.2 ∧ p.2 < L) ∧
    ∀ r l : Int, 0 ≤ r → r < W → 0 ≤ l → l < L → (r, l) ∈ sched

/-- The transformer `T` overwrites exactly the cells in `P`, a cell `idx` with `v idx`. -/
def Writes {α : Type} (T : Buf α → Buf α) (P : Int → Prop) (v : Int → α) : Prop :=
  ∀ buf idx, (P idx → T buf idx = v idx) ∧ (¬ P idx → T buf idx = buf idx)

/-- The configurations the solver is meant for: a non-negative width, at least one worker
and no more workers than rows, and a positive lane count that divides the width. -/
def ValidConfig (Nx Ny W L : Int) : Prop :=
  0 ≤ Nx ∧ 1 ≤ W ∧ W ≤ Ny ∧ 1 ≤ L ∧ Int.tmod Nx L = 0

section Kernel

variable {α : Type} [Add α] [Mul α] [OfScientific α]

/-- Closed form of one iteration of all processes on the world `w`: in the write buffer of a
rank, an owned cell gets the update expression of the rank's read buffer, a cell of the top
halo row gets the last owned row of the rank above as updated there, a cell of the bottom
halo row gets the first owned row of the rank below as updated there; every other cell is
kept.  `row` and `col` are the padded coordinates of the element index. -/
def globalStep (Nx Ny W : Int) (i : Nat) (w : World α) : World α :=
  fun r b idx =>
    let S := GetMySubarray Nx Ny W r
    let row := idx / (Nx + 2)
    let col := idx % (Nx + 2)
    if b = (i + 1) % 2 ∧ 0 ≤ r ∧ r < W ∧ 1 ≤ col ∧ col ≤ Nx then
      if 1 ≤ row ∧ row ≤ S.y_size then stencil (w r (i % 2)) S idx
      else if row = 0 ∧ 0 < r then
        stencil (w (r - 1) (i % 2)) (GetMySubarray Nx Ny W (r - 1))
          (XY_2_IDX (col - 1) ((GetMySubarray Nx Ny W (r - 1)).y_size - 1)
            (GetMySubarray Nx Ny W (r - 1)))
      else if row = S.y_size + 1 ∧ r < W - 1 then
        stencil (w (r + 1) (i % 2)) (GetMySubarray Nx Ny W (r + 1))
          (XY_2_IDX (col - 1) 0 (GetMySubarray Nx Ny W (r + 1)))
      else w r b idx
    else w r b idx

end Kernel

/-- The cells `(r', b', idx)` that the loop body of lane `l` of rank `r` writes in iteration
`i`: its columns of the owned rows of its own write buffer, and its columns of the facing halo
row in the write buffer of each neighbour. -/
def LaneCov (Nx Ny W L : Int) (i : Nat) (r l : Int) (r' : Int) (b' : Nat) (idx : Int) : Prop :=
  b' = (i + 1) % 2 ∧
    ((r' = r ∧ ∃ c row, my_x_lb (GetMySubarray Nx Ny W r) L l ≤ c ∧
        c < my_x_ub (GetMySubarray Nx Ny W r) L l ∧ 0 ≤ row ∧
        row < (GetMySubarray Nx Ny W r).y_size ∧ idx = XY_2_IDX c row (GetMySubarray Nx Ny W r)) ∨
     (r ≠ 0 ∧ r' = r - 1 ∧ ∃ c, my_x_lb (GetMySubarray Nx Ny W r) L l ≤ c ∧
        c < my_x_ub (GetMySubarray Nx Ny W r) L l ∧
        idx = (GetMySubarray Nx Ny W r).l_nbh_offt + c) ∨
     (r ≠ W - 1 ∧ r' = r + 1 ∧ ∃ c, my_x_lb (GetMySubarray Nx Ny W r) L l ≤ c ∧
        c < my_x_ub (GetMySubarray Nx Ny W r) L l ∧ idx = 1 + c))

/-- The fixed boundary cells `(x, y)` of rank `r`: the two side columns in the owned rows, the
top border row of rank `0` and the bottom border row of rank `W - 1`, without the corners. -/
def BoundaryCell (Nx Ny W r x y : Int) : Prop :=
  (0 ≤ y ∧ y < (GetMySubarray Nx Ny W r).y_size ∧ (x = -1 ∨ x = Nx)) ∨
    (r = 0 ∧ y = -1 ∧ 0 ≤ x ∧ x < Nx) ∨
    (r = W - 1 ∧ y = (GetMySubarray Nx Ny W r).y_size ∧ 0 ≤ x ∧ x < Nx)

/-- Index of the read buffer `a` of iteration `i` in `A_device` (line 156). -/
def a_index (i : Nat) : Nat := i % 2

/-- Index of the write buffer `a_out` of iteration `i` in `A_device` (line 157). -/
def a_out_index (i : Nat) : Nat := (i + 1) % 2

/-- Index of the window `cwin` of iteration `i` in `win` (line 154). -/
def cwin_index (i : Nat) : Nat := (i + 1) % 2

/-- The buffer a window is registered over: `MPI_Win_create` attaches `win[0]` to
`A_device[0]` and `win[1]` to `A_device[1]` (lines 121-126). -/
def win_buffer (k : Nat) : Nat := k

/-- All put-with-notify calls issued in iteration `i` by the lanes of a schedule, in the
order of the schedule. -/
def schedPuts (Nx Ny W L : Int) (i : Nat) (sched : List (Int × Int)) : List PutNotify :=
  sched.flatMap (fun p => lanePuts (GetMySubarray Nx Ny W p.1) L p.2 i)

/-- The number of calls in `puts` that notify window `k` of rank `r`. -/
def putsTowards (puts : List PutNotify) (r : Int) (k : Nat) : Nat :=
  puts.countP (fun p => p.target_rank = r ∧ p.win = k)

/-- The polling loop of lane `0` (lines 200-201),
`MPI_Count c; while (c < c_expected) MPI_Win_notify_get_value(cwin, 0, &c);`.
The variable `c` is not initialised in the source: its content at the first test is the
argument `c`.  `obs n` is the value that the read number `n` of the counter returns.  The
result is the number of reads performed and the final `c`, or `none` when the loop has not
ended after `fuel` tests of its condition. -/
def pollLoop (c_expected : Int) (obs : Nat → Int) : Nat → Nat → Int → Option (Nat × Int)
  | 0, _, _ => none
  | fuel + 1, n, c =>
    if c < c_expected then pollLoop c_expected obs fuel (n + 1) (obs n) else some (n, c)

/-- The notification counters of all processes: rank, then window index; each window has one
counter, number `0` (`MPI_Win_notify_attach`, lines 127-128). -/
abbrev Notif := Int → Nat → Int

/-- The effect of a delivered `MPI_Put_notify` on the counters: the counter of the target
window on the target rank goes up by one. -/
def notifyPut (p : PutNotify) (n : Notif) : Notif :=
  fun r k => if r = p.target_rank ∧ k = p.win then n r k + 1 else n r k

/-- The counters after every transfer of iteration `i` of a schedule is delivered. -/
def iterationNotify (Nx Ny W L : Int) (i : Nat) (sched : List (Int × Int)) (n : Notif) :
    Notif :=
  (schedPuts Nx Ny W L i sched).foldl (fun n p => notifyPut p n) n

/-- The end of the wait step of lane `0` of rank `r` in iteration `i` (line 202),
`MPI_Win_notify_set_value(cwin, 0, 0)`. -/
def waitReset (i : Nat) (r : Int) (n : Notif) : Notif :=
  fun r' k => if r' = r ∧ k = (i + 1) % 2 then 0 else n r' k

/-- The number of iterations per kernel invocation (line 138). -/
def iterations_batch (Niter NormIteration : Int) : Int :=
  if NormIteration ≤ 0 then Niter else NormIteration

/-- The iteration indices `i = passed_iters + k`, `k = 0 .. iterations_batch - 1`, that one
kernel invocation executes, in order (lines 151-153). -/
def kernelIterations (passed_iters iterations_batch : Int) : List Int :=
  (List.range iterations_batch.toNat).map (fun (k : Nat) => passed_iters + (k : Int))

/-- The host loop (line 139): the kernel invocations it submits, each with the values of
`passed_iters` and `iterations_batch` it captures; `none` when the loop has not ended after
`fuel` tests of its condition. -/
def hostLoop (Niter iterations_batch : Int) : Nat → Int → Option (List (Int × Int))
  | 0, _ => none
  | fuel + 1, passed_iters =>
    if passed_iters < Niter then
      (hostLoop Niter iterations_batch fuel (passed_iters + iterations_batch)).map
        (fun rest => (passed_iters, iterations_batch) :: rest)
    else some []

/-- The events of `main` on one rank that the claims speak of: the call of `MPI_Abort`
(line 117), the collective creation of window `win[k]` (lines 121-126), a kernel invocation
(lines 142-207), the completion message (line 247). -/
inductive Event where
  | abort (errorcode : Int)
  | win_create (k : Nat)
  | kernel (passed_iters iterations_batch : Int)
  | success (rank : Int)
deriving DecidableEq, Repr

/-- Whether a rank calls `MPI_Abort` at startup (lines 112-119). -/
def startupAbort (Nx work_group_size rank : Int) : Bool :=
  decide (Int.tmod Nx work_group_size ≠ 0) && decide (rank = 0)

/-- The events of `main` on one rank before its first collective call, the `MPI_Win_create`
of line 121: the abort of lines 112-119, if the rank calls it. -/
def startupEvents (Nx work_group_size rank : Int) : List Event :=
  if startupAbort Nx work_group_size rank then [Event.abort (-1)] else []

/-- The events of `main` on one rank, in the program order of the rank: the abort of lines
112-119, which does not return, or else the two collective window creations, the kernel
invocations of the host loop and the message of lines 246-248.  The norm report (lines
209-230), which runs only for `NormIteration > 0`, the time report, and the local calls of
lines 127-131 (`MPI_Win_notify_attach`, `MPI_Win_lock_all`) are left out.  This is the
control flow of the rank alone, with every call returning; a collective call returns only in
a job where every rank calls it, which is what `jobEvents` adds. -/
def mainEvents (Nx Niter NormIteration work_group_size rank : Int) (fuel : Nat) :
    Option (List Event) :=
  if startupAbort Nx work_group_size rank then some [Event.abort (-1)]
  else
    (hostLoop Niter (iterations_batch Niter NormIteration) fuel 0).map (fun ks =>
      [Event.win_create 0, Event.win_create 1] ++ ks.map (fun k => Event.kernel k.1 k.2) ++
        (if rank = 0 then [Event.success rank] else []))

/-- The events of a list up to its first collective call. -/
def beforeCollective (evs : List Event) : List Event :=
  evs.takeWhile (fun e => match e with
    | Event.win_create _ => false
    | _ => true)

/-- The events of rank `rank` in a job of the ranks `0 .. W-1`, all with the same lane
count.  `MPI_Win_create` is collective over `MPI_COMM_WORLD`: a rank returns from it only
once every rank of the job has called it.  `MPI_Abort` does not return.  So when some rank
of the job aborts at startup, the call of line 121 returns on no rank, and the events of a
rank are those before it (`startupEvents`); otherwise every rank runs its program order
(`mainEvents`). -/
def jobEvents (Nx Niter NormIteration work_group_size : Int) (W : Nat) (rank : Int)
    (fuel : Nat) : Option (List Event) :=
  if (List.range W).any (fun (q : Nat) => startupAbort Nx work_group_size (q : Int)) then
    some (startupEvents Nx work_group_size rank)
  else mainEvents Nx Niter NormIteration work_group_size rank fuel

/-- The integers `lo, lo + 1, ..., hi - 1`: the values a C loop counter takes. -/
def intRange (lo hi : Int) : List Int :=
  (List.range (hi - lo).toNat).map (fun (k : Nat) => lo + (k : Int))

/-- The element indices of the target window that a transfer writes. -/
def putTargets (p : PutNotify) : List Int :=
  intRange p.target_disp (p.target_disp + p.target_count)

section Norm

variable {α : Type} [AddCommMonoid α] [Sub α] [Mul α]

/-- The local sum of squared differences of the norm report (lines 211-223) over the owned
cells, `index[0]` in `0 .. x_size - 1` and `index[1]` in `0 .. y_size - 1`.  The identifiers
`a` and `a_out` of line 219 are not declared where the source uses them; they are read as the
two buffers of the last iteration executed. -/
def rank_norm (S : subarray) (a a_out : Buf α) : α :=
  Finset.sum (Finset.range S.x_size.toNat) (fun (x : Nat) =>
    Finset.sum (Finset.range S.y_size.toNat) (fun (y : Nat) =>
      (a_out (XY_2_IDX x y S) - a (XY_2_IDX x y S)) *
        (a_out (XY_2_IDX x y S) - a (XY_2_IDX x y S))))

/-- The sum of the local sums over all ranks (`MPI_Reduce` with `MPI_SUM`, line 226), for the
buffers of iteration `i`: `a = A_device[i % 2]` and `a_out = A_device[(i + 1) % 2]`. -/
def global_norm (Nx Ny : Int) (W : Nat) (i : Nat) (w : World α) : α :=
  Finset.sum (Finset.range W) (fun (r : Nat) =>
    rank_norm (GetMySubarray Nx Ny W r) (w r (i % 2)) (w r ((i + 1) % 2)))

end Norm

/-- The value `diff = a_out[idx] - a[idx]` of line 219 at the cell `(x, y)` of rank `r`, taken
after the iterations `0 .. k` from the initial state (`a` and `a_out` those of iteration
`k`). -/
def diff {α : Type} [Add α] [Sub α] [Mul α] [OfScientific α] (Nx Ny W L : Int)
    (scheds : Nat → List (Int × Int)) (host : Int → Buf α) (k : Nat) (r x y : Int) : α :=
  run Nx Ny W L scheds (k + 1) (initWorld Nx Ny W host) r ((k + 1) % 2)
      (XY_2_IDX x y (GetMySubarray Nx Ny W r)) -
    run Nx Ny W L scheds (k + 1) (initWorld Nx Ny W host) r (k % 2)
      (XY_2_IDX x y (GetMySubarray Nx Ny W r))

/-- The element indices of its own write buffer that a lane assigns in one iteration, in
program order: the two border cells of each of its columns (lines 160-169), then the interior
cells row by row (lines 189-196). -/
def laneWrites (S : subarray) (work_group_size local_id : Int) : List Int :=
  (intRange (my_x_lb S work_group_size local_id) (my_x_ub S work_group_size local_id)).flatMap
      (fun column => [XY_2_IDX column 0 S, XY_2_IDX column (S.y_size - 1) S]) ++
    (intRange 1 (S.y_size - 1)).flatMap (fun row =>
      (intRange (my_x_lb S work_group_size local_id)
        (my_x_ub S work_group_size local_id)).map (fun column => XY_2_IDX column row S))

/-- The cells of its write buffer that the border loop of a lane assigns (lines 160-169). -/
def borderWrites (S : subarray) (work_group_size local_id : Int) : List Int :=
  (intRange (my_x_lb S work_group_size local_id) (my_x_ub S work_group_size local_id)).flatMap
    (fun column => [XY_2_IDX column 0 S, XY_2_IDX column (S.y_size - 1) S])

/-- The element indices of the origin buffer that a transfer reads. -/
def putOrigins (p : PutNotify) : List Int :=
  intRange p.origin_idx (p.origin_idx + p.origin_count)

/-- The memory of all processes when lane `local_id` of process `r` has run the border loop of
iteration `i` (lines 160-169) and is about to issue its transfers: the first step of
`laneStep`. -/
def borderStep {α : Type} [Add α] [Mul α] [OfScientific α] (Nx Ny W work_group_size : Int)
    (i : Nat) (r local_id : Int) (w : World α) : World α :=
  let my_subarray := GetMySubarray Nx Ny W r
  setBuf w r ((i + 1) % 2)
    (computeBorder my_subarray (w r (i % 2)) (my_x_lb my_subarray work_group_size local_id)
      (my_x_ub my_subarray work_group_size local_id) (w r ((i + 1) % 2)))

/-- The number of owned rows of the ranks below `r`: the row of the stacked grid at which the
owned rows of rank `r` start. -/
def rowOffset (Nx Ny : Int) (W r : Nat) : Int :=
  ((List.range r).map (fun (k : Nat) => (GetMySubarray Nx Ny (W : Int) (k : Int)).y_size)).sum

/-- Reference, after the words of the specification: the initial single grid of `Nx` by `H`
owned cells with a border of one cell: bottom boundary `10.0`, top, left and right boundary
`1.0`, interior zero. -/
def globalInit {α : Type} [OfScientific α] (Nx H : Int) : Int → Int → α :=
  fun x y => if y = H then 10.0 else if y = -1 ∨ x = -1 ∨ x = Nx then 1.0 else 0.0

/-! ### Processes and lanes running asynchronously

The definitions above run the loop bodies of an iteration one after the other and the
iterations in lockstep.  For the timing of transfers against reads, the control state of every
lane is kept instead of the data: where the lane stands in its loop body, the iteration of
its process, and the notification counters. -/

/-- Where a lane stands in the loop body of its iteration (lines 153-204), named after what
it does next: the border loop (lines 160-169), the transfers (lines 172-186), the interior
loops (lines 189-196), the first barrier (line 198), the polling loop and the reset of lane
`0` (lines 199-203), the second barrier (line 204); `finished` after the last iteration. -/
inductive Phase where
  | border
  | puts
  | interior
  | barrier1
  | wait
  | barrier2
  | finished
deriving DecidableEq, Repr

/-- The control state of all processes: the iteration index `i` of each rank, the phase of
each lane of each rank, and the notification counters. -/
structure Async where
  iter : Int → Nat
  phase : Int → Int → Phase
  notif : Notif

/-- The steps of the asynchronous execution: a lane runs its border loop, issues its
transfers or runs its interior loops; the lanes of a rank pass a barrier together; lane `0`
of a rank leaves the polling loop and resets the counter, `c` being the content of the
uninitialised variable `c` of line 200 when the loop starts. -/
inductive Action where
  | border (r l : Int)
  | puts (r l : Int)
  | interior (r l : Int)
  | barrier1 (r : Int)
  | wait (r : Int) (c : Int)
  | barrier2 (r : Int)
deriving DecidableEq, Repr

/-- The state before the first iteration: every lane before its border loop of iteration
`0`, every counter `0`. -/
def asyncInit : Async :=
  { iter := fun _ => 0, phase := fun _ _ => Phase.border, notif := fun _ _ => 0 }

/-- Whether every lane `0 .. L-1` of rank `r` is in phase `ph`. -/
def lanesAt (L : Nat) (s : Async) (r : Int) (ph : Phase) : Bool :=
  (List.range L).all (fun (l : Nat) => decide (s.phase r (l : Int) = ph))

/-- Move lane `l` of rank `r` to phase `ph`. -/
def setPhase (s : Async) (r l : Int) (ph : Phase) : Async :=
  { s with phase := fun r' l' => if r' = r ∧ l' = l then ph else s.phase r' l' }

/-- One step of the asynchronous execution of `W` ranks with `L` lanes each, `last` being
the number of iterations of the kernel loop (line 151); `none` when the step is not possible
in the state.  A transfer is delivered, and notifies, when it is issued.  Lane `0` leaves the
polling loop when `pollLoop`, started with the content `c` of its variable and reading the
present value of the counter, ends. -/
def asyncStep (Nx Ny W : Int) (L last : Nat) : Action → Async → Option Async
  | Action.border r l, s =>
    if 0 ≤ r ∧ r < W ∧ 0 ≤ l ∧ l < L ∧ s.phase r l = Phase.border then
      some (setPhase s r l Phase.puts)
    else none
  | Action.puts r l, s =>
    if 0 ≤ r ∧ r < W ∧ 0 ≤ l ∧ l < L ∧ s.phase r l = Phase.puts then
      some { setPhase s r l Phase.interior with
        notif := (lanePuts (GetMySubarray Nx Ny W r) L l (s.iter r)).foldl
          (fun n p => notifyPut p n) s.notif }
    else none
  | Action.interior r l, s =>
    if 0 ≤ r ∧ r < W ∧ 0 ≤ l ∧ l < L ∧ s.phase r l = Phase.interior then
      some (setPhase s r l Phase.barrier1)
    else none
  | Action.barrier1 r, s =>
    if 0 ≤ r ∧ r < W ∧ lanesAt L s r Phase.barrier1 = true then
      some { s with phase := fun r' l' =>
        if r' = r then (if l' = 0 then Phase.wait else Phase.barrier2) else s.phase r' l' }
    else none
  | Action.wait r c, s =>
    if 0 ≤ r ∧ r < W ∧ s.phase r 0 = Phase.wait ∧
        (pollLoop (c_expected (GetMySubarray Nx Ny W r) L)
          (fun _ => s.notif r (cwin_index (s.iter r))) 2 0 c).isSome = true then
      some { setPhase s r 0 Phase.barrier2 with notif := waitReset (s.iter r) r s.notif }
    else none
  | Action.barrier2 r, s =>
    if 0 ≤ r ∧ r < W ∧ lanesAt L s r Phase.barrier2 = true then
      some { s with
        iter := fun r' => if r' = r then s.iter r + 1 else s.iter r'
        phase := fun r' l' =>
          if r' = r then (if s.iter r + 1 < last then Phase.border else Phase.finished)
          else s.phase r' l' }
    else none

/-- A sequence of steps. -/
def asyncRun (Nx Ny W : Int) (L last : Nat) (acts : List Action) (s : Async) : Option Async :=
  acts.foldlM (fun s a => asyncStep Nx Ny W L last a s) s

/-- The element indices of the read buffer `a` that one evaluation of the update expression
reads (lines 162-164). -/
def stencilReads (S : subarray) (idx : Int) : List Int :=
  [idx - 1, idx + 1, idx - ROW_SIZE S, idx + ROW_SIZE S]

/-- The element indices of `a` that the interior loops of a lane read (lines 189-196). -/
def interiorReads (S : subarray) (work_group_size local_id : Int) : List Int :=
  (intRange 1 (S.y_size - 1)).flatMap (fun row =>
    (intRange (my_x_lb S work_group_size local_id)
      (my_x_ub S work_group_size local_id)).flatMap
      (fun column => stencilReads S (XY_2_IDX column row S)))

/-- The element indices of `a` that the border loop of a lane reads (lines 160-169). -/
def borderReads (S : subarray) (work_group_size local_id : Int) : List Int :=
  (intRange (my_x_lb S work_group_size local_id) (my_x_ub S work_group_size local_id)).flatMap
    (fun column => stencilReads S (XY_2_IDX column 0 S) ++
      stencilReads S (XY_2_IDX column (S.y_size - 1) S))

/-- The element indices of the read buffer that a lane in phase `ph` may still read in the
iteration it is executing. -/
def pendingReads (S : subarray) (work_group_size local_id : Int) : Phase → List Int
  | Phase.border =>
    borderReads S work_group_size local_id ++ interiorReads S work_group_size local_id
  | Phase.puts => interiorReads S work_group_size local_id
  | Phase.interior => interiorReads S work_group_size local_id
  | _ => []

/-- Whether a transfer that lane `l` of rank `r` issues in state `s` writes a cell that some
lane of the target rank may still read in the iteration the target is executing: the window
of the transfer is over the read buffer of the target, and a target cell is among the pending
reads of a lane of the target. -/
def putConflict (Nx Ny W : Int) (L : Nat) (s : Async) (r l : Int) : Bool :=
  (lanePuts (GetMySubarray Nx Ny W r) L l (s.iter r)).any (fun p =>
    decide (win_buffer p.win = a_index (s.iter p.target_rank)) &&
      (List.range L).any (fun (l' : Nat) =>
        (putTargets p).any (fun idx =>
          decide (idx ∈ pendingReads (GetMySubarray Nx Ny W p.target_rank) L (l' : Int)
            (s.phase p.target_rank (l' : Int))))))

/-- Whether a lane in this phase has issued the transfers of its iteration. -/
def afterPuts : Phase → Bool
  | Phase.interior => true
  | Phase.barrier1 => true
  | Phase.wait => true
  | Phase.barrier2 => true
  | _ => false

/-- The number of iterations whose transfers lane `l` of rank `r` has issued. -/
def putProgress (s : Async) (r l : Int) : Nat :=
  s.iter r + (if afterPuts (s.phase r l) = true then 1 else 0)

/-- The number of iterations whose wait step rank `r` has completed. -/
def waitProgress (s : Async) (r : Int) : Nat :=
  s.iter r + (if s.phase r 0 = Phase.barrier2 then 1 else 0)

/-- The number of lanes of rank `r` that have issued the transfer which the counter of window
`w` of the neighbour `r'` holds: the transfer of the iteration that `r'` waits for next, or of
the one after it, whichever uses window `w`. -/
def pendingFrom (L : Nat) (s : Async) (r r' : Int) (w : Nat) : Nat :=
  (List.range L).countP (fun (l : Nat) =>
    decide (waitProgress s r' + (if (waitProgress s r' + 1) % 2 = w then 1 else 2) ≤
      putProgress s r (l : Int)))

/-- The invariant of the asynchronous execution when every wait step starts with `c ≤ 0`: a
rank has completed no more wait steps than each lane of each neighbour has issued transfers,
and every counter holds the transfers issued and not yet waited for. -/
def AsyncInv (W : Int) (L : Nat) (s : Async) : Prop :=
  (∀ r r' l : Int, 0 ≤ r → r < W → 0 ≤ r' → r' < W → (r' = r + 1 ∨ r = r' + 1) → 0 ≤ l →
    l < L → waitProgress s r' ≤ putProgress s r l) ∧
  (∀ (r' : Int) (w : Nat), 0 ≤ r' → r' < W → w < 2 →
    s.notif r' w =
      (if 0 < r' then (pendingFrom L s (r' - 1) r' w : Int) else 0) +
        (if r' + 1 < W then (pendingFrom L s (r' + 1) r' w : Int) else 0))

/-! ### The `int` arithmetic of the source at 32 bits -/

/-- The largest value of a C `int` of 32 bits. -/
def INT_MAX : Int := 2147483647

/-- The value that an `int` expression takes when its mathematical value is `x`: the
representative of `x` modulo `2 ^ 32` in `-2 ^ 31 .. 2 ^ 31 - 1` (two's complement). -/
def wrapInt (x : Int) : Int := (x + 2147483648) % 4294967296 - 2147483648

/-- The decomposer `GetMySubarray` (lines 69-85) with every `int` expression evaluated at
32 bits.  The field `l_nbh_offt` is an `MPI_Aint`: the right-hand side of line 75 is an `int`
expression converted on assignment; the sum of line 83 is formed in `MPI_Aint`, which holds
the sum of two `int` values. -/
def GetMySubarray32 (Nx Ny comm_size rank : Int) : subarray :=
  let sub : subarray :=
    { rank := rank, comm_size := comm_size, x_size := 0, y_size := 0, l_nbh_offt := 0 }
  let sub := { sub with y_size := wrapInt (Int.tdiv Ny sub.comm_size) }
  let sub := { sub with x_size := Nx }
  let sub := { sub with
    l_nbh_offt := wrapInt (wrapInt (wrapInt (sub.x_size + 2) * wrapInt (sub.y_size + 1)) + 1) }
  let tail := wrapInt (Int.tmod sub.y_size sub.comm_size)
  if tail ≠ 0 then
    let sub := if sub.rank < tail then { sub with y_size := wrapInt (sub.y_size + 1) } else sub
    let sub :=
      if sub.rank > 0 ∧ wrapInt (sub.rank - 1) < tail then
        { sub with l_nbh_offt := sub.l_nbh_offt + wrapInt (sub.x_size + 2) }
      else sub
    sub
  else sub

/-- Macro `ROW_SIZE` (line 31) at 32 bits. -/
def ROW_SIZE32 (S : subarray) : Int := wrapInt (S.x_size + 2)

/-- Macro `XY_2_IDX` (line 32) at 32 bits. -/
def XY_2_IDX32 (X Y : Int) (S : subarray) : Int :=
  wrapInt (wrapInt (wrapInt (Y + 1) * ROW_SIZE32 S) + wrapInt (X + 1))

end Jacobi

namespace MemoryTransfers

/-! ### Burst transfers between DDR and pipes

Shallow embedding of `MatrixReadFromDDRToPipe` and `VectorReadFromPipeToDDR` of
`ReferenceDesigns/cholesky_inversion/src/memory_transfers.hpp`.  The `int` template
parameters and arguments are natural numbers: the statements are about non-negative values,
on which `/` and `%` of the source agree with those of `Nat`, and index arithmetic is not
bounded.  The element type `TT` is an arbitrary type `α`; the DDR memory and the pipe are
maps from an index or a stream position to an element. -/

end MemoryTransfers

namespace Query9

/-! ### Kernels of TPC-H query 9

Shallow embedding of the `ProducerOrders` and `Compute` kernels of
`ReferenceDesigns/db/src/query9/query9_kernel.cpp`.  The types `DBIdentifier`, `DBDate`,
`DBDecimal`, the row and pipe records, the window sizes and the on-chip memory are declared in
headers that are not among the sources: identifiers, dates and sizes are natural numbers,
`DBDecimal` values are integers without overflow, a table column is a map from the row index
to the value (an accessor read past the table returns whatever the map holds there), and the
window sizes and `numeric_limits<DBIdentifier>::max()` are parameters. -/

/-- A row of the ORDERS stream, `OrdersRow(valid, orderkey, orderdate)` (line 267). -/
structure OrdersRow where
  valid : Bool
  orderkey : Nat
  orderdate : Nat
deriving DecidableEq, Repr

/-- A message of `OrdersPipe`, `OrdersRowPipeData(done, valid, data)` (line 271). -/
structure OrdersRowPipeData where
  done : Bool
  valid : Bool
  data : List OrdersRow
deriving DecidableEq, Repr

/-- The number of producing iterations for ORDERS (lines 126-128). -/
def o_iters (o_rows kOrdersJoinWinSize : Nat) : Nat :=
  (o_rows + kOrdersJoinWinSize - 1) / kOrdersJoinWinSize

/-- Slot `j` of the window `i` (lines 258-267); `DBIdentifier_max` is
`std::numeric_limits<DBIdentifier>::max()`. -/
def ordersSlot (kOrdersJoinWinSize DBIdentifier_max : Nat) (o_orderkey o_orderdate : Nat → Nat)
    (l_rows i j : Nat) : OrdersRow :=
  let idx := i * kOrdersJoinWinSize + j
  let in_range := decide (idx < l_rows)
  let orderkey_tmp := o_orderkey idx
  let orderdate := o_orderdate idx
  let orderkey := if in_range then orderkey_tmp else DBIdentifier_max
  { valid := in_range, orderkey := orderkey, orderdate := orderdate }

/-- The kernel `ProducerOrders` (lines 248-273): the messages it writes to `OrdersPipe`, in
order.  `o_rows` and `l_rows` are the row counts of ORDERS and LINEITEM captured at lines
123 and 126. -/
def ProducerOrders (kOrdersJoinWinSize DBIdentifier_max : Nat)
    (o_orderkey o_orderdate : Nat → Nat) (o_rows l_rows : Nat) : List OrdersRowPipeData :=
  (List.range (o_iters o_rows kOrdersJoinWinSize + 1)).map (fun i =>
    let done := i == o_iters o_rows kOrdersJoinWinSize
    let valid := i != o_iters o_rows kOrdersJoinWinSize
    let data := (List.range kOrdersJoinWinSize).map
      (ordersSlot kOrdersJoinWinSize DBIdentifier_max o_orderkey o_orderdate l_rows i)
    { done := done, valid := valid, data := data })

/-- A record of the joined stream, the fields of `FinalData` that the `Compute` kernel reads
(lines 410-431). -/
structure FinalData where
  valid : Bool
  lineitemIdx : Nat
  supplycost : Int
  orderdate : Nat
  nationkey : Nat

/-- A message of `FinalPipe`: the flags `done` and `valid` and the records of the slots
`0 .. kFinalDataMaxSize - 1` (lines 404-410). -/
structure FinalPipeData where
  done : Bool
  valid : Bool
  data : Nat → FinalData

/-- The order year of a record, `(D.orderdate >> 9) & 0x07FFFFF` (line 430). -/
def orderyear (D : FinalData) : Nat := (D.orderdate / 2 ^ 9) % 2 ^ 23

/-- The accumulator index of a record (line 432): the `unsigned int` expression
`(orderyear - 1992) * 25 + nation`, which wraps modulo `2 ^ 32`, stored in an `unsigned char`,
so reduced modulo `2 ^ 8`. -/
def accIndex (D : FinalData) : Nat :=
  (((((orderyear D : Int) - 1992) * 25 + (D.nationkey : Int)) % 2 ^ 32) % 2 ^ 8).toNat

/-- The value of `D_valid` for slot `j` of a message (lines 407 and 412). -/
def D_valid (pipe_data : FinalPipeData) (j : Nat) : Bool :=
  (!pipe_data.done && pipe_data.valid) && (pipe_data.data j).valid

/-- The value of `amount` for a record (lines 416-426): the four operands are `0` unless
the record is valid. -/
def amount (l_quantity l_extendedprice l_discount : Nat → Int) (D : FinalData)
    (valid : Bool) : Int :=
  let quantity := if valid then l_quantity D.lineitemIdx else 0
  let extendedprice := if valid then l_extendedprice D.lineitemIdx else 0
  let discount := if valid then l_discount D.lineitemIdx else 0
  let supplycost := if valid then D.supplycost else 0
  extendedprice * (100 - discount) - supplycost * quantity * 100

/-- Modelled from the spec: the accumulators `sum_profit_local`, a tuple of
`kFinalDataMaxSize` memories `fpga_tools::OnchipMemoryWithCache<DBDecimal, 25 * 7, 8>`
(`onchip_memory_with_cache.hpp` is not among the sources): accumulator `j` is a map from
the index to the value, `read` returns the value written last and `init(0)` sets every
entry to `0`. -/
abbrev Accumulators := Nat → Nat → Int

/-- The body of the unrolled loop for slot `j` (lines 410-439). -/
def accumulateSlot (l_quantity l_extendedprice l_discount : Nat → Int)
    (pipe_data : FinalPipeData) (j : Nat) (acc : Accumulators) : Accumulators :=
  let D := pipe_data.data j
  let valid := D_valid pipe_data j
  let amt := amount l_quantity l_extendedprice l_discount D valid
  let idx := accIndex D
  let idx_final := if valid then idx else 0
  let amount_final := if valid then amt else 0
  let current_amount := acc j idx_final
  let computed_amount := current_amount + amount_final
  Function.update acc j (Function.update (acc j) idx_final computed_amount)

/-- The body of the `do` loop for one message (lines 404-440). -/
def accumulateMessage (kFinalDataMaxSize : Nat) (l_quantity l_extendedprice l_discount : Nat → Int)
    (pipe_data : FinalPipeData) (acc : Accumulators) : Accumulators :=
  (List.range kFinalDataMaxSize).foldl (fun acc j =>
    accumulateSlot l_quantity l_extendedprice l_discount pipe_data j acc) acc

/-- The loop `do { ... } while (!done)` (lines 401-441) on the messages that
`FinalPipe::read()` returns, in order; `none` when the stream ends without a message with
`done` set, where the kernel blocks. -/
def computeLoop (kFinalDataMaxSize : Nat) (l_quantity l_extendedprice l_discount : Nat → Int) :
    List FinalPipeData → Accumulators → Option Accumulators
  | [], _ => none
  | pipe_data :: rest, acc =>
    let acc := accumulateMessage kFinalDataMaxSize l_quantity l_extendedprice l_discount
      pipe_data acc
    if pipe_data.done then some acc
    else computeLoop kFinalDataMaxSize l_quantity l_extendedprice l_discount rest acc

/-- The write-back of the accumulators (lines 444-457) into `sum_profit`. -/
def pushBack (kFinalDataMaxSize : Nat) (acc : Accumulators) (sum_profit : Nat → Int) :
    Nat → Int :=
  (List.range 25).foldl (fun out n =>
    (List.range 7).foldl (fun out y =>
      let in_idx := y * 25 + n
      let out_idx := (y + 1992) * 25 + n
      let amount := (List.range kFinalDataMaxSize).foldl (fun a j => a + acc j in_idx) 0
      Function.update out out_idx amount) out) sum_profit

/-- The kernel `Compute` (lines 389-458): `sum_profit` is the content of the output buffer
before the kernel, which the kernel does not read. -/
def Compute (kFinalDataMaxSize : Nat) (l_quantity l_extendedprice l_discount : Nat → Int)
    (pipe : List FinalPipeData) (sum_profit : Nat → Int) : Option (Nat → Int) :=
  (computeLoop kFinalDataMaxSize l_quantity l_extendedprice l_discount pipe
    (fun _ _ => 0)).map (fun acc => pushBack kFinalDataMaxSize acc sum_profit)

end Query9

/-! ## Theorems -/

namespace Jacobi

/-- Closed form of the fields computed by `GetMySubarray`, with `tail` the remainder the
source computes from the already divided `y_size`. -/
theorem GetMySubarray_fields (Nx Ny W r : Int) :
    (GetMySubarray Nx Ny W r).rank = r ∧
    (GetMySubarray Nx Ny W r).comm_size = W ∧
    (GetMySubarray Nx Ny W r).x_size = Nx ∧
    (GetMySubarray Nx Ny W r).y_size =
      Int.tdiv Ny W +
        (if Int.tmod (Int.tdiv Ny W) W ≠ 0 ∧ r < Int.tmod (Int.tdiv Ny W) W then 1 else 0) ∧
    (GetMySubarray Nx Ny W r).l_nbh_offt =
      (Nx + 2) * (Int.tdiv Ny W + 1) + 1 +
        (if Int.tmod (Int.tdiv Ny W) W ≠ 0 ∧ 0 < r ∧ r - 1 < Int.tmod (Int.tdiv Ny W) W
          then Nx + 2 else 0) := by
  unfold GetMySubarray
  by_cases ht : Int.tmod (Int.tdiv Ny W) W = 0
  · simp [ht]
  · by_cases h1 : r < Int.tmod (Int.tdiv Ny W) W <;>
      by_cases h2 : 0 < r ∧ r - 1 < Int.tmod (Int.tdiv Ny W) W <;>
      simp [ht, h1, h2]

/-- The `y_size` of a rank is the quotient, or the quotient plus one. -/
theorem GetMySubarray_y_size (Nx Ny W r : Int) :
    (GetMySubarray Nx Ny W r).y_size =
      Int.tdiv Ny W +
        (if Int.tmod (Int.tdiv Ny W) W ≠ 0 ∧ r < Int.tmod (Int.tdiv Ny W) W then 1 else 0) :=
  (GetMySubarray_fields Nx Ny W r).2.2.2.1

/-- Reading `ySizes` at a rank. -/
theorem mem_ySizes {Nx Ny : Int} {W : Nat} {a : Int} (h : a ∈ ySizes Nx Ny W) :
    ∃ r : Nat, r < W ∧ a = (GetMySubarray Nx Ny (W : Int) (r : Int)).y_size := by
  unfold ySizes at h
  rcases List.mem_map.1 h with ⟨r, hr, rfl⟩
  exact ⟨r, List.mem_range.1 hr, rfl⟩

/-- C3 (code at the failing input): with the grid height of the source, `Ny = 16384`, and
`W = 256` workers, `W` divides `Ny`, yet `GetMySubarray` hands out `16448` rows in total: the
remainder is taken of `y_size = 64`, not of `Ny`, so ranks `0 .. 63` get a 65th row. -/
theorem ySizes_sum_16384_256 :
    Int.tmod 16384 256 = 0 ∧ (ySizes 16384 16384 256).sum = 16448 ∧
      (GetMySubarray 16384 16384 256 0).y_size = 65 := by
  set_option maxRecDepth 100000 in decide

/-- C4 (code at the failing input): with `Ny = 16384` and `W = 5` workers the `y_size` values
are `3277, 3276, 3276, 3276, 3276`, which sum to `16381`, three rows short of `Ny`. -/
theorem ySizes_sum_16384_5 :
    ySizes 16384 16384 5 = [3277, 3276, 3276, 3276, 3276] ∧
      (ySizes 16384 16384 5).sum = 16381 := by
  decide

/-- C5 (code at the failing input): with `Ny = 16384`, `W = 5` and rank `1`, the claimed
extent is `Ny / W + 1 = 3277` because `1 < Ny % W = 4`, but `GetMySubarray` yields
`y_size = 3276`, since it compares the rank with `(Ny / W) % W = 1`. -/
theorem GetMySubarray_y_size_16384_5_1 :
    (GetMySubarray 16384 16384 5 1).x_size = 16384 ∧
      (GetMySubarray 16384 16384 5 1).y_size = 3276 ∧
      Int.tdiv 16384 5 + (if (1 : Int) < Int.tmod 16384 5 then 1 else 0) = 3277 := by
  decide

/-- The neighbour offset of a rank `r ≥ 1` in terms of the extent of rank `r - 1`. -/
theorem l_nbh_offt_prev (Nx Ny W r : Int) (hr : 1 ≤ r) :
    (GetMySubarray Nx Ny W r).l_nbh_offt =
      (Nx + 2) * ((GetMySubarray Nx Ny W (r - 1)).y_size + 1) + 1 := by
  obtain ⟨-, -, -, -, hl⟩ := GetMySubarray_fields Nx Ny W r
  obtain ⟨-, -, -, hy', -⟩ := GetMySubarray_fields Nx Ny W (r - 1)
  rw [hl, hy']
  generalize Int.tmod (Int.tdiv Ny W) W = t
  generalize Int.tdiv Ny W = b
  split_ifs <;> first | omega | ring

/-- In exact arithmetic, for a rank `r ≥ 1`, the `l_nbh_offt` of rank `r` is
`(x_size + 2) * (y' + 1) + 1` with `y'` the `y_size` of rank `r - 1`; this is the index of
cell `(0, y')` of rank `r - 1`, the first non-corner cell of its bottom halo row; and it
exceeds the unadjusted value `(Nx + 2) * (Ny / W + 1) + 1` by one row width exactly when rank
`r - 1` has the extra row. -/
theorem neighbour_offset_exact (Nx Ny W r : Int) (hr : 1 ≤ r) :
    (GetMySubarray Nx Ny W r).l_nbh_offt =
        ((GetMySubarray Nx Ny W r).x_size + 2) * ((GetMySubarray Nx Ny W (r - 1)).y_size + 1) + 1 ∧
      (GetMySubarray Nx Ny W r).l_nbh_offt =
        XY_2_IDX 0 (GetMySubarray Nx Ny W (r - 1)).y_size (GetMySubarray Nx Ny W (r - 1)) ∧
      (GetMySubarray Nx Ny W r).l_nbh_offt =
        (Nx + 2) * (Int.tdiv Ny W + 1) + 1 +
          (if (GetMySubarray Nx Ny W (r - 1)).y_size = Int.tdiv Ny W + 1 then Nx + 2 else 0) := by
  obtain ⟨-, -, hx, -, hl⟩ := GetMySubarray_fields Nx Ny W r
  obtain ⟨-, -, hx', hy', -⟩ := GetMySubarray_fields Nx Ny W (r - 1)
  have h0 : 0 < r := by omega
  simp only [XY_2_IDX, ROW_SIZE, hx, hx', hl, hy']
  generalize Int.tmod (Int.tdiv Ny W) W = t
  generalize Int.tdiv Ny W = b
  refine ⟨?_, ?_, ?_⟩ <;> split_ifs <;> first | omega | ring

/-- Two ranks differ by at most one row, and a higher rank never has more rows. -/
theorem y_size_balanced (Nx Ny W r r' : Int) :
    (GetMySubarray Nx Ny W r).y_size - (GetMySubarray Nx Ny W r').y_size ≤ 1 ∧
      (r ≤ r' → (GetMySubarray Nx Ny W r').y_size ≤ (GetMySubarray Nx Ny W r).y_size) := by
  rw [GetMySubarray_y_size, GetMySubarray_y_size]
  constructor
  · split_ifs <;> omega
  · intro hrr
    split_ifs with h1 h2 <;> omega

/-- C7: the `y_size` values of ranks `0 .. W-1` differ pairwise by at most one (so the largest
exceeds the smallest by at most one) and are non-increasing in the rank. -/
theorem load_balance (Nx Ny : Int) (W : Nat) :
    (∀ a ∈ ySizes Nx Ny W, ∀ b ∈ ySizes Nx Ny W, a - b ≤ 1) ∧
      List.Pairwise (fun a b => b ≤ a) (ySizes Nx Ny W) := by
  constructor
  · intro a ha b hb
    obtain ⟨r, -, rfl⟩ := mem_ySizes ha
    obtain ⟨r', -, rfl⟩ := mem_ySizes hb
    exact (y_size_balanced Nx Ny W r r').1
  · unfold ySizes
    rw [List.pairwise_map]
    refine List.Pairwise.imp ?_ (List.pairwise_lt_range W)
    intro r r' hlt
    exact (y_size_balanced Nx Ny W r r').2 (by exact_mod_cast hlt.le)

/-- Witness of C7 at `Ny = 16384`, `W = 5`: the largest and the smallest extent. -/
theorem load_balance_witness : (3277 : Int) - 3276 ≤ 1 :=
  (load_balance 16384 16384 5).1 3277 (by decide) 3276 (by decide)

/-! ### Loops that overwrite cells -/

section WritesAlgebra

variable {α : Type}

/-- A single assignment `buf[i] = v i`. -/
theorem writes_update (i : Int) (v : Int → α) :
    Writes (fun buf => Function.update buf i (v i)) (fun idx => idx = i) v := by
  intro buf idx
  constructor
  · intro h
    subst h
    simp
  · intro h
    simp [Function.update_noteq h]

/-- Two transformers one after the other. -/
theorem writes_comp {T1 T2 : Buf α → Buf α} {P1 P2 : Int → Prop} {v : Int → α}
    (h1 : Writes T1 P1 v) (h2 : Writes T2 P2 v) :
    Writes (fun buf => T2 (T1 buf)) (fun idx => P1 idx ∨ P2 idx) v := by
  intro buf idx
  by_cases p2 : P2 idx
  · exact ⟨fun _ => (h2 (T1 buf) idx).1 p2, fun hn => absurd (Or.inr p2) hn⟩
  · have e2 : T2 (T1 buf) idx = T1 buf idx := (h2 (T1 buf) idx).2 p2
    constructor
    · intro h
      rcases h with p1 | p2'
      · show T2 (T1 buf) idx = v idx
        rw [e2]
        exact (h1 buf idx).1 p1
      · exact absurd p2' p2
    · intro hn
      show T2 (T1 buf) idx = buf idx
      rw [e2]
      exact (h1 buf idx).2 (fun p1 => hn (Or.inl p1))

/-- The set of overwritten cells may be described in another way. -/
theorem writes_congr {T : Buf α → Buf α} {P Q : Int → Prop} {v : Int → α}
    (h : Writes T P v) (hPQ : ∀ idx, P idx ↔ Q idx) : Writes T Q v := by
  intro buf idx
  exact ⟨fun q => (h buf idx).1 ((hPQ idx).2 q), fun nq => (h buf idx).2 (fun p => nq ((hPQ idx).1 p))⟩

/-- A fold of transformers over a list. -/
theorem writes_foldl {ι : Type} (l : List ι) (T : ι → Buf α → Buf α) (P : ι → Int → Prop)
    (v : Int → α) (h : ∀ k ∈ l, Writes (T k) (P k) v) :
    Writes (fun buf => l.foldl (fun acc k => T k acc) buf) (fun idx => ∃ k ∈ l, P k idx) v := by
  induction l with
  | nil =>
    intro buf idx
    simp
  | cons k l ih =>
    have hk : Writes (T k) (P k) v := h k (List.mem_cons_self k l)
    have hl := ih (fun k' hk' => h k' (List.mem_cons_of_mem k hk'))
    have hc := writes_comp hk hl
    refine writes_congr (T := fun buf => (k :: l).foldl (fun acc k => T k acc) buf) ?_ ?_
      (P := fun idx => P k idx ∨ ∃ k' ∈ l, P k' idx)
    · intro buf idx
      simpa [List.foldl_cons] using hc buf idx
    · intro idx
      simp

/-- The C loop `for (k = lo; k < hi; k++)`. -/
theorem writes_forRange (lo hi : Int) (T : Int → Buf α → Buf α) (P : Int → Int → Prop)
    (v : Int → α) (h : ∀ k, lo ≤ k → k < hi → Writes (T k) (P k) v) :
    Writes (forRange lo hi T) (fun idx => ∃ k, lo ≤ k ∧ k < hi ∧ P k idx) v := by
  have hf := writes_foldl (List.range (hi - lo).toNat) (fun (n : Nat) => T (lo + (n : Int)))
    (fun (n : Nat) => P (lo + (n : Int))) v (by
      intro n hn
      have hn' := List.mem_range.1 hn
      exact h _ (by omega) (by omega))
  refine writes_congr (T := forRange lo hi T) ?_ ?_
    (P := fun idx => ∃ n ∈ List.range (hi - lo).toNat, P (lo + (n : Int)) idx)
  · intro buf idx
    unfold forRange
    exact hf buf idx
  · intro idx
    constructor
    · rintro ⟨n, hn, hp⟩
      have hn' := List.mem_range.1 hn
      exact ⟨lo + (n : Int), by omega, by omega, hp⟩
    · rintro ⟨k, h1, h2, hp⟩
      refine ⟨(k - lo).toNat, List.mem_range.2 (by omega), ?_⟩
      have : lo + ((k - lo).toNat : Int) = k := by omega
      rw [this]
      exact hp

end WritesAlgebra

/-! ### Lanes and columns -/

/-- When the lane count divides the width, the lanes tile it: `x_size = col_per_wg * L`. -/
theorem col_per_wg_mul (S : subarray) (L : Int) (hx : 0 ≤ S.x_size) (hL : 1 ≤ L)
    (hdiv : Int.tmod S.x_size L = 0) : col_per_wg S L * L = S.x_size ∧ 0 ≤ col_per_wg S L := by
  unfold col_per_wg
  rw [Int.tdiv_eq_ediv hx (by omega)]
  rw [Int.tmod_eq_emod hx (by omega)] at hdiv
  constructor
  · exact Int.ediv_mul_cancel (Int.dvd_of_emod_eq_zero hdiv)
  · exact Int.ediv_nonneg hx (by omega)

/-- Every owned column belongs to a lane. -/
theorem lane_of_column (S : subarray) (L : Int) (hL : 1 ≤ L) (hdiv : Int.tmod S.x_size L = 0)
    (x : Int) (hx0 : 0 ≤ x) (hx1 : x < S.x_size) :
    ∃ l, 0 ≤ l ∧ l < L ∧ my_x_lb S L l ≤ x ∧ x < my_x_ub S L l := by
  obtain ⟨hmul, hc0⟩ := col_per_wg_mul S L (by omega) hL hdiv
  unfold my_x_ub my_x_lb
  generalize col_per_wg S L = c at hmul hc0
  have hc : 0 < c := by
    by_contra h
    have : c = 0 := by omega
    subst this
    simp at hmul
    omega
  refine ⟨x / c, Int.ediv_nonneg hx0 hc0, ?_, ?_, ?_⟩
  · apply Int.ediv_lt_of_lt_mul hc
    rw [Int.mul_comm, hmul]
    exact hx1
  · have := Int.ediv_mul_le x (Int.ne_of_gt hc)
    rw [Int.mul_comm]
    exact this
  · have := Int.lt_ediv_add_one_mul_self x hc
    have e : (x / c + 1) * c = c * (x / c) + c := by ring
    omega

/-- The columns of a lane are owned columns. -/
theorem lane_columns_owned (S : subarray) (L : Int) (hx : 0 ≤ S.x_size) (hL : 1 ≤ L)
    (hdiv : Int.tmod S.x_size L = 0) (l : Int) (hl0 : 0 ≤ l) (hl1 : l < L) :
    0 ≤ my_x_lb S L l ∧ my_x_ub S L l ≤ S.x_size := by
  obtain ⟨hmul, hc0⟩ := col_per_wg_mul S L hx hL hdiv
  unfold my_x_ub my_x_lb
  generalize col_per_wg S L = c at hmul hc0
  constructor
  · exact Int.mul_nonneg hc0 hl0
  · have h1 : c * (l + 1) ≤ c * L := Int.mul_le_mul_of_nonneg_left (by omega) hc0
    have e : c * (l + 1) = c * l + c := by ring
    have e' : c * L = S.x_size := hmul
    omega

/-! ### What a lane writes -/

section KernelLemmas

variable {α : Type} [Add α] [Mul α] [OfScientific α]

/-- The border body writes the two border cells of its column. -/
theorem writes_borderColumn (S : subarray) (a : Buf α) (column : Int) :
    Writes (borderColumn S a column)
      (fun idx => idx = XY_2_IDX column 0 S ∨ idx = XY_2_IDX column (S.y_size - 1) S)
      (stencil a S) := by
  have h1 := writes_update (XY_2_IDX column 0 S) (stencil a S)
  have h2 := writes_update (XY_2_IDX column (S.y_size - 1) S) (stencil a S)
  have h := writes_comp h1 h2
  exact h

/-- The border loop writes rows `0` and `y_size - 1` of the columns of the lane. -/
theorem writes_computeBorder (S : subarray) (a : Buf α) (lb ub : Int) :
    Writes (computeBorder S a lb ub)
      (fun idx => ∃ c, lb ≤ c ∧ c < ub ∧
        (idx = XY_2_IDX c 0 S ∨ idx = XY_2_IDX c (S.y_size - 1) S))
      (stencil a S) :=
  writes_forRange lb ub (borderColumn S a) _ _ (fun c _ _ => writes_borderColumn S a c)

/-- The interior loops write rows `1 .. y_size - 2` of the columns of the lane. -/
theorem writes_computeInterior (S : subarray) (a : Buf α) (lb ub : Int) :
    Writes (computeInterior S a lb ub)
      (fun idx => ∃ row, 1 ≤ row ∧ row < S.y_size - 1 ∧
        ∃ c, lb ≤ c ∧ c < ub ∧ idx = XY_2_IDX c row S)
      (stencil a S) :=
  writes_forRange 1 (S.y_size - 1) (fun row => forRange lb ub (interiorCell S a row)) _ _
    (fun row _ _ => writes_forRange lb ub (interiorCell S a row) _ _
      (fun c _ _ => writes_update (XY_2_IDX c row S) (stencil a S)))

/-- Border loop followed by interior loops: with at least one owned row, a lane writes
exactly the cells of its columns in the owned rows, each with the update expression. -/
theorem writes_lane (S : subarray) (a : Buf α) (lb ub : Int) (hy : 1 ≤ S.y_size) :
    Writes (fun a_out => computeInterior S a lb ub (computeBorder S a lb ub a_out))
      (fun idx => ∃ c row, lb ≤ c ∧ c < ub ∧ 0 ≤ row ∧ row < S.y_size ∧ idx = XY_2_IDX c row S)
      (stencil a S) := by
  refine writes_congr (writes_comp (writes_computeBorder S a lb ub)
    (writes_computeInterior S a lb ub)) ?_
  intro idx
  constructor
  · rintro (⟨c, h1, h2, h | h⟩ | ⟨row, hr1, hr2, c, h1, h2, h⟩)
    · exact ⟨c, 0, h1, h2, by omega, by omega, h⟩
    · exact ⟨c, S.y_size - 1, h1, h2, by omega, by omega, h⟩
    · exact ⟨c, row, h1, h2, by omega, by omega, h⟩
  · rintro ⟨c, row, h1, h2, hr1, hr2, h⟩
    by_cases h0 : row = 0
    · subst h0
      exact Or.inl ⟨c, h1, h2, Or.inl h⟩
    · by_cases hl : row = S.y_size - 1
      · subst hl
        exact Or.inl ⟨c, h1, h2, Or.inr h⟩
      · exact Or.inr ⟨row, by omega, by omega, c, h1, h2, h⟩

/-- The two buffer indices of an iteration differ. -/
theorem pingpong_ne (i : Nat) : i % 2 ≠ (i + 1) % 2 := by omega

/-- One lane on the memory of its process: the read buffer is kept, the write buffer is
transformed by the border and interior loops. -/
theorem laneCompute_eq (S : subarray) (L l : Int) (i : Nat) (A : Nat → Buf α) :
    laneCompute S L l i A (i % 2) = A (i % 2) ∧
      laneCompute S L l i A ((i + 1) % 2) =
        computeInterior S (A (i % 2)) (my_x_lb S L l) (my_x_ub S L l)
          (computeBorder S (A (i % 2)) (my_x_lb S L l) (my_x_ub S L l) (A ((i + 1) % 2))) := by
  unfold laneCompute
  constructor
  · simp [Function.update_noteq (pingpong_ne i)]
  · simp

/-- The lanes of a schedule on the memory of one process. -/
theorem kernelIter_eq (S : subarray) (L : Int) (i : Nat) (sched : List Int)
    (A : Nat → Buf α) :
    kernelIter S L i sched A (i % 2) = A (i % 2) ∧
      kernelIter S L i sched A ((i + 1) % 2) =
        sched.foldl (fun a_out l =>
          computeInterior S (A (i % 2)) (my_x_lb S L l) (my_x_ub S L l)
            (computeBorder S (A (i % 2)) (my_x_lb S L l) (my_x_ub S L l) a_out))
          (A ((i + 1) % 2)) := by
  induction sched generalizing A with
  | nil => exact ⟨rfl, rfl⟩
  | cons l ls ih =>
    obtain ⟨h1, h2⟩ := laneCompute_eq S L l i A
    obtain ⟨g1, g2⟩ := ih (laneCompute S L l i A)
    unfold kernelIter at g1 g2 ⊢
    simp only [List.foldl_cons]
    rw [g1, g2, h1, h2]
    exact ⟨rfl, rfl⟩

/-- The neighbours of a cell in element indices. -/
theorem XY_2_IDX_neighbours (x y : Int) (S : subarray) :
    XY_2_IDX (x - 1) y S = XY_2_IDX x y S - 1 ∧
      XY_2_IDX (x + 1) y S = XY_2_IDX x y S + 1 ∧
      XY_2_IDX x (y - 1) S = XY_2_IDX x y S - ROW_SIZE S ∧
      XY_2_IDX x (y + 1) S = XY_2_IDX x y S + ROW_SIZE S := by
  unfold XY_2_IDX
  refine ⟨by ring, by ring, by ring, by ring⟩

/-- C1: for a worker with `x_size ≥ 1`, `y_size ≥ 1` and a lane count `L ≥ 1` dividing
`x_size`, once every lane `0 .. L-1` has run its loop body of iteration `i` (in any order),
every owned cell `(x, y)` of the write buffer `A_device[(i+1) % 2]` holds
`0.25 * (a[x-1,y] + a[x+1,y] + a[x,y-1] + a[x,y+1])` of the read buffer `A_device[i % 2]` as it
was when the iteration started; `y_size = 1`, where both border rows are row `0`, is
included. -/
theorem stencil_update (S : subarray) (L : Int) (i : Nat) (sched : List Int)
    (A_device : Nat → Buf α) (hy : 1 ≤ S.y_size) (hL : 1 ≤ L)
    (hdiv : Int.tmod S.x_size L = 0) (hs : ∀ l, 0 ≤ l → l < L → l ∈ sched)
    (x y : Int) (hx0 : 0 ≤ x) (hx1 : x < S.x_size) (hy0 : 0 ≤ y) (hy1 : y < S.y_size) :
    kernelIter S L i sched A_device ((i + 1) % 2) (XY_2_IDX x y S) =
      0.25 * (A_device (i % 2) (XY_2_IDX (x - 1) y S) + A_device (i % 2) (XY_2_IDX (x + 1) y S)
        + A_device (i % 2) (XY_2_IDX x (y - 1) S) + A_device (i % 2) (XY_2_IDX x (y + 1) S)) := by
  obtain ⟨l, hl0, hl1, hlb, hub⟩ := lane_of_column S L hL hdiv x hx0 hx1
  have hw := writes_foldl sched
    (fun l a_out => computeInterior S (A_device (i % 2)) (my_x_lb S L l) (my_x_ub S L l)
      (computeBorder S (A_device (i % 2)) (my_x_lb S L l) (my_x_ub S L l) a_out))
    (fun l idx => ∃ c row, my_x_lb S L l ≤ c ∧ c < my_x_ub S L l ∧ 0 ≤ row ∧
      row < S.y_size ∧ idx = XY_2_IDX c row S)
    (stencil (A_device (i % 2)) S)
    (fun l _ => writes_lane S (A_device (i % 2)) (my_x_lb S L l) (my_x_ub S L l) hy)
  have hv := (hw (A_device ((i + 1) % 2)) (XY_2_IDX x y S)).1
    ⟨l, hs l hl0 hl1, x, y, hlb, hub, hy0, hy1, rfl⟩
  obtain ⟨n1, n2, n3, n4⟩ := XY_2_IDX_neighbours x y S
  rw [(kernelIter_eq S L i sched A_device).2, n1, n2, n3, n4]
  exact hv

/-- Witness of C1: three owned rows of four columns, two lanes run in the order `1, 0`,
both buffers holding `k * k` at element `k`, the cell `(2, 1)` of the interior loops
(element `15`): before the iteration the write buffer holds `225` there, after it the cell is
`0.25 * (196 + 256 + 81 + 441) = 487 / 2`.  And one owned row (`y_size = 1`, both border
rows are row `0`), the cell `(3, 0)` (element `10`): the write buffer holds `100` before and
`0.25 * (81 + 121 + 16 + 256) = 237 / 2` after the iteration. -/
theorem stencil_update_witness :
    kernelIter (⟨0, 1, 4, 3, 25⟩ : subarray) 2 0 [1, 0] (fun _ k => ((k * k : Int) : ℚ))
        ((0 + 1) % 2) (XY_2_IDX 2 1 ⟨0, 1, 4, 3, 25⟩) =
      0.25 * ((fun (_ : Nat) (k : Int) => ((k * k : Int) : ℚ)) (0 % 2)
          (XY_2_IDX (2 - 1) 1 ⟨0, 1, 4, 3, 25⟩)
        + (fun (_ : Nat) (k : Int) => ((k * k : Int) : ℚ)) (0 % 2)
          (XY_2_IDX (2 + 1) 1 ⟨0, 1, 4, 3, 25⟩)
        + (fun (_ : Nat) (k : Int) => ((k * k : Int) : ℚ)) (0 % 2)
          (XY_2_IDX 2 (1 - 1) ⟨0, 1, 4, 3, 25⟩)
        + (fun (_ : Nat) (k : Int) => ((k * k : Int) : ℚ)) (0 % 2)
          (XY_2_IDX 2 (1 + 1) ⟨0, 1, 4, 3, 25⟩)) ∧
    kernelIter (⟨0, 1, 4, 3, 25⟩ : subarray) 2 0 [1, 0] (fun _ k => ((k * k : Int) : ℚ))
        ((0 + 1) % 2) (XY_2_IDX 2 1 ⟨0, 1, 4, 3, 25⟩) = 487 / 2 ∧
    (fun (_ : Nat) (k : Int) => ((k * k : Int) : ℚ)) ((0 + 1) % 2)
        (XY_2_IDX 2 1 ⟨0, 1, 4, 3, 25⟩) = 225 ∧
    kernelIter (⟨0, 1, 4, 1, 13⟩ : subarray) 2 0 [1, 0] (fun _ k => ((k * k : Int) : ℚ))
        ((0 + 1) % 2) (XY_2_IDX 3 0 ⟨0, 1, 4, 1, 13⟩) = 237 / 2 ∧
    (fun (_ : Nat) (k : Int) => ((k * k : Int) : ℚ)) ((0 + 1) % 2)
        (XY_2_IDX 3 0 ⟨0, 1, 4, 1, 13⟩) = 100 := by
  have hs : ∀ l : Int, 0 ≤ l → l < 2 → l ∈ ([1, 0] : List Int) := by
    intro l h0 h1
    have h : l = 0 ∨ l = 1 := by omega
    rcases h with rfl | rfl <;> simp
  have h := stencil_update ⟨0, 1, 4, 3, 25⟩ 2 0 [1, 0] (fun _ k => ((k * k : Int) : ℚ))
    (by decide) (by decide) (by decide) hs 2 1 (by decide) (by decide) (by decide) (by decide)
  have h' := stencil_update ⟨0, 1, 4, 1, 13⟩ 2 0 [1, 0] (fun _ k => ((k * k : Int) : ℚ))
    (by decide) (by decide) (by decide) hs 3 0 (by decide) (by decide) (by decide) (by decide)
  refine ⟨h, ?_, ?_, ?_, ?_⟩
  · rw [h]
    norm_num [XY_2_IDX, ROW_SIZE]
  · norm_num [XY_2_IDX, ROW_SIZE]
  · rw [h']
    norm_num [XY_2_IDX, ROW_SIZE]
  · norm_num [XY_2_IDX, ROW_SIZE]

end KernelLemmas

/-! ### One lane on the memory of all processes -/

/-- The transfers of a lane of process `r`, cell by cell, on a world `w`: a cell in the target
range of the downward transfer, or else of the upward transfer, receives the matching origin
cell of the write buffer of `r`; every other cell is kept. -/
theorem lanePuts_apply {α : Type} (S : subarray) (L l : Int) (i : Nat) (r : Int) (hr : S.rank = r)
    (w : World α) (r' : Int) (b' : Nat) (idx : Int) :
    ((lanePuts S L l i).foldl (fun w p => MPI_Put_notify r p w) w) r' b' idx =
      if S.rank ≠ S.comm_size - 1 ∧ r' = S.rank + 1 ∧ b' = (i + 1) % 2 ∧
          1 + my_x_lb S L l ≤ idx ∧ idx < 1 + my_x_lb S L l + col_per_wg S L then
        w r ((i + 1) % 2)
          (XY_2_IDX (my_x_lb S L l) (S.y_size - 1) S + (idx - (1 + my_x_lb S L l)))
      else if S.rank ≠ 0 ∧ r' = S.rank - 1 ∧ b' = (i + 1) % 2 ∧
          S.l_nbh_offt + my_x_lb S L l ≤ idx ∧
          idx < S.l_nbh_offt + my_x_lb S L l + col_per_wg S L then
        w r ((i + 1) % 2)
          (XY_2_IDX (my_x_lb S L l) 0 S + (idx - (S.l_nbh_offt + my_x_lb S L l)))
      else w r' b' idx := by
  have hself : (r = S.rank - 1) = False := eq_false (by omega)
  unfold lanePuts
  by_cases h0 : S.rank ≠ 0 <;> by_cases hW : S.rank ≠ S.comm_size - 1
  · simp only [eq_true h0, eq_true hW, if_true, true_and, List.singleton_append,
      List.foldl_cons, List.foldl_nil, MPI_Put_notify, hself, false_and, if_false]
  · simp only [eq_true h0, eq_false hW, if_true, if_false, true_and, false_and,
      List.append_nil, List.foldl_cons, List.foldl_nil, MPI_Put_notify]
  · simp only [eq_false h0, eq_true hW, if_true, if_false, true_and, false_and,
      List.nil_append, List.foldl_cons, List.foldl_nil, MPI_Put_notify]
  · simp only [eq_false h0, eq_false hW, if_false, false_and, List.append_nil,
      List.foldl_nil]

section WorldLemmas

variable {α : Type} [Add α] [Mul α] [OfScientific α]

/-- The loop body of a lane, cell by cell: the write buffer of the own process is transformed
by the border and interior loops; a cell in the target range of the downward or of the
upward transfer receives the border cell computed just before; every other cell is kept. -/
theorem laneStep_apply (Nx Ny W L : Int) (i : Nat) (r l : Int) (w : World α)
    (r' : Int) (b' : Nat) (idx : Int) :
    laneStep Nx Ny W L i r l w r' b' idx =
      if r' = r ∧ b' = (i + 1) % 2 then
        computeInterior (GetMySubarray Nx Ny W r) (w r (i % 2))
          (my_x_lb (GetMySubarray Nx Ny W r) L l) (my_x_ub (GetMySubarray Nx Ny W r) L l)
          (computeBorder (GetMySubarray Nx Ny W r) (w r (i % 2))
            (my_x_lb (GetMySubarray Nx Ny W r) L l) (my_x_ub (GetMySubarray Nx Ny W r) L l)
            (w r ((i + 1) % 2))) idx
      else if r ≠ W - 1 ∧ r' = r + 1 ∧ b' = (i + 1) % 2 ∧
          1 + my_x_lb (GetMySubarray Nx Ny W r) L l ≤ idx ∧
          idx < 1 + my_x_lb (GetMySubarray Nx Ny W r) L l +
            col_per_wg (GetMySubarray Nx Ny W r) L then
        computeBorder (GetMySubarray Nx Ny W r) (w r (i % 2))
          (my_x_lb (GetMySubarray Nx Ny W r) L l) (my_x_ub (GetMySubarray Nx Ny W r) L l)
          (w r ((i + 1) % 2))
          (XY_2_IDX (my_x_lb (GetMySubarray Nx Ny W r) L l)
              ((GetMySubarray Nx Ny W r).y_size - 1) (GetMySubarray Nx Ny W r) +
            (idx - (1 + my_x_lb (GetMySubarray Nx Ny W r) L l)))
      else if r ≠ 0 ∧ r' = r - 1 ∧ b' = (i + 1) % 2 ∧
          (GetMySubarray Nx Ny W r).l_nbh_offt + my_x_lb (GetMySubarray Nx Ny W r) L l ≤ idx ∧
          idx < (GetMySubarray Nx Ny W r).l_nbh_offt + my_x_lb (GetMySubarray Nx Ny W r) L l +
            col_per_wg (GetMySubarray Nx Ny W r) L then
        computeBorder (GetMySubarray Nx Ny W r) (w r (i % 2))
          (my_x_lb (GetMySubarray Nx Ny W r) L l) (my_x_ub (GetMySubarray Nx Ny W r) L l)
          (w r ((i + 1) % 2))
          (XY_2_IDX (my_x_lb (GetMySubarray Nx Ny W r) L l) 0 (GetMySubarray Nx Ny W r) +
            (idx - ((GetMySubarray Nx Ny W r).l_nbh_offt +
              my_x_lb (GetMySubarray Nx Ny W r) L l)))
      else w r' b' idx := by
  obtain ⟨hrank, hcs, -, -, -⟩ := GetMySubarray_fields Nx Ny W r
  unfold laneStep
  generalize GetMySubarray Nx Ny W r = S at hrank hcs ⊢
  have hpp := pingpong_ne i
  have hne1 : ¬ r = S.rank + 1 := by omega
  have hne2 : ¬ r = S.rank - 1 := by omega
  -- the world after the border loop
  generalize hw1 : setBuf w r ((i + 1) % 2)
    (computeBorder S (w r (i % 2)) (my_x_lb S L l) (my_x_ub S L l) (w r ((i + 1) % 2))) = w1
  have hw1a : w1 r (i % 2) = w r (i % 2) := by
    rw [← hw1]
    simp [setBuf, hpp]
  have hw1o : w1 r ((i + 1) % 2) =
      computeBorder S (w r (i % 2)) (my_x_lb S L l) (my_x_ub S L l) (w r ((i + 1) % 2)) := by
    rw [← hw1]
    simp [setBuf]
  have hw1x : ∀ b, ¬ (r' = r ∧ b = (i + 1) % 2) → w1 r' b = w r' b := by
    intro b hb
    rw [← hw1]
    simp [setBuf, hb]
  -- the world after the transfers
  have hputs := lanePuts_apply S L l i r hrank w1
  generalize (lanePuts S L l i).foldl (fun w p => MPI_Put_notify r p w) w1 = w2 at hputs ⊢
  have hw2r : ∀ b, w2 r b = w1 r b := by
    intro b
    funext k
    rw [hputs r b k]
    simp [hne1, hne2]
  simp only [setBuf]
  by_cases hown : r' = r ∧ b' = (i + 1) % 2
  · simp only [hown, and_self, if_true]
    rw [hw2r, hw2r, hw1a, hw1o]
  · simp only [hown, if_false]
    rw [hputs r' b' idx, hw1o, hw1x b' hown, hrank, hcs]

/-- Padded row and column of an element index. -/
theorem cell_decode (R ρ c : Int) (h0 : 0 ≤ c) (h1 : c < R) :
    (ρ * R + c) / R = ρ ∧ (ρ * R + c) % R = c := by
  have hR : 0 < R := by omega
  exact (Int.ediv_emod_unique hR).2 ⟨by ring, h0, h1⟩

/-- The descriptor of a rank in a valid configuration. -/
theorem GetMySubarray_valid {Nx Ny W L : Int} (hv : ValidConfig Nx Ny W L) (r : Int) :
    (GetMySubarray Nx Ny W r).rank = r ∧ (GetMySubarray Nx Ny W r).comm_size = W ∧
      (GetMySubarray Nx Ny W r).x_size = Nx ∧ 1 ≤ (GetMySubarray Nx Ny W r).y_size := by
  obtain ⟨h1, h2, h3, h4, -⟩ := GetMySubarray_fields Nx Ny W r
  obtain ⟨-, hW, hNy, -, -⟩ := hv
  refine ⟨h1, h2, h3, ?_⟩
  rw [h4, Int.tdiv_eq_ediv (by omega) (by omega)]
  have : 1 ≤ Ny / W := Int.le_ediv_of_mul_le (by omega) (by omega)
  split_ifs <;> omega

/-- The closed form at an owned cell. -/
theorem globalStep_owned {Nx Ny W L : Int} (hv : ValidConfig Nx Ny W L) (i : Nat)
    (w : World α) (r x y : Int) (hr0 : 0 ≤ r) (hr1 : r < W) (hx0 : 0 ≤ x) (hx1 : x < Nx)
    (hy0 : 0 ≤ y) (hy1 : y < (GetMySubarray Nx Ny W r).y_size) :
    globalStep Nx Ny W i w r ((i + 1) % 2) (XY_2_IDX x y (GetMySubarray Nx Ny W r)) =
      stencil (w r (i % 2)) (GetMySubarray Nx Ny W r)
        (XY_2_IDX x y (GetMySubarray Nx Ny W r)) := by
  obtain ⟨-, -, hxs, -⟩ := GetMySubarray_valid hv r
  have hidx : XY_2_IDX x y (GetMySubarray Nx Ny W r) = (y + 1) * (Nx + 2) + (x + 1) := by
    simp [XY_2_IDX, ROW_SIZE, hxs]
  obtain ⟨hd, hm⟩ := cell_decode (Nx + 2) (y + 1) (x + 1) (by omega) (by omega)
  unfold globalStep
  simp only [hidx, hd, hm]
  rw [if_pos ⟨trivial, hr0, hr1, by omega, by omega⟩, if_pos ⟨by omega, by omega⟩]

/-- The closed form at a cell of the top halo row of a rank that has a rank above. -/
theorem globalStep_top {Nx Ny W L : Int} (hv : ValidConfig Nx Ny W L) (i : Nat)
    (w : World α) (r x : Int) (hr0 : 1 ≤ r) (hr1 : r < W) (hx0 : 0 ≤ x) (hx1 : x < Nx) :
    globalStep Nx Ny W i w r ((i + 1) % 2) (1 + x) =
      stencil (w (r - 1) (i % 2)) (GetMySubarray Nx Ny W (r - 1))
        (XY_2_IDX x ((GetMySubarray Nx Ny W (r - 1)).y_size - 1)
          (GetMySubarray Nx Ny W (r - 1))) := by
  obtain ⟨-, -, -, hys⟩ := GetMySubarray_valid hv r
  have hidx : 1 + x = 0 * (Nx + 2) + (x + 1) := by ring
  obtain ⟨hd, hm⟩ := cell_decode (Nx + 2) 0 (x + 1) (by omega) (by omega)
  unfold globalStep
  simp only [hidx, hd, hm]
  rw [if_pos ⟨trivial, by omega, hr1, by omega, by omega⟩, if_neg (by omega),
    if_pos ⟨trivial, by omega⟩]
  simp

/-- The closed form at a cell of the bottom halo row of a rank that has a rank below. -/
theorem globalStep_bottom {Nx Ny W L : Int} (hv : ValidConfig Nx Ny W L) (i : Nat)
    (w : World α) (r x : Int) (hr0 : 0 ≤ r) (hr1 : r < W - 1) (hx0 : 0 ≤ x) (hx1 : x < Nx) :
    globalStep Nx Ny W i w r ((i + 1) % 2)
        ((Nx + 2) * ((GetMySubarray Nx Ny W r).y_size + 1) + 1 + x) =
      stencil (w (r + 1) (i % 2)) (GetMySubarray Nx Ny W (r + 1))
        (XY_2_IDX x 0 (GetMySubarray Nx Ny W (r + 1))) := by
  obtain ⟨-, -, -, hys⟩ := GetMySubarray_valid hv r
  have hidx : (Nx + 2) * ((GetMySubarray Nx Ny W r).y_size + 1) + 1 + x =
      ((GetMySubarray Nx Ny W r).y_size + 1) * (Nx + 2) + (x + 1) := by ring
  obtain ⟨hd, hm⟩ := cell_decode (Nx + 2) ((GetMySubarray Nx Ny W r).y_size + 1) (x + 1)
    (by omega) (by omega)
  unfold globalStep
  simp only [hidx, hd, hm]
  rw [if_pos ⟨trivial, hr0, by omega, by omega, by omega⟩, if_neg (by omega),
    if_neg (by omega), if_pos ⟨trivial, hr1⟩]
  simp

/-- The columns of a lane in a valid configuration. -/
theorem lane_bounds {Nx Ny W L : Int} (hv : ValidConfig Nx Ny W L) (r l : Int)
    (hl0 : 0 ≤ l) (hl1 : l < L) :
    0 ≤ my_x_lb (GetMySubarray Nx Ny W r) L l ∧
      my_x_ub (GetMySubarray Nx Ny W r) L l ≤ Nx ∧
      my_x_ub (GetMySubarray Nx Ny W r) L l =
        my_x_lb (GetMySubarray Nx Ny W r) L l + col_per_wg (GetMySubarray Nx Ny W r) L := by
  obtain ⟨-, -, hxs, -⟩ := GetMySubarray_valid hv r
  obtain ⟨hNx, -, -, hL, hdiv⟩ := hv
  have h := lane_columns_owned (GetMySubarray Nx Ny W r) L (by omega) hL
    (by rw [hxs]; exact hdiv) l hl0 hl1
  exact ⟨h.1, by omega, rfl⟩

/-- One lane against the closed form: on a world whose read buffers are those of `w`, the
loop body of a lane keeps the read buffers, writes the value of the closed form of `w` to
every cell it covers and keeps every other cell. -/
theorem laneStep_globalStep {Nx Ny W L : Int} (hv : ValidConfig Nx Ny W L) (i : Nat)
    (r l : Int) (hr0 : 0 ≤ r) (hr1 : r < W) (hl0 : 0 ≤ l) (hl1 : l < L) (w w' : World α)
    (hfr : ∀ q, w' q (i % 2) = w q (i % 2)) :
    (∀ q, laneStep Nx Ny W L i r l w' q (i % 2) = w q (i % 2)) ∧
      ∀ r' b' idx,
        (LaneCov Nx Ny W L i r l r' b' idx →
          laneStep Nx Ny W L i r l w' r' b' idx = globalStep Nx Ny W i w r' b' idx) ∧
        (¬ LaneCov Nx Ny W L i r l r' b' idx →
          laneStep Nx Ny W L i r l w' r' b' idx = w' r' b' idx) := by
  obtain ⟨hrank, hcs, hxs, hys⟩ := GetMySubarray_valid hv r
  obtain ⟨hlb, hub, hubdef⟩ := lane_bounds hv r l hl0 hl1
  have hpp := pingpong_ne i
  have hlane : ∀ a_out idx,
      ((∃ c row, my_x_lb (GetMySubarray Nx Ny W r) L l ≤ c ∧
          c < my_x_ub (GetMySubarray Nx Ny W r) L l ∧ 0 ≤ row ∧
          row < (GetMySubarray Nx Ny W r).y_size ∧
          idx = XY_2_IDX c row (GetMySubarray Nx Ny W r)) →
        computeInterior (GetMySubarray Nx Ny W r) (w' r (i % 2))
          (my_x_lb (GetMySubarray Nx Ny W r) L l) (my_x_ub (GetMySubarray Nx Ny W r) L l)
          (computeBorder (GetMySubarray Nx Ny W r) (w' r (i % 2))
            (my_x_lb (GetMySubarray Nx Ny W r) L l) (my_x_ub (GetMySubarray Nx Ny W r) L l)
            a_out) idx = stencil (w' r (i % 2)) (GetMySubarray Nx Ny W r) idx) ∧
      (¬ (∃ c row, my_x_lb (GetMySubarray Nx Ny W r) L l ≤ c ∧
          c < my_x_ub (GetMySubarray Nx Ny W r) L l ∧ 0 ≤ row ∧
          row < (GetMySubarray Nx Ny W r).y_size ∧
          idx = XY_2_IDX c row (GetMySubarray Nx Ny W r)) →
        computeInterior (GetMySubarray Nx Ny W r) (w' r (i % 2))
          (my_x_lb (GetMySubarray Nx Ny W r) L l) (my_x_ub (GetMySubarray Nx Ny W r) L l)
          (computeBorder (GetMySubarray Nx Ny W r) (w' r (i % 2))
            (my_x_lb (GetMySubarray Nx Ny W r) L l) (my_x_ub (GetMySubarray Nx Ny W r) L l)
            a_out) idx = a_out idx) :=
    writes_lane (GetMySubarray Nx Ny W r) (w' r (i % 2))
      (my_x_lb (GetMySubarray Nx Ny W r) L l) (my_x_ub (GetMySubarray Nx Ny W r) L l) hys
  have hborder := writes_computeBorder (GetMySubarray Nx Ny W r) (w' r (i % 2))
    (my_x_lb (GetMySubarray Nx Ny W r) L l) (my_x_ub (GetMySubarray Nx Ny W r) L l)
  refine ⟨?_, ?_⟩
  · intro q
    funext idx
    rw [laneStep_apply, if_neg (by omega), if_neg (by omega), if_neg (by omega), hfr]
  · intro r' b' idx
    rw [laneStep_apply]
    constructor
    · rintro ⟨hb, hcov⟩
      rcases hcov with ⟨hq, c, row, hc0, hc1, hrow0, hrow1, hidx⟩ | ⟨hne, hq, c, hc0, hc1, hidx⟩ |
        ⟨hne, hq, c, hc0, hc1, hidx⟩
      · -- an owned cell of the lane
        rw [if_pos ⟨hq, hb⟩, (hlane _ idx).1 ⟨c, row, hc0, hc1, hrow0, hrow1, hidx⟩, hb, hq,
          hidx, globalStep_owned hv i w r c row hr0 hr1 (by omega) (by omega) hrow0 hrow1, hfr]
      · -- the target of the upward transfer
        have hoff := l_nbh_offt_prev Nx Ny W r (by omega)
        rw [if_neg (by omega), if_neg (by omega), if_pos ⟨hne, hq, hb, by omega, by omega⟩]
        have hsrc : XY_2_IDX (my_x_lb (GetMySubarray Nx Ny W r) L l) 0 (GetMySubarray Nx Ny W r) +
            (idx - ((GetMySubarray Nx Ny W r).l_nbh_offt +
              my_x_lb (GetMySubarray Nx Ny W r) L l)) =
            XY_2_IDX c 0 (GetMySubarray Nx Ny W r) := by
          rw [hidx]
          unfold XY_2_IDX
          ring
        rw [hsrc, (hborder _ _).1 ⟨c, hc0, hc1, Or.inl rfl⟩, hb, hq, hidx, hoff,
          globalStep_bottom hv i w (r - 1) c (by omega) (by omega) (by omega) (by omega),
          Int.sub_add_cancel, hfr]
      · -- the target of the downward transfer
        rw [if_neg (by omega), if_pos ⟨hne, hq, hb, by omega, by omega⟩]
        have hsrc : XY_2_IDX (my_x_lb (GetMySubarray Nx Ny W r) L l)
              ((GetMySubarray Nx Ny W r).y_size - 1) (GetMySubarray Nx Ny W r) +
            (idx - (1 + my_x_lb (GetMySubarray Nx Ny W r) L l)) =
            XY_2_IDX c ((GetMySubarray Nx Ny W r).y_size - 1) (GetMySubarray Nx Ny W r) := by
          rw [hidx]
          unfold XY_2_IDX
          ring
        rw [hsrc, (hborder _ _).1 ⟨c, hc0, hc1, Or.inr rfl⟩, hb, hq, hidx,
          globalStep_top hv i w (r + 1) c (by omega) (by omega) (by omega) (by omega),
          Int.add_sub_cancel, hfr]
    · intro hncov
      unfold LaneCov at hncov
      split_ifs with h1 h2 h3
      · rw [h1.1, h1.2]
        refine (hlane _ idx).2 ?_
        rintro ⟨c, row, hc0, hc1, hrow0, hrow1, hidx⟩
        exact hncov ⟨h1.2, Or.inl ⟨h1.1, c, row, hc0, hc1, hrow0, hrow1, hidx⟩⟩
      · exfalso
        exact hncov ⟨h2.2.2.1, Or.inr (Or.inr ⟨h2.1, h2.2.1, idx - 1, by omega, by omega,
          by omega⟩)⟩
      · exfalso
        exact hncov ⟨h3.2.2.1, Or.inr (Or.inl ⟨h3.1, h3.2.1,
          idx - (GetMySubarray Nx Ny W r).l_nbh_offt, by omega, by omega, by omega⟩)⟩
      · rfl

/-- A schedule of valid lanes against the closed form: a cell covered by one of its lanes ends
with the value of the closed form, every other cell is kept. -/
theorem iteration_fold {Nx Ny W L : Int} (hv : ValidConfig Nx Ny W L) (i : Nat)
    (w : World α) (sched : List (Int × Int))
    (hs : ∀ p ∈ sched, 0 ≤ p.1 ∧ p.1 < W ∧ 0 ≤ p.2 ∧ p.2 < L) (w' : World α)
    (hfr : ∀ q, w' q (i % 2) = w q (i % 2)) (r' : Int) (b' : Nat) (idx : Int) :
    ((∃ p ∈ sched, LaneCov Nx Ny W L i p.1 p.2 r' b' idx) →
        iteration Nx Ny W L i sched w' r' b' idx = globalStep Nx Ny W i w r' b' idx) ∧
      (¬ (∃ p ∈ sched, LaneCov Nx Ny W L i p.1 p.2 r' b' idx) →
        iteration Nx Ny W L i sched w' r' b' idx = w' r' b' idx) := by
  induction sched generalizing w' with
  | nil =>
    constructor
    · rintro ⟨p, hp, -⟩
      simp at hp
    · intro _
      rfl
  | cons p ps ih =>
    obtain ⟨hp0, hp1, hp2, hp3⟩ := hs p (List.mem_cons_self p ps)
    obtain ⟨hfr', hstep⟩ := laneStep_globalStep hv i p.1 p.2 hp0 hp1 hp2 hp3 w w' hfr
    have hih := ih (fun q hq => hs q (List.mem_cons_of_mem p hq))
      (laneStep Nx Ny W L i p.1 p.2 w') hfr'
    have hunf : iteration Nx Ny W L i (p :: ps) w' =
        iteration Nx Ny W L i ps (laneStep Nx Ny W L i p.1 p.2 w') := rfl
    rw [hunf]
    by_cases hps : ∃ q ∈ ps, LaneCov Nx Ny W L i q.1 q.2 r' b' idx
    · constructor
      · intro _
        exact hih.1 hps
      · intro hn
        obtain ⟨q, hq, hcov⟩ := hps
        exact absurd ⟨q, List.mem_cons_of_mem p hq, hcov⟩ hn
    · rw [hih.2 hps]
      constructor
      · rintro ⟨q, hq, hcov⟩
        rcases List.mem_cons.1 hq with rfl | hq'
        · exact (hstep r' b' idx).1 hcov
        · exact absurd ⟨q, hq', hcov⟩ hps
      · intro hn
        exact (hstep r' b' idx).2 (fun hcov => hn ⟨p, List.mem_cons_self p ps, hcov⟩)

/-- Every cell that the closed form changes is covered by a lane of some rank. -/
theorem globalStep_cover {Nx Ny W L : Int} (hv : ValidConfig Nx Ny W L) (i : Nat)
    (w : World α) (r' : Int) (b' : Nat) (idx : Int) :
    (∃ r l, 0 ≤ r ∧ r < W ∧ 0 ≤ l ∧ l < L ∧ LaneCov Nx Ny W L i r l r' b' idx) ∨
      globalStep Nx Ny W i w r' b' idx = w r' b' idx := by
  have hdec : (Nx + 2) * (idx / (Nx + 2)) + idx % (Nx + 2) = idx := Int.ediv_add_emod _ _
  have hL : 1 ≤ L := hv.2.2.2.1
  have hdiv : Int.tmod Nx L = 0 := hv.2.2.2.2
  unfold globalStep
  simp only
  generalize idx / (Nx + 2) = row at hdec ⊢
  generalize idx % (Nx + 2) = col at hdec ⊢
  split_ifs with h1 h2 h3 h4
  · -- an owned cell
    left
    obtain ⟨hb, hr0, hr1, hc0, hc1⟩ := h1
    obtain ⟨-, -, hxs, -⟩ := GetMySubarray_valid hv r'
    obtain ⟨l, hl0, hl1, hlb, hub⟩ := lane_of_column (GetMySubarray Nx Ny W r') L hL
      (by rw [hxs]; exact hdiv) (col - 1) (by omega) (by omega)
    refine ⟨r', l, hr0, hr1, hl0, hl1, hb, Or.inl ⟨rfl, col - 1, row - 1, hlb, hub,
      by omega, by omega, ?_⟩⟩
    unfold XY_2_IDX ROW_SIZE
    rw [hxs, ← hdec]
    ring
  · -- a cell of the top halo row
    left
    obtain ⟨hb, hr0, hr1, hc0, hc1⟩ := h1
    obtain ⟨-, -, hxs, -⟩ := GetMySubarray_valid hv (r' - 1)
    obtain ⟨l, hl0, hl1, hlb, hub⟩ := lane_of_column (GetMySubarray Nx Ny W (r' - 1)) L hL
      (by rw [hxs]; exact hdiv) (col - 1) (by omega) (by omega)
    refine ⟨r' - 1, l, by omega, by omega, hl0, hl1, hb, Or.inr (Or.inr ⟨by omega, by omega,
      col - 1, hlb, hub, ?_⟩)⟩
    rw [← hdec, h3.1]
    ring
  · -- a cell of the bottom halo row
    left
    obtain ⟨hb, hr0, hr1, hc0, hc1⟩ := h1
    obtain ⟨-, -, hxs, -⟩ := GetMySubarray_valid hv (r' + 1)
    obtain ⟨l, hl0, hl1, hlb, hub⟩ := lane_of_column (GetMySubarray Nx Ny W (r' + 1)) L hL
      (by rw [hxs]; exact hdiv) (col - 1) (by omega) (by omega)
    have hoff := l_nbh_offt_prev Nx Ny W (r' + 1) (by omega)
    rw [Int.add_sub_cancel] at hoff
    refine ⟨r' + 1, l, by omega, by omega, hl0, hl1, hb, Or.inr (Or.inl ⟨by omega, by omega,
      col - 1, hlb, hub, ?_⟩)⟩
    rw [hoff, ← hdec, h4.1]
    ring
  · right
    rfl
  · right
    rfl

/-- One iteration of all processes is the closed form, whatever the order of the lanes. -/
theorem iteration_eq_globalStep {Nx Ny W L : Int} (hv : ValidConfig Nx Ny W L) (i : Nat)
    (sched : List (Int × Int)) (hs : FairSched W L sched) (w : World α) :
    iteration Nx Ny W L i sched w = globalStep Nx Ny W i w := by
  funext r' b' idx
  have hfold := iteration_fold hv i w sched hs.1 w (fun _ => rfl) r' b' idx
  by_cases hc : ∃ p ∈ sched, LaneCov Nx Ny W L i p.1 p.2 r' b' idx
  · exact hfold.1 hc
  · rw [hfold.2 hc]
    rcases globalStep_cover hv i w r' b' idx with ⟨r, l, hr0, hr1, hl0, hl1, hcov⟩ | h
    · exact absurd ⟨(r, l), hs.2 r l hr0 hr1 hl0 hl1, hcov⟩ hc
    · exact h.symm

/-- Unfolding `run` at the last iteration. -/
theorem run_succ (Nx Ny W L : Int) (scheds : Nat → List (Int × Int)) (N : Nat)
    (w : World α) :
    run Nx Ny W L scheds (N + 1) w =
      iteration Nx Ny W L N (scheds N) (run Nx Ny W L scheds N w) := by
  unfold run
  rw [List.range_succ, List.foldl_append]
  rfl

/-- The closed form keeps the read buffers. -/
theorem globalStep_read (Nx Ny W : Int) (i : Nat) (w : World α) (r : Int) :
    globalStep Nx Ny W i w r (i % 2) = w r (i % 2) := by
  funext idx
  unfold globalStep
  simp only
  rw [if_neg]
  have := pingpong_ne i
  omega

/-- The closed form keeps every cell `(x, y)` of the padded buffer of a rank that is neither
owned nor in a halo row facing a neighbour. -/
theorem globalStep_frame {Nx Ny W L : Int} (hv : ValidConfig Nx Ny W L) (i : Nat)
    (w : World α) (r : Int) (b : Nat) (x y : Int) (hx0 : -1 ≤ x) (hx1 : x ≤ Nx)
    (hn : ¬ (b = (i + 1) % 2 ∧ 0 ≤ r ∧ r < W ∧ 0 ≤ x ∧ x < Nx ∧
      ((0 ≤ y ∧ y < (GetMySubarray Nx Ny W r).y_size) ∨ (y = -1 ∧ 0 < r) ∨
        (y = (GetMySubarray Nx Ny W r).y_size ∧ r < W - 1)))) :
    globalStep Nx Ny W i w r b (XY_2_IDX x y (GetMySubarray Nx Ny W r)) =
      w r b (XY_2_IDX x y (GetMySubarray Nx Ny W r)) := by
  obtain ⟨-, -, hxs, hys⟩ := GetMySubarray_valid hv r
  have hidx : XY_2_IDX x y (GetMySubarray Nx Ny W r) = (y + 1) * (Nx + 2) + (x + 1) := by
    simp [XY_2_IDX, ROW_SIZE, hxs]
  obtain ⟨hd, hm⟩ := cell_decode (Nx + 2) (y + 1) (x + 1) (by omega) (by omega)
  unfold globalStep
  simp only [hidx, hd, hm]
  split_ifs with h1 h2 h3 h4
  · exact absurd ⟨h1.1, h1.2.1, h1.2.2.1, by omega, by omega, Or.inl (by omega)⟩ hn
  · exact absurd ⟨h1.1, h1.2.1, h1.2.2.1, by omega, by omega, Or.inr (Or.inl (by omega))⟩ hn
  · exact absurd ⟨h1.1, h1.2.1, h1.2.2.1, by omega, by omega, Or.inr (Or.inr (by omega))⟩ hn
  · rfl
  · rfl

end WorldLemmas

/-- The canonical schedule names every lane of every rank, and nothing else. -/
theorem fairSched_allLanes (W L : Nat) : FairSched (W : Int) (L : Int) (allLanes W L) := by
  unfold FairSched allLanes
  constructor
  · intro p hp
    simp only [List.mem_flatMap, List.mem_map, List.mem_range] at hp
    obtain ⟨r, hr, l, hl, rfl⟩ := hp
    simp only
    omega
  · intro r l hr0 hr1 hl0 hl1
    simp only [List.mem_flatMap, List.mem_map, List.mem_range]
    refine ⟨r.toNat, by omega, l.toNat, by omega, ?_⟩
    rw [Int.toNat_of_nonneg hr0, Int.toNat_of_nonneg hl0]

/-! ### The initial state -/

/-- Two cells of a padded buffer with the same element index have the same row and column. -/
theorem cell_inj (R ρ c ρ' c' : Int) (h0 : 0 ≤ c) (h1 : c < R) (h0' : 0 ≤ c') (h1' : c' < R)
    (h : ρ * R + c = ρ' * R + c') : ρ = ρ' ∧ c = c' := by
  obtain ⟨hd, hm⟩ := cell_decode R ρ c h0 h1
  obtain ⟨hd', hm'⟩ := cell_decode R ρ' c' h0' h1'
  rw [h] at hd hm
  exact ⟨by rw [← hd, hd'], by rw [← hm, hm']⟩

/-- A loop guarded by a condition that does not hold writes nothing. -/
theorem writes_guard {α : Type} {T : Buf α → Buf α} {P : Int → Prop} {v : Int → α}
    (g : Prop) [Decidable g] (h : Writes T P v) :
    Writes (fun buf => if g then T buf else buf) (fun idx => g ∧ P idx) v := by
  intro buf idx
  by_cases hg : g
  · simp only [hg, if_true, true_and]
    exact h buf idx
  · simp [hg]

section InitLemmas

variable {α : Type} [OfScientific α]

/-- The zero fill writes `0.0` to every cell of the padded buffer. -/
theorem writes_zeroFill (sub : subarray) :
    Writes (zeroFill (α := α) sub) (fun idx => ∃ i, 0 ≤ i ∧ i < sub.y_size + 2 ∧
      ∃ j, 0 ≤ j ∧ j < sub.x_size + 2 ∧ idx = i * (sub.x_size + 2) + j) (fun _ => 0.0) :=
  writes_forRange 0 (sub.y_size + 2) _ _ _ (fun i _ _ =>
    writes_forRange 0 (sub.x_size + 2) _ _ _ (fun j _ _ =>
      @writes_update α (i * (sub.x_size + 2) + j) (fun _ => 0.0)))

/-- On rank `0` the top loop writes `1.0` to the elements `1 .. x_size`. -/
theorem writes_setTop (sub : subarray) :
    Writes (setTop (α := α) sub)
      (fun idx => sub.rank = 0 ∧ ∃ i, 1 ≤ i ∧ i < sub.x_size + 1 ∧ idx = i) (fun _ => 1.0) :=
  writes_guard (sub.rank = 0) (writes_forRange 1 (sub.x_size + 1) _ _ _ (fun i _ _ =>
    @writes_update α i (fun _ => 1.0)))

/-- On the last rank the bottom loop writes `10.0` to the columns `1 .. x_size` of the padded
row `y_size + 1`. -/
theorem writes_setBottom (sub : subarray) :
    Writes (setBottom (α := α) sub)
      (fun idx => sub.rank = sub.comm_size - 1 ∧
        ∃ i, 1 ≤ i ∧ i < sub.x_size + 1 ∧ idx = (sub.x_size + 2) * (sub.y_size + 1) + i)
      (fun _ => 10.0) :=
  writes_guard (sub.rank = sub.comm_size - 1)
    (writes_forRange 1 (sub.x_size + 1) _ _ _ (fun i _ _ =>
      @writes_update α ((sub.x_size + 2) * (sub.y_size + 1) + i) (fun _ => 10.0)))

/-- The side loop writes `1.0` to the first and the last column of the padded rows
`1 .. y_size`. -/
theorem writes_setSides (sub : subarray) :
    Writes (setSides (α := α) sub)
      (fun idx => ∃ i, 1 ≤ i ∧ i < sub.y_size + 1 ∧
        (idx = i * (sub.x_size + 2) ∨ idx = i * (sub.x_size + 2) + sub.x_size + 1))
      (fun _ => 1.0) := by
  refine writes_forRange 1 (sub.y_size + 1) _ _ _ (fun i _ _ => ?_)
  have h1 := @writes_update α (i * (sub.x_size + 2)) (fun _ => 1.0)
  have h2 := @writes_update α (i * (sub.x_size + 2) + sub.x_size + 1) (fun _ => 1.0)
  have h := writes_comp h1 h2
  exact h

/-- Content of the initial buffers, by padded row `ρ` and column `c`: `1.0` in the side columns
of the owned rows, `10.0` in the bottom row of the last rank, `1.0` in the top row of rank
`0` (both without the corners), and `0.0` everywhere else. -/
theorem InitDeviceArrays_cell (sub : subarray) (A : Buf α) (ρ c : Int) (hc0 : 0 ≤ c)
    (hc1 : c < sub.x_size + 2) (hρ0 : 0 ≤ ρ) (hρ1 : ρ < sub.y_size + 2) :
    (InitDeviceArrays sub A).1 (ρ * (sub.x_size + 2) + c) =
      if 1 ≤ ρ ∧ ρ ≤ sub.y_size ∧ (c = 0 ∨ c = sub.x_size + 1) then 1.0
      else if sub.rank = sub.comm_size - 1 ∧ ρ = sub.y_size + 1 ∧ 1 ≤ c ∧ c ≤ sub.x_size
      then 10.0
      else if sub.rank = 0 ∧ ρ = 0 ∧ 1 ≤ c ∧ c ≤ sub.x_size then 1.0
      else 0.0 := by
  have inj := cell_inj (sub.x_size + 2)
  have h1 := writes_zeroFill (α := α) sub
  have h2 := writes_setTop (α := α) sub
  have h3 := writes_setBottom (α := α) sub
  have h4 := writes_setSides (α := α) sub
  unfold InitDeviceArrays
  simp only
  split_ifs with c4 c3 c2
  · -- a side cell of an owned row
    refine (h4 _ _).1 ⟨ρ, c4.1, by omega, ?_⟩
    rcases c4.2.2 with hc | hc
    · left
      rw [hc]
      ring
    · right
      rw [hc]
      ring
  · -- the bottom boundary
    rw [(h4 _ _).2]
    · refine (h3 _ _).1 ⟨c3.1, c, c3.2.2.1, by omega, ?_⟩
      rw [c3.2.1]
      ring
    · rintro ⟨i, hi0, hi1, hi | hi⟩
      · obtain ⟨e1, e2⟩ := inj ρ c i 0 hc0 hc1 (by omega) (by omega) (by rw [hi]; ring)
        omega
      · obtain ⟨e1, e2⟩ := inj ρ c i (sub.x_size + 1) hc0 hc1 (by omega) (by omega)
          (by rw [hi]; ring)
        omega
  · -- the top boundary
    rw [(h4 _ _).2, (h3 _ _).2]
    · refine (h2 _ _).1 ⟨c2.1, c, c2.2.2.1, by omega, ?_⟩
      rw [c2.2.1]
      ring
    · rintro ⟨hr, i, hi0, hi1, hi⟩
      obtain ⟨e1, e2⟩ := inj ρ c (sub.y_size + 1) i hc0 hc1 (by omega) (by omega)
        (by rw [hi]; ring)
      exact c3 ⟨hr, e1, by omega, by omega⟩
    · rintro ⟨i, hi0, hi1, hi | hi⟩
      · obtain ⟨e1, e2⟩ := inj ρ c i 0 hc0 hc1 (by omega) (by omega) (by rw [hi]; ring)
        omega
      · obtain ⟨e1, e2⟩ := inj ρ c i (sub.x_size + 1) hc0 hc1 (by omega) (by omega)
          (by rw [hi]; ring)
        omega
  · -- a zero cell
    rw [(h4 _ _).2, (h3 _ _).2, (h2 _ _).2]
    · exact (h1 _ _).1 ⟨ρ, hρ0, hρ1, c, hc0, hc1, rfl⟩
    · rintro ⟨hr, i, hi0, hi1, hi⟩
      obtain ⟨e1, e2⟩ := inj ρ c 0 i hc0 hc1 (by omega) (by omega) (by rw [hi]; ring)
      exact c2 ⟨hr, e1, by omega, by omega⟩
    · rintro ⟨hr, i, hi0, hi1, hi⟩
      obtain ⟨e1, e2⟩ := inj ρ c (sub.y_size + 1) i hc0 hc1 (by omega) (by omega)
        (by rw [hi]; ring)
      exact c3 ⟨hr, e1, by omega, by omega⟩
    · rintro ⟨i, hi0, hi1, hi | hi⟩
      · obtain ⟨e1, e2⟩ := inj ρ c i 0 hc0 hc1 (by omega) (by omega) (by rw [hi]; ring)
        exact c4 ⟨by omega, by omega, Or.inl e2⟩
      · obtain ⟨e1, e2⟩ := inj ρ c i (sub.x_size + 1) hc0 hc1 (by omega) (by omega)
          (by rw [hi]; ring)
        exact c4 ⟨by omega, by omega, Or.inr e2⟩

/-- C10: for a worker descriptor with a non-negative `y_size`, after `InitDeviceArrays` both
buffers are equal; every owned cell is `0.0`; a cell of padded row `0` in columns
`1 .. x_size` is `1.0` on rank `0` and `0.0` on every other rank; a cell of padded row
`y_size + 1` in columns `1 .. x_size` is `10.0` on rank `comm_size - 1` and `0.0` on every
other rank (a single worker has both); so, the constants being different from `0.0`, the top
row is `1.0` exactly on the topmost and the bottom row `10.0` exactly on the bottommost
worker. -/
theorem init_top_bottom (sub : subarray) (A : Buf α) (hy : 0 ≤ sub.y_size) :
    (InitDeviceArrays sub A).1 = (InitDeviceArrays sub A).2 ∧
    (∀ x y, 0 ≤ x → x < sub.x_size → 0 ≤ y → y < sub.y_size →
      (InitDeviceArrays sub A).1 (XY_2_IDX x y sub) = 0.0) ∧
    (∀ x, 0 ≤ x → x < sub.x_size →
      (InitDeviceArrays sub A).1 (XY_2_IDX x (-1) sub) =
          (if sub.rank = 0 then 1.0 else 0.0) ∧
        (InitDeviceArrays sub A).1 (XY_2_IDX x sub.y_size sub) =
          (if sub.rank = sub.comm_size - 1 then 10.0 else 0.0)) ∧
    ((1.0 : α) ≠ 0.0 → (10.0 : α) ≠ 0.0 → ∀ x, 0 ≤ x → x < sub.x_size →
      ((InitDeviceArrays sub A).1 (XY_2_IDX x (-1) sub) = 1.0 ↔ sub.rank = 0) ∧
        ((InitDeviceArrays sub A).1 (XY_2_IDX x sub.y_size sub) = 10.0 ↔
          sub.rank = sub.comm_size - 1)) := by
  have hcell := InitDeviceArrays_cell sub A
  have hvals : ∀ x, 0 ≤ x → x < sub.x_size →
      (InitDeviceArrays sub A).1 (XY_2_IDX x (-1) sub) =
          (if sub.rank = 0 then 1.0 else 0.0) ∧
        (InitDeviceArrays sub A).1 (XY_2_IDX x sub.y_size sub) =
          (if sub.rank = sub.comm_size - 1 then 10.0 else 0.0) := by
    intro x hx0 hx1
    constructor
    · have h := hcell (-1 + 1) (x + 1) (by omega) (by omega) (by omega) (by omega)
      unfold XY_2_IDX ROW_SIZE
      rw [h, if_neg (by omega), if_neg (by omega)]
      by_cases hr : sub.rank = 0
      · rw [if_pos ⟨hr, by omega, by omega, by omega⟩, if_pos hr]
      · rw [if_neg (fun h => hr h.1), if_neg hr]
    · have h := hcell (sub.y_size + 1) (x + 1) (by omega) (by omega) (by omega) (by omega)
      unfold XY_2_IDX ROW_SIZE
      rw [h, if_neg (by omega)]
      by_cases hr : sub.rank = sub.comm_size - 1
      · rw [if_pos ⟨hr, by omega, by omega, by omega⟩, if_pos hr]
      · rw [if_neg (fun h => hr h.1), if_neg (by omega), if_neg hr]
  refine ⟨rfl, ?_, hvals, ?_⟩
  · intro x y hx0 hx1 hy0 hy1
    have h := hcell (y + 1) (x + 1) (by omega) (by omega) (by omega) (by omega)
    unfold XY_2_IDX ROW_SIZE
    rw [h, if_neg (by omega), if_neg (by omega), if_neg (by omega)]
  · intro h1 h10 x hx0 hx1
    obtain ⟨ht, hb⟩ := hvals x hx0 hx1
    rw [ht, hb]
    constructor
    · by_cases hr : sub.rank = 0
      · simp [hr]
      · simp only [hr, if_false, iff_false]
        exact fun h => h1 h.symm
    · by_cases hr : sub.rank = sub.comm_size - 1
      · simp [hr]
      · simp only [hr, if_false, iff_false]
        exact fun h => h10 h.symm

/-- Witness of C10: a single worker (`rank = 0 = comm_size - 1`) with four columns and two
rows over the rationals, column `0`: the top row is `1.0` and the bottom row `10.0`. -/
theorem init_top_bottom_witness :
    (InitDeviceArrays ⟨0, 1, 4, 2, 19⟩ (fun _ => (7 : ℚ))).1 (XY_2_IDX 0 (-1) ⟨0, 1, 4, 2, 19⟩) =
        (if (⟨0, 1, 4, 2, 19⟩ : subarray).rank = 0 then 1.0 else 0.0) ∧
      (InitDeviceArrays ⟨0, 1, 4, 2, 19⟩ (fun _ => (7 : ℚ))).1
          (XY_2_IDX 0 (⟨0, 1, 4, 2, 19⟩ : subarray).y_size ⟨0, 1, 4, 2, 19⟩) =
        (if (⟨0, 1, 4, 2, 19⟩ : subarray).rank = (⟨0, 1, 4, 2, 19⟩ : subarray).comm_size - 1
          then 10.0 else 0.0) :=
  (init_top_bottom ⟨0, 1, 4, 2, 19⟩ (fun _ => (7 : ℚ)) (by decide)).2.2.1 0 (by decide)
    (by decide)

/-- The initial state of a rank is the staging buffer, in both device buffers. -/
theorem initWorld_apply (Nx Ny W : Int) (host : Int → Buf α) (r : Int) (b : Nat) :
    initWorld Nx Ny W host r b = (InitDeviceArrays (GetMySubarray Nx Ny W r) (host r)).1 := by
  unfold initWorld
  split_ifs <;> rfl

/-- A boundary cell holds its constant in the initial state. -/
theorem boundary_init {Nx Ny W L : Int} (hv : ValidConfig Nx Ny W L) (host : Int → Buf α)
    (r : Int) (b : Nat) (x y : Int) (hc : BoundaryCell Nx Ny W r x y) :
    initWorld Nx Ny W host r b (XY_2_IDX x y (GetMySubarray Nx Ny W r)) =
      if y = (GetMySubarray Nx Ny W r).y_size then 10.0 else 1.0 := by
  obtain ⟨hrank, hcs, hxs, hys⟩ := GetMySubarray_valid hv r
  have hNx : 0 ≤ Nx := hv.1
  unfold BoundaryCell at hc
  have hx : -1 ≤ x ∧ x ≤ Nx := by omega
  have hyr : -1 ≤ y ∧ y ≤ (GetMySubarray Nx Ny W r).y_size := by omega
  have h := InitDeviceArrays_cell (GetMySubarray Nx Ny W r) (host r) (y + 1) (x + 1)
    (by omega) (by omega) (by omega) (by omega)
  rw [initWorld_apply]
  unfold XY_2_IDX ROW_SIZE
  rw [h, hrank, hcs, hxs]
  rcases hc with ⟨h0, h1, h2⟩ | ⟨h0, h1, h2, h3⟩ | ⟨h0, h1, h2, h3⟩
  · rw [if_pos ⟨by omega, by omega, by omega⟩, if_neg (by omega)]
  · rw [if_neg (by omega), if_neg (by omega), if_pos ⟨h0, by omega, by omega, by omega⟩,
      if_neg (by omega)]
  · rw [if_neg (by omega), if_pos ⟨h0, by omega, by omega, by omega⟩, if_pos h1]

/-- C11 (counterexample): for a single worker with four columns and two rows over the
rationals it is false that the side columns hold `1.0` in every row `0 .. y_size + 1` of the
padded buffer: the corner in padded row `0`, column `0` holds `0.0`. -/
theorem side_columns_every_row_fails :
    ¬ (∀ ρ : Int, 0 ≤ ρ → ρ ≤ (⟨0, 1, 4, 2, 19⟩ : subarray).y_size + 1 →
      (InitDeviceArrays ⟨0, 1, 4, 2, 19⟩ (fun _ => (7 : ℚ))).1
          (ρ * ((⟨0, 1, 4, 2, 19⟩ : subarray).x_size + 2) + 0) = 1.0 ∧
        (InitDeviceArrays ⟨0, 1, 4, 2, 19⟩ (fun _ => (7 : ℚ))).1
          (ρ * ((⟨0, 1, 4, 2, 19⟩ : subarray).x_size + 2) +
            ((⟨0, 1, 4, 2, 19⟩ : subarray).x_size + 1)) = 1.0) := by
  intro h
  have h0 := (h 0 (by decide) (by decide)).1
  have e := InitDeviceArrays_cell (⟨0, 1, 4, 2, 19⟩ : subarray) (fun _ => (7 : ℚ)) 0 0
    (by decide) (by decide) (by decide) (by decide)
  rw [e] at h0
  norm_num at h0

/-- C11 (amended): for every worker descriptor with `x_size ≥ 0`, after `InitDeviceArrays`
the leftmost padded column (cell `(-1, y)`) and the rightmost padded column (cell
`(x_size, y)`) hold `1.0` in every owned row `y = 0 .. y_size - 1`, that is in the padded
rows `1 .. y_size`, in both buffers; the four corner cells of the padded buffer, in the
padded rows `0` and `y_size + 1`, hold `0.0`. -/
theorem side_columns_init (sub : subarray) (A : Buf α) (hx : 0 ≤ sub.x_size) :
    (∀ y, 0 ≤ y → y < sub.y_size →
      (InitDeviceArrays sub A).1 (XY_2_IDX (-1) y sub) = 1.0 ∧
        (InitDeviceArrays sub A).1 (XY_2_IDX sub.x_size y sub) = 1.0 ∧
        (InitDeviceArrays sub A).2 (XY_2_IDX (-1) y sub) = 1.0 ∧
        (InitDeviceArrays sub A).2 (XY_2_IDX sub.x_size y sub) = 1.0) ∧
    (0 ≤ sub.y_size →
      (InitDeviceArrays sub A).1 (XY_2_IDX (-1) (-1) sub) = 0.0 ∧
        (InitDeviceArrays sub A).1 (XY_2_IDX sub.x_size (-1) sub) = 0.0 ∧
        (InitDeviceArrays sub A).1 (XY_2_IDX (-1) sub.y_size sub) = 0.0 ∧
        (InitDeviceArrays sub A).1 (XY_2_IDX sub.x_size sub.y_size sub) = 0.0) := by
  have hcell := InitDeviceArrays_cell sub A
  have h2 : (InitDeviceArrays sub A).2 = (InitDeviceArrays sub A).1 := rfl
  constructor
  · intro y hy0 hy1
    have hl := hcell (y + 1) (-1 + 1) (by omega) (by omega) (by omega) (by omega)
    have hr := hcell (y + 1) (sub.x_size + 1) (by omega) (by omega) (by omega) (by omega)
    rw [if_pos ⟨by omega, by omega, Or.inl (by omega)⟩] at hl
    rw [if_pos ⟨by omega, by omega, Or.inr rfl⟩] at hr
    rw [h2]
    unfold XY_2_IDX ROW_SIZE
    exact ⟨hl, hr, hl, hr⟩
  · intro hy
    have c1 := hcell (-1 + 1) (-1 + 1) (by omega) (by omega) (by omega) (by omega)
    have c2 := hcell (-1 + 1) (sub.x_size + 1) (by omega) (by omega) (by omega) (by omega)
    have c3 := hcell (sub.y_size + 1) (-1 + 1) (by omega) (by omega) (by omega) (by omega)
    have c4 := hcell (sub.y_size + 1) (sub.x_size + 1) (by omega) (by omega) (by omega)
      (by omega)
    rw [if_neg (by omega), if_neg (by omega), if_neg (by omega)] at c1 c2 c3 c4
    unfold XY_2_IDX ROW_SIZE
    exact ⟨c1, c2, c3, c4⟩

/-- Witness of C11 (amended): a single worker with four columns and two rows over the
rationals, owned row `1`. -/
theorem side_columns_init_witness :
    (InitDeviceArrays ⟨0, 1, 4, 2, 19⟩ (fun _ => (7 : ℚ))).1
        (XY_2_IDX (-1) 1 ⟨0, 1, 4, 2, 19⟩) = 1.0 ∧
      (InitDeviceArrays ⟨0, 1, 4, 2, 19⟩ (fun _ => (7 : ℚ))).1
        (XY_2_IDX (⟨0, 1, 4, 2, 19⟩ : subarray).x_size 1 ⟨0, 1, 4, 2, 19⟩) = 1.0 :=
  ⟨((side_columns_init ⟨0, 1, 4, 2, 19⟩ (fun _ => (7 : ℚ)) (by decide)).1 1 (by decide)
      (by decide)).1,
    ((side_columns_init ⟨0, 1, 4, 2, 19⟩ (fun _ => (7 : ℚ)) (by decide)).1 1 (by decide)
      (by decide)).2.1⟩

end InitLemmas

section Claims

variable {α : Type} [Add α] [Mul α] [OfScientific α]

/-- The stencil update on the memory of all ranks: in a valid configuration, after an
iteration in which every lane of every rank has run and every transfer is delivered, an owned
cell of the write buffer of a rank holds the update expression of the read buffer of that
rank as it was when the iteration started; no transfer of a neighbour disturbs it. -/
theorem stencil_update_world {Nx Ny W L : Int} (hv : ValidConfig Nx Ny W L) (i : Nat)
    (sched : List (Int × Int)) (hs : FairSched W L sched) (w : World α) (r : Int)
    (hr0 : 0 ≤ r) (hr1 : r < W) (x y : Int) (hx0 : 0 ≤ x) (hx1 : x < Nx) (hy0 : 0 ≤ y)
    (hy1 : y < (GetMySubarray Nx Ny W r).y_size) :
    iteration Nx Ny W L i sched w r ((i + 1) % 2) (XY_2_IDX x y (GetMySubarray Nx Ny W r)) =
      0.25 * (w r (i % 2) (XY_2_IDX (x - 1) y (GetMySubarray Nx Ny W r))
        + w r (i % 2) (XY_2_IDX (x + 1) y (GetMySubarray Nx Ny W r))
        + w r (i % 2) (XY_2_IDX x (y - 1) (GetMySubarray Nx Ny W r))
        + w r (i % 2) (XY_2_IDX x (y + 1) (GetMySubarray Nx Ny W r))) := by
  obtain ⟨n1, n2, n3, n4⟩ := XY_2_IDX_neighbours x y (GetMySubarray Nx Ny W r)
  rw [iteration_eq_globalStep hv i sched hs w, globalStep_owned hv i w r x y hr0 hr1 hx0 hx1
    hy0 hy1, n1, n2, n3, n4]
  rfl

/-- C2: in a valid configuration (decomposition by `GetMySubarray`, no more workers than
rows, lane count dividing `Nx`), for adjacent ranks `r - 1` and `r`, once every lane of every
rank has run iteration `i` and its transfers are delivered (in any order of the lanes): the
bottom halo row of rank `r - 1` in buffer `(i+1) % 2` equals row `0` of rank `r` in its
buffer `(i+1) % 2`, which is the update expression of the read buffer of rank `r` at the
start of iteration `i`; and the top halo row of rank `r` equals the last owned row of rank
`r - 1`, which is the update expression of the read buffer of rank `r - 1`. -/
theorem halo_consistency {Nx Ny W L : Int} (hv : ValidConfig Nx Ny W L) (i : Nat)
    (sched : List (Int × Int)) (hs : FairSched W L sched) (w : World α) (r : Int)
    (hr0 : 1 ≤ r) (hr1 : r < W) (x : Int) (hx0 : 0 ≤ x) (hx1 : x < Nx) :
    iteration Nx Ny W L i sched w (r - 1) ((i + 1) % 2)
        (XY_2_IDX x (GetMySubarray Nx Ny W (r - 1)).y_size (GetMySubarray Nx Ny W (r - 1))) =
      iteration Nx Ny W L i sched w r ((i + 1) % 2) (XY_2_IDX x 0 (GetMySubarray Nx Ny W r)) ∧
    iteration Nx Ny W L i sched w r ((i + 1) % 2) (XY_2_IDX x 0 (GetMySubarray Nx Ny W r)) =
      stencil (w r (i % 2)) (GetMySubarray Nx Ny W r)
        (XY_2_IDX x 0 (GetMySubarray Nx Ny W r)) ∧
    iteration Nx Ny W L i sched w r ((i + 1) % 2) (XY_2_IDX x (-1) (GetMySubarray Nx Ny W r)) =
      iteration Nx Ny W L i sched w (r - 1) ((i + 1) % 2)
        (XY_2_IDX x ((GetMySubarray Nx Ny W (r - 1)).y_size - 1)
          (GetMySubarray Nx Ny W (r - 1))) ∧
    iteration Nx Ny W L i sched w (r - 1) ((i + 1) % 2)
        (XY_2_IDX x ((GetMySubarray Nx Ny W (r - 1)).y_size - 1)
          (GetMySubarray Nx Ny W (r - 1))) =
      stencil (w (r - 1) (i % 2)) (GetMySubarray Nx Ny W (r - 1))
        (XY_2_IDX x ((GetMySubarray Nx Ny W (r - 1)).y_size - 1)
          (GetMySubarray Nx Ny W (r - 1))) := by
  obtain ⟨-, -, hxs, hys⟩ := GetMySubarray_valid hv r
  obtain ⟨-, -, hxs', hys'⟩ := GetMySubarray_valid hv (r - 1)
  rw [iteration_eq_globalStep hv i sched hs w]
  have hbot : XY_2_IDX x (GetMySubarray Nx Ny W (r - 1)).y_size
      (GetMySubarray Nx Ny W (r - 1)) =
      (Nx + 2) * ((GetMySubarray Nx Ny W (r - 1)).y_size + 1) + 1 + x := by
    unfold XY_2_IDX ROW_SIZE
    rw [hxs']
    ring
  have htop : XY_2_IDX x (-1) (GetMySubarray Nx Ny W r) = 1 + x := by
    unfold XY_2_IDX ROW_SIZE
    ring
  have e1 := globalStep_bottom hv i w (r - 1) x (by omega) (by omega) hx0 hx1
  rw [Int.sub_add_cancel] at e1
  have e2 := globalStep_owned hv i w r x 0 (by omega) hr1 hx0 hx1 (by omega) (by omega)
  have e3 := globalStep_top hv i w r x hr0 hr1 hx0 hx1
  have e4 := globalStep_owned hv i w (r - 1) x ((GetMySubarray Nx Ny W (r - 1)).y_size - 1)
    (by omega) (by omega) hx0 hx1 (by omega) (by omega)
  rw [hbot, htop, e1, e2, e3, e4]
  exact ⟨rfl, rfl, rfl, rfl⟩

/-- Witness of C2: `W = 2`, `Nx = 4`, `Ny = 4`, two lanes, the first iteration from the
initial state, ranks `0` and `1`, column `0`. -/
theorem halo_consistency_witness :
    iteration 4 4 2 2 0 (allLanes 2 2) (initWorld 4 4 2 (fun _ _ => (0 : ℚ))) (1 - 1)
        ((0 + 1) % 2)
        (XY_2_IDX 0 (GetMySubarray 4 4 2 (1 - 1)).y_size (GetMySubarray 4 4 2 (1 - 1))) =
      iteration 4 4 2 2 0 (allLanes 2 2) (initWorld 4 4 2 (fun _ _ => (0 : ℚ))) 1
        ((0 + 1) % 2) (XY_2_IDX 0 0 (GetMySubarray 4 4 2 1)) :=
  (halo_consistency (by unfold ValidConfig; decide) 0 (allLanes 2 2) (fairSched_allLanes 2 2)
    (initWorld 4 4 2 (fun _ _ => (0 : ℚ))) 1 (by decide) (by decide) 0 (by decide)
    (by decide)).1

/-- No lane writes a boundary cell: an iteration keeps it, in both buffers. -/
theorem boundary_frame {Nx Ny W L : Int} (hv : ValidConfig Nx Ny W L) (i : Nat)
    (sched : List (Int × Int)) (hs : FairSched W L sched) (w : World α) (r : Int) (b : Nat)
    (x y : Int) (hc : BoundaryCell Nx Ny W r x y) :
    iteration Nx Ny W L i sched w r b (XY_2_IDX x y (GetMySubarray Nx Ny W r)) =
      w r b (XY_2_IDX x y (GetMySubarray Nx Ny W r)) := by
  obtain ⟨-, -, -, hys⟩ := GetMySubarray_valid hv r
  have hNx : 0 ≤ Nx := hv.1
  unfold BoundaryCell at hc
  rw [iteration_eq_globalStep hv i sched hs w]
  exact globalStep_frame hv i w r b x y (by omega) (by omega) (by omega)

/-- A boundary cell holds its constant after any number of iterations. -/
theorem boundary_run {Nx Ny W L : Int} (hv : ValidConfig Nx Ny W L)
    (scheds : Nat → List (Int × Int)) (hs : ∀ i, FairSched W L (scheds i))
    (host : Int → Buf α) (N : Nat) (r : Int) (b : Nat) (x y : Int)
    (hc : BoundaryCell Nx Ny W r x y) :
    run Nx Ny W L scheds N (initWorld Nx Ny W host) r b
        (XY_2_IDX x y (GetMySubarray Nx Ny W r)) =
      if y = (GetMySubarray Nx Ny W r).y_size then 10.0 else 1.0 := by
  induction N with
  | zero => exact boundary_init hv host r b x y hc
  | succ N ih => rw [run_succ, boundary_frame hv N (scheds N) (hs N) _ r b x y hc, ih]

/-- C9: in a valid configuration, for every rank `r`, both buffers `b` and every number `N` of
iterations (transfers delivered, any order of the lanes in each iteration): the left and the
right padded column hold `1.0` in every owned row, the top border row of rank `0` holds
`1.0` and the bottom border row of rank `W - 1` holds `10.0`; and an iteration started from any
world leaves each of these cells as it was, so neither the stencil nor a transfer writes
them. -/
theorem boundary_persist {Nx Ny W L : Int} (hv : ValidConfig Nx Ny W L)
    (scheds : Nat → List (Int × Int)) (hs : ∀ i, FairSched W L (scheds i))
    (host : Int → Buf α) (N : Nat) (r : Int) (b : Nat) :
    (∀ y, 0 ≤ y → y < (GetMySubarray Nx Ny W r).y_size →
      run Nx Ny W L scheds N (initWorld Nx Ny W host) r b
          (XY_2_IDX (-1) y (GetMySubarray Nx Ny W r)) = 1.0 ∧
        run Nx Ny W L scheds N (initWorld Nx Ny W host) r b
          (XY_2_IDX Nx y (GetMySubarray Nx Ny W r)) = 1.0) ∧
    (r = 0 → ∀ x, 0 ≤ x → x < Nx →
      run Nx Ny W L scheds N (initWorld Nx Ny W host) r b
        (XY_2_IDX x (-1) (GetMySubarray Nx Ny W r)) = 1.0) ∧
    (r = W - 1 → ∀ x, 0 ≤ x → x < Nx →
      run Nx Ny W L scheds N (initWorld Nx Ny W host) r b
        (XY_2_IDX x (GetMySubarray Nx Ny W r).y_size (GetMySubarray Nx Ny W r)) = 10.0) ∧
    (∀ (w : World α) (i : Nat) (x y : Int), BoundaryCell Nx Ny W r x y →
      iteration Nx Ny W L i (scheds i) w r b (XY_2_IDX x y (GetMySubarray Nx Ny W r)) =
        w r b (XY_2_IDX x y (GetMySubarray Nx Ny W r))) := by
  obtain ⟨-, -, -, hys⟩ := GetMySubarray_valid hv r
  have hrun := boundary_run hv scheds hs host N r b
  refine ⟨?_, ?_, ?_, ?_⟩
  · intro y hy0 hy1
    constructor
    · rw [hrun (-1) y (Or.inl ⟨hy0, hy1, Or.inl rfl⟩), if_neg (by omega)]
    · rw [hrun Nx y (Or.inl ⟨hy0, hy1, Or.inr rfl⟩), if_neg (by omega)]
  · intro hr x hx0 hx1
    rw [hrun x (-1) (Or.inr (Or.inl ⟨hr, rfl, hx0, hx1⟩)), if_neg (by omega)]
  · intro hr x hx0 hx1
    rw [hrun x _ (Or.inr (Or.inr ⟨hr, rfl, hx0, hx1⟩)), if_pos rfl]
  · intro w i x y hc
    exact boundary_frame hv i (scheds i) (hs i) w r b x y hc

/-- Witness of C9: `W = 2`, `Nx = 4`, `Ny = 4`, two lanes, three iterations over the
rationals; rank `1` is the bottommost worker, and column `0` of its bottom border row in
buffer `1` holds `10.0`. -/
theorem boundary_persist_witness :
    run 4 4 2 2 (fun _ => allLanes 2 2) 3 (initWorld 4 4 2 (fun _ _ => (0 : ℚ))) 1 1
      (XY_2_IDX 0 (GetMySubarray 4 4 2 1).y_size (GetMySubarray 4 4 2 1)) = 10.0 :=
  (boundary_persist (by unfold ValidConfig; decide) (fun _ => allLanes 2 2)
    (fun _ => fairSched_allLanes 2 2) (fun _ _ => (0 : ℚ)) 3 1 1).2.2.1 (by decide) 0
    (by decide) (by decide)

/-- The scenario of C2 evaluated over the rationals (`W = 2`, `Nx = 4`, `Ny = 4`, first
iteration from the initial state): column `0` of the bottom halo row of rank `0` is `0`
before the iteration and `1/4` after it, the value rank `1` computes for its cell `(0, 0)`. -/
theorem halo_fresh_example :
    initWorld 4 4 2 (fun _ _ => (0 : ℚ)) 0 1
        (XY_2_IDX 0 (GetMySubarray 4 4 2 0).y_size (GetMySubarray 4 4 2 0)) = 0 ∧
      iteration 4 4 2 2 0 (allLanes 2 2) (initWorld 4 4 2 (fun _ _ => (0 : ℚ))) 0 1
        (XY_2_IDX 0 (GetMySubarray 4 4 2 0).y_size (GetMySubarray 4 4 2 0)) = 1 / 4 := by
  have hv : ValidConfig 4 4 2 2 := by unfold ValidConfig; decide
  have h := globalStep_bottom hv 0 (initWorld 4 4 2 (fun _ _ => (0 : ℚ))) 0 0 (by decide)
    (by decide) (by decide) (by decide)
  have hS0 : GetMySubarray 4 4 2 0 = ⟨0, 2, 4, 2, 19⟩ := by decide
  have hS1 : GetMySubarray 4 4 2 (0 + 1) = ⟨1, 2, 4, 2, 19⟩ := by decide
  have c0 := InitDeviceArrays_cell (⟨0, 2, 4, 2, 19⟩ : subarray) (fun _ => (0 : ℚ))
  have c1 := InitDeviceArrays_cell (⟨1, 2, 4, 2, 19⟩ : subarray) (fun _ => (0 : ℚ))
  constructor
  · rw [initWorld_apply, hS0]
    have e := c0 3 1 (by decide) (by decide) (by decide) (by decide)
    simp only [XY_2_IDX, ROW_SIZE]
    norm_num at e ⊢
    exact e
  · rw [iteration_eq_globalStep hv 0 (allLanes 2 2) (fairSched_allLanes 2 2)]
    rw [hS0] at h ⊢
    rw [hS1, initWorld_apply, hS1] at h
    unfold stencil at h
    have e1 := c1 1 0 (by decide) (by decide) (by decide) (by decide)
    have e2 := c1 1 2 (by decide) (by decide) (by decide) (by decide)
    have e3 := c1 0 1 (by decide) (by decide) (by decide) (by decide)
    have e4 := c1 2 1 (by decide) (by decide) (by decide) (by decide)
    simp only [XY_2_IDX, ROW_SIZE] at h ⊢
    norm_num at e1 e2 e3 e4 h ⊢
    rw [e1, e2, e3, e4] at h
    rw [h]
    norm_num

/-- The reference iteration never changes a cell outside the owned range. -/
theorem jacobiRef_border (Nx Ny : Int) (n : Nat) (g : Int → Int → α) (x y : Int)
    (h : ¬ (0 ≤ x ∧ x < Nx ∧ 0 ≤ y ∧ y < Ny)) : jacobiRef Nx Ny n g x y = g x y := by
  induction n with
  | zero => rfl
  | succ n ih =>
    show jacobiRefStep Nx Ny (jacobiRef Nx Ny n g) x y = g x y
    unfold jacobiRefStep
    rw [if_neg h, ih]

/-- The descriptor of a single worker. -/
theorem GetMySubarray_single (Nx Ny : Int) :
    (GetMySubarray Nx Ny 1 0).rank = 0 ∧ (GetMySubarray Nx Ny 1 0).comm_size = 1 ∧
      (GetMySubarray Nx Ny 1 0).x_size = Nx ∧ (GetMySubarray Nx Ny 1 0).y_size = Ny := by
  obtain ⟨h1, h2, h3, h4, -⟩ := GetMySubarray_fields Nx Ny 1 0
  refine ⟨h1, h2, h3, ?_⟩
  rw [h4]
  simp

/-- Single worker, invariant of the iterations: on the whole padded grid the buffer written
last agrees with the reference, and the other buffer still has the initial border. -/
theorem single_worker_inv {Nx Ny L : Int} (hv : ValidConfig Nx Ny 1 L)
    (scheds : Nat → List (Int × Int)) (hs : ∀ i, FairSched 1 L (scheds i))
    (host : Int → Buf α) (N : Nat) :
    (∀ x y, -1 ≤ x → x ≤ Nx → -1 ≤ y → y ≤ Ny →
      run Nx Ny 1 L scheds N (initWorld Nx Ny 1 host) 0 (N % 2)
          (XY_2_IDX x y (GetMySubarray Nx Ny 1 0)) =
        jacobiRef Nx Ny N (fun x y => (InitDeviceArrays (GetMySubarray Nx Ny 1 0) (host 0)).1
          (XY_2_IDX x y (GetMySubarray Nx Ny 1 0))) x y) ∧
    (∀ x y, -1 ≤ x → x ≤ Nx → -1 ≤ y → y ≤ Ny → ¬ (0 ≤ x ∧ x < Nx ∧ 0 ≤ y ∧ y < Ny) →
      run Nx Ny 1 L scheds N (initWorld Nx Ny 1 host) 0 ((N + 1) % 2)
          (XY_2_IDX x y (GetMySubarray Nx Ny 1 0)) =
        (InitDeviceArrays (GetMySubarray Nx Ny 1 0) (host 0)).1
          (XY_2_IDX x y (GetMySubarray Nx Ny 1 0))) := by
  obtain ⟨-, -, -, hys⟩ := GetMySubarray_single Nx Ny
  induction N with
  | zero =>
    constructor
    · intro x y _ _ _ _
      show initWorld Nx Ny 1 host 0 (0 % 2) _ = _
      rw [initWorld_apply]
      rfl
    · intro x y _ _ _ _ _
      show initWorld Nx Ny 1 host 0 ((0 + 1) % 2) _ = _
      rw [initWorld_apply]
  | succ N ih =>
    obtain ⟨ih1, ih2⟩ := ih
    rw [run_succ, iteration_eq_globalStep hv N (scheds N) (hs N)]
    have hpar : (N + 1 + 1) % 2 = N % 2 := by omega
    constructor
    · intro x y hx0 hx1 hy0 hy1
      by_cases hown : 0 ≤ x ∧ x < Nx ∧ 0 ≤ y ∧ y < Ny
      · obtain ⟨n1, n2, n3, n4⟩ := XY_2_IDX_neighbours x y (GetMySubarray Nx Ny 1 0)
        rw [globalStep_owned hv N _ 0 x y (by omega) (by omega) hown.1 hown.2.1 hown.2.2.1
          (by omega)]
        unfold stencil
        rw [← n1, ← n2, ← n3, ← n4, ih1 (x - 1) y (by omega) (by omega) hy0 hy1,
          ih1 (x + 1) y (by omega) (by omega) hy0 hy1,
          ih1 x (y - 1) hx0 hx1 (by omega) (by omega),
          ih1 x (y + 1) hx0 hx1 (by omega) (by omega)]
        show _ = jacobiRefStep Nx Ny (jacobiRef Nx Ny N _) x y
        unfold jacobiRefStep
        rw [if_pos hown]
      · rw [globalStep_frame hv N _ 0 _ x y hx0 hx1 (by omega),
          ih2 x y hx0 hx1 hy0 hy1 hown, jacobiRef_border Nx Ny (N + 1) _ x y hown]
    · intro x y hx0 hx1 hy0 hy1 hown
      rw [hpar, globalStep_read, ih1 x y hx0 hx1 hy0 hy1, jacobiRef_border Nx Ny N _ x y hown]

/-- C8: a single worker (`W = 1`) with a lane count dividing `Nx`: no lane issues a
put-with-notify in any iteration, the expected notification count is `0`, and after `N`
iterations (any order of the lanes) every owned cell of the buffer written last,
`A_device[N % 2]`, equals the result of `N` steps of the single-process reference Jacobi
iteration started from the same initial padded grid. -/
theorem single_worker {Nx Ny L : Int} (hL : 1 ≤ L) (hdiv : Int.tmod Nx L = 0)
    (scheds : Nat → List (Int × Int)) (hs : ∀ i, FairSched 1 L (scheds i))
    (host : Int → Buf α) (N : Nat) :
    (∀ (l : Int) (i : Nat), lanePuts (GetMySubarray Nx Ny 1 0) L l i = []) ∧
    c_expected (GetMySubarray Nx Ny 1 0) L = 0 ∧
    ∀ x y, 0 ≤ x → x < Nx → 0 ≤ y → y < Ny →
      run Nx Ny 1 L scheds N (initWorld Nx Ny 1 host) 0 (N % 2)
          (XY_2_IDX x y (GetMySubarray Nx Ny 1 0)) =
        jacobiRef Nx Ny N (fun x y => (InitDeviceArrays (GetMySubarray Nx Ny 1 0) (host 0)).1
          (XY_2_IDX x y (GetMySubarray Nx Ny 1 0))) x y := by
  obtain ⟨hrank, hcs, -, -⟩ := GetMySubarray_single Nx Ny
  refine ⟨?_, ?_, ?_⟩
  · intro l i
    unfold lanePuts
    simp [hrank, hcs]
  · unfold c_expected
    simp [hrank, hcs]
  · intro x y hx0 hx1 hy0 hy1
    have hv : ValidConfig Nx Ny 1 L := ⟨by omega, le_refl 1, by omega, hL, hdiv⟩
    exact (single_worker_inv hv scheds hs host N).1 x y (by omega) (by omega) (by omega)
      (by omega)

/-- Witness of C8: one worker, `Nx = 4`, `Ny = 2`, two lanes, three iterations over the
rationals, the owned cell `(0, 0)`. -/
theorem single_worker_witness :
    run 4 2 1 2 (fun _ => allLanes 1 2) 3 (initWorld 4 2 1 (fun _ _ => (0 : ℚ))) 0 (3 % 2)
        (XY_2_IDX 0 0 (GetMySubarray 4 2 1 0)) =
      jacobiRef 4 2 3 (fun x y => (InitDeviceArrays (GetMySubarray 4 2 1 0)
        ((fun _ _ => (0 : ℚ)) 0)).1 (XY_2_IDX x y (GetMySubarray 4 2 1 0))) 0 0 :=
  (single_worker (by decide) (by decide) (fun _ => allLanes 1 2)
    (fun _ => fairSched_allLanes 1 2) (fun _ _ => (0 : ℚ)) 3).2.2 0 0 (by decide) (by decide)
    (by decide) (by decide)

/-- The transfers of a lane, written out: the upward one on every rank but `0`, then the
downward one on every rank but the last. -/
theorem lanePuts_cases (S : subarray) (L l : Int) (i : Nat) :
    lanePuts S L l i =
      (if S.rank ≠ 0 then
        [(⟨(i + 1) % 2, XY_2_IDX (my_x_lb S L l) 0 S, col_per_wg S L, S.rank - 1,
          S.l_nbh_offt + my_x_lb S L l, col_per_wg S L, 0, (i + 1) % 2⟩ : PutNotify)]
      else []) ++
      (if S.rank ≠ S.comm_size - 1 then
        [(⟨(i + 1) % 2, XY_2_IDX (my_x_lb S L l) (S.y_size - 1) S, col_per_wg S L, S.rank + 1,
          1 + my_x_lb S L l, col_per_wg S L, 0, (i + 1) % 2⟩ : PutNotify)]
      else []) := rfl

/-- Every transfer of iteration `i` uses window `(i + 1) % 2`, reads the write buffer and
notifies counter `0`. -/
theorem lanePuts_win (S : subarray) (L l : Int) (i : Nat) (p : PutNotify)
    (hp : p ∈ lanePuts S L l i) :
    p.win = (i + 1) % 2 ∧ p.origin_buf = (i + 1) % 2 ∧ p.notification_idx = 0 ∧
      (p.target_rank = S.rank - 1 ∨ p.target_rank = S.rank + 1) := by
  rw [lanePuts_cases] at hp
  rcases List.mem_append.1 hp with h | h
  · split_ifs at h
    · rw [List.mem_singleton.1 h]
      exact ⟨rfl, rfl, rfl, Or.inl rfl⟩
    · simp at h
  · split_ifs at h
    · rw [List.mem_singleton.1 h]
      exact ⟨rfl, rfl, rfl, Or.inr rfl⟩
    · simp at h

/-- C12: for every iteration index `i` the read buffer is `A_device[i % 2]`, the write buffer
`A_device[(i+1) % 2]`, and they differ; the window of iteration `i` is `win[(i+1) % 2]`, the
one registered over the write buffer; the read buffer of iteration `i + 1` is the write
buffer of iteration `i`; consecutive iterations use different windows.  In the kernel: a
lane leaves the read buffer as it is, each of its transfers names the window of the
iteration and a delivered transfer changes the buffer of that window only. -/
theorem pingpong_indexing (i : Nat) :
    a_index i = i % 2 ∧ a_out_index i = (i + 1) % 2 ∧ a_index i ≠ a_out_index i ∧
    a_index i < 2 ∧ a_out_index i < 2 ∧
    cwin_index i = (i + 1) % 2 ∧ win_buffer (cwin_index i) = a_out_index i ∧
    a_index (i + 1) = a_out_index i ∧ cwin_index (i + 1) ≠ cwin_index i ∧
    a_out_index (i + 1) = a_index i ∧
    (∀ (S : subarray) (L l : Int) (A : Nat → Buf α),
      laneCompute S L l i A (a_index i) = A (a_index i)) ∧
    (∀ (S : subarray) (L l : Int), ∀ p ∈ lanePuts S L l i,
      p.win = cwin_index i ∧ p.origin_buf = a_out_index i) ∧
    (∀ (origin : Int) (p : PutNotify) (w : World α) (r : Int) (b : Nat),
      b ≠ win_buffer p.win → MPI_Put_notify origin p w r b = w r b) := by
  unfold a_index a_out_index cwin_index win_buffer
  refine ⟨rfl, rfl, by omega, by omega, by omega, rfl, rfl, rfl, by omega, by omega, ?_, ?_,
    ?_⟩
  · intro S L l A
    exact (laneCompute_eq S L l i A).1
  · intro S L l p hp
    obtain ⟨h1, h2, -, -⟩ := lanePuts_win S L l i p hp
    exact ⟨h1, h2⟩
  · intro origin p w r b hb
    funext k
    unfold MPI_Put_notify
    rw [if_neg]
    intro h
    exact hb h.2.1

/-- Witness of C12: iteration `3` on rank `1` of two; the transfer of lane `0` names window
`0`, which is registered over the write buffer `A_device[0]`. -/
theorem pingpong_indexing_witness :
    (⟨0, 7, 2, 0, 19, 2, 0, 0⟩ : PutNotify).win = cwin_index 3 ∧
      (⟨0, 7, 2, 0, 19, 2, 0, 0⟩ : PutNotify).origin_buf = a_out_index 3 :=
  (pingpong_indexing (α := ℚ) 3).2.2.2.2.2.2.2.2.2.2.2.1 (GetMySubarray 4 4 2 1) 2 0
    ⟨0, 7, 2, 0, 19, 2, 0, 0⟩ (by decide)

/-- C13: each lane of rank `r` of `W` issues exactly one upward transfer (to rank `r - 1`) if
`r ≠ 0` and none if `r = 0`, exactly one downward transfer (to rank `r + 1`) if `r ≠ W - 1`
and none if `r = W - 1`, and no other transfer; for a rank `0 ≤ r < W` every target rank
lies in `0 .. W - 1`. -/
theorem boundary_workers (Nx Ny W r L l : Int) (i : Nat) :
    ((∃ p ∈ lanePuts (GetMySubarray Nx Ny W r) L l i, p.target_rank = r - 1) ↔ r ≠ 0) ∧
    ((∃ p ∈ lanePuts (GetMySubarray Nx Ny W r) L l i, p.target_rank = r + 1) ↔ r ≠ W - 1) ∧
    (lanePuts (GetMySubarray Nx Ny W r) L l i).countP (fun p => p.target_rank = r - 1) =
      (if r ≠ 0 then 1 else 0) ∧
    (lanePuts (GetMySubarray Nx Ny W r) L l i).countP (fun p => p.target_rank = r + 1) =
      (if r ≠ W - 1 then 1 else 0) ∧
    (∀ p ∈ lanePuts (GetMySubarray Nx Ny W r) L l i,
      p.target_rank = r - 1 ∨ p.target_rank = r + 1) ∧
    (0 ≤ r → r < W → ∀ p ∈ lanePuts (GetMySubarray Nx Ny W r) L l i,
      0 ≤ p.target_rank ∧ p.target_rank < W) := by
  obtain ⟨hrank, hcs, -, -, -⟩ := GetMySubarray_fields Nx Ny W r
  rw [lanePuts_cases, hrank, hcs]
  generalize GetMySubarray Nx Ny W r = S
  have e1 : ¬ (r + 1 = r - 1) := by omega
  have e2 : ¬ (r - 1 = r + 1) := by omega
  by_cases h0 : r ≠ 0 <;> by_cases hW : r ≠ W - 1
  · simp only [eq_true h0, eq_true hW, if_true, List.singleton_append]
    simp [List.countP_cons, e1, e2]
    omega
  · simp only [eq_true h0, eq_false hW, if_true, if_false, List.append_nil]
    simp [List.countP_cons, e1, e2]
    omega
  · simp only [eq_false h0, eq_true hW, if_true, if_false, List.nil_append]
    simp [List.countP_cons, e1, e2]
    omega
  · simp only [eq_false h0, eq_false hW, if_false, List.append_nil]
    simp

/-- Witness of C13: rank `0` of two, lane `0`, iteration `0`: its one transfer goes to rank
`1`. -/
theorem boundary_workers_witness :
    0 ≤ (⟨1, 13, 2, 1, 1, 2, 0, 1⟩ : PutNotify).target_rank ∧
      (⟨1, 13, 2, 1, 1, 2, 0, 1⟩ : PutNotify).target_rank < 2 :=
  (boundary_workers 4 4 2 0 2 0 0).2.2.2.2.2 (by decide) (by decide) ⟨1, 13, 2, 1, 1, 2, 0, 1⟩
    (by decide)

end Claims

/-! ### Counting notifications -/

/-- Counting in a concatenation of lists. -/
theorem countP_flatMap_sum {β γ : Type} (p : γ → Bool) (f : β → List γ) (l : List β) :
    (l.flatMap f).countP p = (l.map (fun a => (f a).countP p)).sum := by
  induction l with
  | nil => simp
  | cons a l ih => simp [List.flatMap_cons, List.countP_append, ih]

/-- A sum of indicators over the ranks `0 .. W - 1`. -/
theorem sum_range_indicator (W : Nat) (a : Int) :
    ((List.range W).map (fun (q : Nat) => if (q : Int) = a then 1 else 0)).sum =
      if 0 ≤ a ∧ a < W then 1 else 0 := by
  induction W with
  | zero =>
    rw [if_neg (by omega)]
    rfl
  | succ W ih =>
    rw [List.range_succ, List.map_append, List.sum_append, ih]
    simp
    split_ifs <;> omega

/-- The transfers of one lane that notify window `k` of rank `r`. -/
theorem lanePuts_towards (S : subarray) (L l : Int) (i : Nat) (r : Int) (k : Nat) :
    putsTowards (lanePuts S L l i) r k =
      (if S.rank ≠ 0 ∧ S.rank - 1 = r ∧ (i + 1) % 2 = k then 1 else 0) +
        (if S.rank ≠ S.comm_size - 1 ∧ S.rank + 1 = r ∧ (i + 1) % 2 = k then 1 else 0) := by
  unfold putsTowards
  rw [lanePuts_cases, List.countP_append]
  congr 1
  · by_cases h0 : S.rank ≠ 0
    · simp only [eq_true h0, if_true, true_and]
      simp [List.countP_cons]
    · simp only [eq_false h0, if_false, false_and]
      simp
  · by_cases hW : S.rank ≠ S.comm_size - 1
    · simp only [eq_true hW, if_true, true_and]
      simp [List.countP_cons]
    · simp only [eq_false hW, if_false, false_and]
      simp

/-- The transfers that the lanes `0 .. L - 1` of the ranks `0 .. W - 1` issue towards the
window of the iteration on rank `r`: one per lane of each neighbour. -/
theorem allLanes_towards (Nx Ny : Int) (W L : Nat) (r : Int) (hr0 : 0 ≤ r) (hr1 : r < W)
    (i : Nat) :
    putsTowards (schedPuts Nx Ny W L i (allLanes W L)) r ((i + 1) % 2) =
      L * ((if r ≠ 0 then 1 else 0) + (if r ≠ (W : Int) - 1 then 1 else 0)) := by
  have hlane : ∀ (q : Nat), q ∈ List.range W → ∀ (l : Nat),
      putsTowards (lanePuts (GetMySubarray Nx Ny W q) L l i) r ((i + 1) % 2) =
        (if (q : Int) = r + 1 then 1 else 0) + (if (q : Int) = r - 1 then 1 else 0) := by
    intro q hq l
    have hq' := List.mem_range.1 hq
    obtain ⟨hrank, hcs, -, -, -⟩ := GetMySubarray_fields Nx Ny W q
    rw [lanePuts_towards, hrank, hcs]
    congr 1
    · by_cases h : (q : Int) = r + 1
      · rw [if_pos h, if_pos ⟨by omega, by omega, rfl⟩]
      · rw [if_neg h, if_neg (fun h' => h (by omega))]
    · by_cases h : (q : Int) = r - 1
      · rw [if_pos h, if_pos ⟨by omega, by omega, rfl⟩]
      · rw [if_neg h, if_neg (fun h' => h (by omega))]
  have hsum : putsTowards (schedPuts Nx Ny W L i (allLanes W L)) r ((i + 1) % 2) =
      ((List.range W).map (fun (q : Nat) =>
        L * ((if (q : Int) = r + 1 then 1 else 0) + (if (q : Int) = r - 1 then 1 else 0)))).sum := by
    unfold putsTowards schedPuts allLanes
    rw [List.flatMap_assoc, countP_flatMap_sum]
    congr 1
    apply List.map_congr_left
    intro q hq
    rw [List.flatMap_map, countP_flatMap_sum]
    have := hlane q hq
    unfold putsTowards at this
    simp only [this]
    simp
  rw [hsum]
  have hsplit : ((List.range W).map (fun (q : Nat) =>
      L * ((if (q : Int) = r + 1 then 1 else 0) + (if (q : Int) = r - 1 then 1 else 0)))).sum =
      L * (((List.range W).map (fun (q : Nat) => if (q : Int) = r + 1 then 1 else 0)).sum +
        ((List.range W).map (fun (q : Nat) => if (q : Int) = r - 1 then 1 else 0)).sum) := by
    induction (List.range W) with
    | nil => simp
    | cons a l ih =>
      simp only [List.map_cons, List.sum_cons, ih]
      ring
  rw [hsplit, sum_range_indicator, sum_range_indicator]
  congr 1
  have a1 : (if 0 ≤ r + 1 ∧ r + 1 < (W : Int) then 1 else 0) =
      (if r ≠ (W : Int) - 1 then 1 else 0) := by
    split_ifs <;> omega
  have a2 : (if 0 ≤ r - 1 ∧ r - 1 < (W : Int) then 1 else 0) = (if r ≠ 0 then 1 else 0) := by
    split_ifs <;> omega
  rw [a1, a2]
  omega


/-- C14: for `W` ranks with `L` lanes each, a rank `0 ≤ r < W` and an iteration `i`, the value
of `c_expected` on rank `r` is `L` times the number of neighbours of `r` (one for `r ≠ 0`,
one for `r ≠ W - 1`, so at most two), and it is the number of put-with-notify calls that the
lanes of all ranks, each lane running once, issue towards window `(i+1) % 2` of rank `r` in
iteration `i`. -/
theorem expected_notifications (Nx Ny : Int) (W L : Nat) (r : Int) (hr0 : 0 ≤ r)
    (hr1 : r < W) (i : Nat) (sched : List (Int × Int)) (hs : sched.Perm (allLanes W L)) :
    c_expected (GetMySubarray Nx Ny W r) L =
        (L : Int) * ((if r ≠ 0 then 1 else 0) + (if r ≠ (W : Int) - 1 then 1 else 0)) ∧
      ((if r ≠ 0 then 1 else 0) + (if r ≠ (W : Int) - 1 then 1 else 0) : Int) ≤ 2 ∧
      (putsTowards (schedPuts Nx Ny W L i sched) r ((i + 1) % 2) : Int) =
        c_expected (GetMySubarray Nx Ny W r) L := by
  obtain ⟨hrank, hcs, -, -, -⟩ := GetMySubarray_fields Nx Ny W r
  have hc : c_expected (GetMySubarray Nx Ny W r) L =
      (L : Int) * ((if r ≠ 0 then 1 else 0) + (if r ≠ (W : Int) - 1 then 1 else 0)) := by
    unfold c_expected
    rw [hrank, hcs]
    simp only
    split_ifs <;> ring
  have hperm : putsTowards (schedPuts Nx Ny W L i sched) r ((i + 1) % 2) =
      putsTowards (schedPuts Nx Ny W L i (allLanes W L)) r ((i + 1) % 2) := by
    unfold putsTowards schedPuts
    exact (hs.flatMap_right _).countP_eq _
  refine ⟨hc, by split_ifs <;> omega, ?_⟩
  rw [hperm, allLanes_towards Nx Ny W L r hr0 hr1 i, hc]
  push_cast
  split_ifs <;> rfl

/-- Witness of C14: two ranks with two lanes, rank `0`, iteration `0`: one neighbour, two
notifications. -/
theorem expected_notifications_witness :
    c_expected (GetMySubarray 4 4 ((2 : Nat) : Int) 0) ((2 : Nat) : Int) =
      ((2 : Nat) : Int) * ((if (0 : Int) ≠ 0 then 1 else 0) +
        (if (0 : Int) ≠ ((2 : Nat) : Int) - 1 then 1 else 0)) :=
  (expected_notifications 4 4 2 2 0 (by decide) (by decide) 0 (allLanes 2 2)
    (List.Perm.refl _)).1

/-! ### The wait step -/

/-- When the uninitialised `c` already is at least `c_expected`, the polling loop ends at its
first test, without a read of the counter. -/
theorem pollLoop_skips (c_expected : Int) (obs : Nat → Int) (fuel : Nat) (c : Int)
    (h : c_expected ≤ c) : pollLoop c_expected obs (fuel + 1) 0 c = some (0, c) := by
  unfold pollLoop
  rw [if_neg (by omega)]

/-- When the loop is entered, it ends only after a read, and the last read returned at least
`c_expected`. -/
theorem pollLoop_exit (c_expected : Int) (obs : Nat → Int) (fuel n : Nat) (c : Int)
    (m : Nat) (c' : Int) (h : pollLoop c_expected obs fuel n c = some (m, c')) :
    c_expected ≤ c' ∧ n ≤ m ∧ (c < c_expected → n < m ∧ c' = obs (m - 1)) := by
  induction fuel generalizing n c with
  | zero => simp [pollLoop] at h
  | succ fuel ih =>
    unfold pollLoop at h
    split_ifs at h with hc
    · obtain ⟨h1, h2, h3⟩ := ih (n + 1) (obs n) h
      refine ⟨h1, by omega, fun _ => ⟨by omega, ?_⟩⟩
      by_cases hobs : obs n < c_expected
      · exact (h3 hobs).2
      · -- the read number `n` was the last one
        have hlast := h
        cases fuel with
        | zero => simp [pollLoop] at hlast
        | succ fuel =>
          unfold pollLoop at hlast
          rw [if_neg hobs] at hlast
          simp only [Option.some.injEq, Prod.mk.injEq] at hlast
          obtain ⟨hm, hc'⟩ := hlast
          rw [← hm, ← hc']
          simp
    · simp only [Option.some.injEq, Prod.mk.injEq] at h
      obtain ⟨hm, hc'⟩ := h
      exact ⟨by omega, by omega, fun hlt => absurd hlt hc⟩

/-- C15 (code at the failing input): rank `0` of two ranks with two lanes waits for
`c_expected = 2` notifications.  With the uninitialised `c` holding `2` and no notification
delivered (every read of the counter would return `0`), the polling loop ends at its first
test: it performs `0` reads of the counter. -/
theorem pollLoop_uninitialised :
    c_expected (GetMySubarray 4 4 2 0) 2 = 2 ∧
      pollLoop (c_expected (GetMySubarray 4 4 2 0) 2) (fun _ => 0) 1 0 2 = some (0, 2) := by
  decide

/-- The counters after a list of transfers is delivered. -/
theorem notify_foldl (puts : List PutNotify) (n : Notif) (r : Int) (k : Nat) :
    puts.foldl (fun n p => notifyPut p n) n r k = n r k + (putsTowards puts r k : Int) := by
  induction puts generalizing n with
  | nil => simp [putsTowards]
  | cons p ps ih =>
    rw [List.foldl_cons, ih]
    unfold putsTowards notifyPut
    rw [List.countP_cons]
    by_cases h : r = p.target_rank ∧ k = p.win
    · obtain ⟨rfl, rfl⟩ := h
      simp
      ring
    · have h' : ¬ (p.target_rank = r ∧ p.win = k) := fun h'' => h ⟨h''.1.symm, h''.2.symm⟩
      rw [if_neg h]
      simp [h']

/-- No transfer of iteration `i` notifies the other window. -/
theorem schedPuts_other_window (Nx Ny W L : Int) (i : Nat) (sched : List (Int × Int))
    (r : Int) (k : Nat) (hk : k ≠ (i + 1) % 2) :
    putsTowards (schedPuts Nx Ny W L i sched) r k = 0 := by
  unfold putsTowards
  rw [List.countP_eq_zero]
  intro p hp
  unfold schedPuts at hp
  obtain ⟨q, -, hq⟩ := List.mem_flatMap.1 hp
  have := (lanePuts_win _ _ _ _ p hq).1
  simp only [decide_eq_true_eq, not_and]
  intro _ hw
  exact hk (by omega)

/-- C16: the wait step of lane `0` of rank `r` in iteration `i` leaves the counter of window
`g = (i+1) % 2` of rank `r` at `0`; in iteration `i + 1` nothing touches that counter: the
transfers of the rank itself notify other ranks, the transfers of all ranks notify the other
window, and the wait step of iteration `i + 1` resets the other window; so the counter still
reads `0` at the end of iteration `i + 1`, and window `g` is used next in iteration
`i + 2`. -/
theorem counter_reset (Nx Ny W L : Int) (i : Nat) (r : Int) (n : Notif)
    (sched : List (Int × Int)) :
    waitReset i r n r (cwin_index i) = 0 ∧
    (∀ (n' : Notif) (l : Int), ∀ p ∈ lanePuts (GetMySubarray Nx Ny W r) L l (i + 1),
      notifyPut p n' r = n' r) ∧
    (∀ n' : Notif, iterationNotify Nx Ny W L (i + 1) sched n' r (cwin_index i) =
      n' r (cwin_index i)) ∧
    (∀ n' : Notif, waitReset (i + 1) r n' r (cwin_index i) = n' r (cwin_index i)) ∧
    waitReset (i + 1) r (iterationNotify Nx Ny W L (i + 1) sched (waitReset i r n)) r
      (cwin_index i) = 0 ∧
    cwin_index (i + 1) ≠ cwin_index i ∧ cwin_index (i + 2) = cwin_index i := by
  have hne : cwin_index i ≠ (i + 1 + 1) % 2 := by unfold cwin_index; omega
  have h1 : waitReset i r n r (cwin_index i) = 0 := by
    unfold waitReset cwin_index
    rw [if_pos ⟨rfl, rfl⟩]
  have h3 : ∀ n' : Notif, iterationNotify Nx Ny W L (i + 1) sched n' r (cwin_index i) =
      n' r (cwin_index i) := by
    intro n'
    unfold iterationNotify
    rw [notify_foldl, schedPuts_other_window Nx Ny W L (i + 1) sched r _ hne]
    simp
  have h4 : ∀ n' : Notif, waitReset (i + 1) r n' r (cwin_index i) = n' r (cwin_index i) := by
    intro n'
    unfold waitReset
    rw [if_neg (fun h => hne h.2)]
  refine ⟨h1, ?_, h3, h4, by rw [h4, h3, h1], by unfold cwin_index; omega,
    by unfold cwin_index; omega⟩
  intro n' l p hp
  obtain ⟨hrank, -, -, -, -⟩ := GetMySubarray_fields Nx Ny W r
  obtain ⟨-, -, -, ht⟩ := lanePuts_win _ _ _ _ p hp
  rw [hrank] at ht
  funext k
  unfold notifyPut
  rw [if_neg (by omega)]

/-- Witness of C16: rank `0` of two ranks, two lanes, iteration `0`, all counters at `5`
before the wait step; a transfer of lane `0` of rank `0` in iteration `1` leaves the counters
of rank `0` as they are. -/
theorem counter_reset_witness :
    notifyPut ⟨0, 13, 2, 1, 1, 2, 0, 0⟩ (fun _ _ => 5) 0 = (fun (_ : Int) (_ : Nat) => (5 : Int)) 0 :=
  (counter_reset 4 4 2 2 0 0 (fun _ _ => 5) (allLanes 2 2)).2.1 (fun _ _ => 5) 0
    ⟨0, 13, 2, 1, 1, 2, 0, 0⟩ (by decide)

/-! ### The host program -/

/-- The iteration indices of a kernel invocation that starts at `0`. -/
theorem kernelIterations_zero (n : Int) :
    kernelIterations 0 n = (List.range n.toNat).map (fun (k : Nat) => (k : Int)) := by
  unfold kernelIterations
  apply List.map_congr_left
  intro k _
  omega

/-- C17: for `Niter ≥ 1` and `NormIteration ≤ 0` the batch size is `Niter`; the host loop
ends (two tests of its condition suffice) and submits exactly one kernel invocation, with
`passed_iters = 0` and `iterations_batch = Niter`; that invocation executes the iteration
indices `0, 1, ..., Niter - 1`, each once and in this order. -/
theorem exact_iteration_count (Niter NormIteration : Int) (hN : 1 ≤ Niter)
    (hnorm : NormIteration ≤ 0) (fuel : Nat) :
    iterations_batch Niter NormIteration = Niter ∧
    hostLoop Niter (iterations_batch Niter NormIteration) (fuel + 2) 0 = some [(0, Niter)] ∧
    kernelIterations 0 (iterations_batch Niter NormIteration) =
      (List.range Niter.toNat).map (fun (k : Nat) => (k : Int)) ∧
    (kernelIterations 0 (iterations_batch Niter NormIteration)).length = Niter ∧
    (∀ j : Int, 0 ≤ j → j < Niter →
      (kernelIterations 0 (iterations_batch Niter NormIteration)).count j = 1) := by
  have hb : iterations_batch Niter NormIteration = Niter := by
    unfold iterations_batch
    rw [if_pos hnorm]
  rw [hb, kernelIterations_zero]
  refine ⟨rfl, ?_, rfl, ?_, ?_⟩
  · unfold hostLoop
    rw [if_pos (by omega)]
    unfold hostLoop
    rw [if_neg (by omega)]
    rfl
  · rw [List.length_map, List.length_range]
    omega
  · intro j hj0 hj1
    have hinj : Function.Injective (fun (k : Nat) => (k : Int)) := fun a b h => by
      simpa using h
    have hj : j = ((j.toNat : Nat) : Int) := by omega
    rw [hj, List.count_map_of_injective _ _ hinj]
    exact List.count_eq_one_of_mem (List.nodup_range _) (List.mem_range.2 (by omega))

/-- Witness of C17: the constants of the source, `Niter = 100` and `NormIteration = 0`. -/
theorem exact_iteration_count_witness :
    hostLoop 100 (iterations_batch 100 0) (0 + 2) 0 = some [(0, 100)] :=
  (exact_iteration_count 100 0 (by decide) (by decide) 0).2.1

/-- No rank but rank `0` aborts at startup, and rank `0` does when the lane count does not
divide `Nx`. -/
theorem startupAbort_iff (Nx L r : Int) :
    startupAbort Nx L r = true ↔ Int.tmod Nx L ≠ 0 ∧ r = 0 := by
  unfold startupAbort
  simp only [Bool.and_eq_true, decide_eq_true_eq]

/-- Some rank of a job of `W ≥ 1` ranks aborts at startup exactly when the lane count does
not divide `Nx`. -/
theorem job_aborts_iff (Nx L : Int) (W : Nat) (hW : 1 ≤ W) :
    (List.range W).any (fun (q : Nat) => startupAbort Nx L (q : Int)) = true ↔
      Int.tmod Nx L ≠ 0 := by
  rw [List.any_eq_true]
  constructor
  · rintro ⟨q, -, hq⟩
    exact ((startupAbort_iff Nx L q).1 hq).1
  · intro h
    exact ⟨0, List.mem_range.2 (by omega), (startupAbort_iff Nx L _).2 ⟨h, rfl⟩⟩

/-- The program order of a rank has no abort when the rank does not abort at startup. -/
theorem mainEvents_no_abort (Nx Niter NormIteration L r : Int) (fuel : Nat)
    (h : startupAbort Nx L r = false) (evs : List Event)
    (hevs : mainEvents Nx Niter NormIteration L r fuel = some evs) (c : Int) :
    Event.abort c ∉ evs := by
  intro hc
  unfold mainEvents at hevs
  rw [h] at hevs
  simp only [Bool.false_eq_true, if_false, Option.map_eq_some'] at hevs
  obtain ⟨ks, -, rfl⟩ := hevs
  rcases List.mem_append.1 hc with h1 | h1
  · rcases List.mem_append.1 h1 with h2 | h2
    · simp at h2
    · obtain ⟨k, -, hk⟩ := List.mem_map.1 h2
      cases hk
  · split_ifs at h1 <;> simp at h1

/-- C18: in a job of `W ≥ 1` ranks with lane count `L`, some rank has a call of `MPI_Abort`
among its events if and only if `L` does not divide `Nx`.  When `L` does not divide `Nx`,
the events of rank `0` are the one abort and every other rank has no event at all: the
abort is requested once, by rank `0`, and no rank submits a kernel, because no rank returns
from the collective `MPI_Win_create` of line 121 that precedes the host loop.  When `L`
divides `Nx`, every rank runs its program order, which has no abort.  The events of a rank
before the collective call are those that its program order has before it. -/
theorem config_abort (Nx Niter NormIteration L : Int) (W : Nat) (hW : 1 ≤ W) :
    (∀ fuel, (∃ (r c : Int) (evs : List Event), 0 ≤ r ∧ r < W ∧
        jobEvents Nx Niter NormIteration L W r fuel = some evs ∧ Event.abort c ∈ evs) ↔
      Int.tmod Nx L ≠ 0) ∧
    (Int.tmod Nx L ≠ 0 → ∀ (fuel : Nat) (r : Int),
      jobEvents Nx Niter NormIteration L W r fuel =
        some (if r = 0 then [Event.abort (-1)] else []) ∧
      ∀ evs, jobEvents Nx Niter NormIteration L W r fuel = some evs →
        ∀ p b, Event.kernel p b ∉ evs) ∧
    (Int.tmod Nx L = 0 → ∀ (fuel : Nat) (r : Int),
      jobEvents Nx Niter NormIteration L W r fuel = mainEvents Nx Niter NormIteration L r fuel ∧
      ∀ evs, jobEvents Nx Niter NormIteration L W r fuel = some evs →
        ∀ c, Event.abort c ∉ evs) ∧
    (∀ (fuel : Nat) (r : Int) (evs : List Event),
      mainEvents Nx Niter NormIteration L r fuel = some evs →
        beforeCollective evs = startupEvents Nx L r) := by
  have hbad : Int.tmod Nx L ≠ 0 → ∀ (fuel : Nat) (r : Int),
      jobEvents Nx Niter NormIteration L W r fuel =
        some (if r = 0 then [Event.abort (-1)] else []) := by
    intro h fuel r
    unfold jobEvents
    rw [if_pos ((job_aborts_iff Nx L W hW).2 h)]
    unfold startupEvents
    by_cases hr : r = 0
    · rw [if_pos ((startupAbort_iff Nx L r).2 ⟨h, hr⟩), if_pos hr]
    · rw [if_neg (fun hh => hr ((startupAbort_iff Nx L r).1 hh).2), if_neg hr]
  have hgood : Int.tmod Nx L = 0 → ∀ (fuel : Nat) (r : Int),
      jobEvents Nx Niter NormIteration L W r fuel =
        mainEvents Nx Niter NormIteration L r fuel := by
    intro h fuel r
    unfold jobEvents
    rw [if_neg (fun hh => (job_aborts_iff Nx L W hW).1 hh h)]
  have hna : Int.tmod Nx L = 0 → ∀ r, startupAbort Nx L r = false := by
    intro h r
    cases hs : startupAbort Nx L r
    · rfl
    · exact absurd h ((startupAbort_iff Nx L r).1 hs).1
  refine ⟨fun fuel => ⟨?_, ?_⟩, fun h fuel r => ⟨hbad h fuel r, ?_⟩,
    fun h fuel r => ⟨hgood h fuel r, ?_⟩, ?_⟩
  · rintro ⟨r, c, evs, -, -, hevs, hc⟩ h
    rw [hgood h fuel r] at hevs
    exact mainEvents_no_abort Nx Niter NormIteration L r fuel (hna h r) evs hevs c hc
  · intro h
    refine ⟨0, -1, [Event.abort (-1)], le_refl 0, by exact_mod_cast hW, ?_, by simp⟩
    rw [hbad h fuel 0, if_pos rfl]
  · intro evs hevs p b hk
    rw [hbad h fuel r] at hevs
    cases hevs
    split_ifs at hk <;> simp at hk
  · intro evs hevs c
    rw [hgood h fuel r] at hevs
    exact mainEvents_no_abort Nx Niter NormIteration L r fuel (hna h r) evs hevs c
  · intro fuel r evs hevs
    unfold mainEvents at hevs
    unfold startupEvents
    by_cases hs : startupAbort Nx L r = true
    · rw [if_pos hs] at hevs ⊢
      cases hevs
      rfl
    · rw [if_neg hs] at hevs ⊢
      simp only [Option.map_eq_some'] at hevs
      obtain ⟨ks, -, rfl⟩ := hevs
      rfl

/-- Witness of C18: `Nx = 10` and `L = 4` lanes on two ranks: rank `0` aborts, rank `1` has
no event, though its own program order would submit the kernel. -/
theorem config_abort_witness :
    jobEvents 10 100 0 4 2 0 3 = some [Event.abort (-1)] ∧
      jobEvents 10 100 0 4 2 1 3 = some [] ∧
      mainEvents 10 100 0 4 1 3 =
        some [Event.win_create 0, Event.win_create 1, Event.kernel 0 100] :=
  ⟨((config_abort 10 100 0 4 2 (by decide)).2.1 (by decide) 3 0).1,
    ((config_abort 10 100 0 4 2 (by decide)).2.1 (by decide) 3 1).1, by decide⟩

/-! ### Buffer bounds -/

/-- Membership in the values of a loop counter. -/
theorem mem_intRange (lo hi x : Int) : x ∈ intRange lo hi ↔ lo ≤ x ∧ x < hi := by
  unfold intRange
  simp only [List.mem_map, List.mem_range]
  constructor
  · rintro ⟨k, hk, rfl⟩
    omega
  · intro h
    exact ⟨(x - lo).toNat, by omega, by omega⟩

/-- A transfer of a lane is its upward or its downward transfer. -/
theorem lanePuts_mem (S : subarray) (L l : Int) (i : Nat) (p : PutNotify)
    (hp : p ∈ lanePuts S L l i) :
    (S.rank ≠ 0 ∧ p = ⟨(i + 1) % 2, XY_2_IDX (my_x_lb S L l) 0 S, col_per_wg S L, S.rank - 1,
        S.l_nbh_offt + my_x_lb S L l, col_per_wg S L, 0, (i + 1) % 2⟩) ∨
      (S.rank ≠ S.comm_size - 1 ∧
        p = ⟨(i + 1) % 2, XY_2_IDX (my_x_lb S L l) (S.y_size - 1) S, col_per_wg S L, S.rank + 1,
          1 + my_x_lb S L l, col_per_wg S L, 0, (i + 1) % 2⟩) := by
  rw [lanePuts_cases] at hp
  rcases List.mem_append.1 hp with h | h
  · split_ifs at h with h0
    · exact Or.inl ⟨h0, List.mem_singleton.1 h⟩
    · simp at h
  · split_ifs at h with hW
    · exact Or.inr ⟨hW, List.mem_singleton.1 h⟩
    · simp at h

section RunLemmas

variable {α : Type} [Add α] [Mul α] [OfScientific α]

/-- The closed form changes the write buffer only. -/
theorem globalStep_other (Nx Ny W : Int) (i : Nat) (w : World α) (r : Int) (b : Nat)
    (hb : b ≠ (i + 1) % 2) : globalStep Nx Ny W i w r b = w r b := by
  funext idx
  unfold globalStep
  simp only
  rw [if_neg (fun h => hb h.1)]

/-- An owned cell after iteration `n` is the update expression of the read buffer. -/
theorem run_owned {Nx Ny W L : Int} (hv : ValidConfig Nx Ny W L)
    (scheds : Nat → List (Int × Int)) (hs : ∀ i, FairSched W L (scheds i)) (w : World α)
    (n : Nat) (r x y : Int) (hr0 : 0 ≤ r) (hr1 : r < W) (hx0 : 0 ≤ x) (hx1 : x < Nx)
    (hy0 : 0 ≤ y) (hy1 : y < (GetMySubarray Nx Ny W r).y_size) :
    run Nx Ny W L scheds (n + 1) w r ((n + 1) % 2) (XY_2_IDX x y (GetMySubarray Nx Ny W r)) =
      stencil (run Nx Ny W L scheds n w r (n % 2)) (GetMySubarray Nx Ny W r)
        (XY_2_IDX x y (GetMySubarray Nx Ny W r)) := by
  rw [run_succ, iteration_eq_globalStep hv n (scheds n) (hs n),
    globalStep_owned hv n _ r x y hr0 hr1 hx0 hx1 hy0 hy1]

/-- Iteration `n` keeps every buffer but its write buffer. -/
theorem run_other {Nx Ny W L : Int} (hv : ValidConfig Nx Ny W L)
    (scheds : Nat → List (Int × Int)) (hs : ∀ i, FairSched W L (scheds i)) (w : World α)
    (n : Nat) (r : Int) (b : Nat) (hb : b ≠ (n + 1) % 2) :
    run Nx Ny W L scheds (n + 1) w r b = run Nx Ny W L scheds n w r b := by
  rw [run_succ, iteration_eq_globalStep hv n (scheds n) (hs n), globalStep_other _ _ _ _ _ _ _ hb]

/-- The halo rows agree with the facing rows of the neighbours, in every buffer and after any
number of iterations from the initial state. -/
theorem run_halo {Nx Ny W L : Int} (hv : ValidConfig Nx Ny W L)
    (scheds : Nat → List (Int × Int)) (hs : ∀ i, FairSched W L (scheds i))
    (host : Int → Buf α) (n : Nat) (b : Nat) (r x : Int) (hr0 : 0 ≤ r) (hr1 : r + 1 < W)
    (hx0 : 0 ≤ x) (hx1 : x < Nx) :
    run Nx Ny W L scheds n (initWorld Nx Ny W host) (r + 1) b
        (XY_2_IDX x (-1) (GetMySubarray Nx Ny W (r + 1))) =
      run Nx Ny W L scheds n (initWorld Nx Ny W host) r b
        (XY_2_IDX x ((GetMySubarray Nx Ny W r).y_size - 1) (GetMySubarray Nx Ny W r)) ∧
    run Nx Ny W L scheds n (initWorld Nx Ny W host) r b
        (XY_2_IDX x (GetMySubarray Nx Ny W r).y_size (GetMySubarray Nx Ny W r)) =
      run Nx Ny W L scheds n (initWorld Nx Ny W host) (r + 1) b
        (XY_2_IDX x 0 (GetMySubarray Nx Ny W (r + 1))) := by
  obtain ⟨hrank, hcs, hxs, hys⟩ := GetMySubarray_valid hv r
  obtain ⟨hrank', hcs', hxs', hys'⟩ := GetMySubarray_valid hv (r + 1)
  induction n with
  | zero =>
    show initWorld Nx Ny W host (r + 1) b _ = initWorld Nx Ny W host r b _ ∧
      initWorld Nx Ny W host r b _ = initWorld Nx Ny W host (r + 1) b _
    rw [initWorld_apply, initWorld_apply]
    have c1 := InitDeviceArrays_cell (GetMySubarray Nx Ny W (r + 1)) (host (r + 1)) (-1 + 1)
      (x + 1) (by omega) (by omega) (by omega) (by omega)
    have c2 := InitDeviceArrays_cell (GetMySubarray Nx Ny W r) (host r)
      ((GetMySubarray Nx Ny W r).y_size - 1 + 1) (x + 1) (by omega) (by omega) (by omega)
      (by omega)
    have c3 := InitDeviceArrays_cell (GetMySubarray Nx Ny W r) (host r)
      ((GetMySubarray Nx Ny W r).y_size + 1) (x + 1) (by omega) (by omega) (by omega)
      (by omega)
    have c4 := InitDeviceArrays_cell (GetMySubarray Nx Ny W (r + 1)) (host (r + 1)) (0 + 1)
      (x + 1) (by omega) (by omega) (by omega) (by omega)
    rw [if_neg (by omega), if_neg (by omega), if_neg (by omega)] at c1 c2 c3 c4
    unfold XY_2_IDX ROW_SIZE
    rw [c1, c2, c3, c4]
    exact ⟨rfl, rfl⟩
  | succ n ih =>
    by_cases hb : b = (n + 1) % 2
    · subst hb
      rw [run_succ, iteration_eq_globalStep hv n (scheds n) (hs n)]
      have htop : XY_2_IDX x (-1) (GetMySubarray Nx Ny W (r + 1)) = 1 + x := by
        unfold XY_2_IDX ROW_SIZE
        ring
      have hbot : XY_2_IDX x (GetMySubarray Nx Ny W r).y_size (GetMySubarray Nx Ny W r) =
          (Nx + 2) * ((GetMySubarray Nx Ny W r).y_size + 1) + 1 + x := by
        unfold XY_2_IDX ROW_SIZE
        rw [hxs]
        ring
      have e1 := globalStep_top hv n (run Nx Ny W L scheds n (initWorld Nx Ny W host)) (r + 1) x
        (by omega) (by omega) hx0 hx1
      rw [Int.add_sub_cancel] at e1
      have e2 := globalStep_owned hv n (run Nx Ny W L scheds n (initWorld Nx Ny W host)) r x
        ((GetMySubarray Nx Ny W r).y_size - 1) hr0 (by omega) hx0 hx1 (by omega) (by omega)
      have e3 := globalStep_bottom hv n (run Nx Ny W L scheds n (initWorld Nx Ny W host)) r x
        hr0 (by omega) hx0 hx1
      have e4 := globalStep_owned hv n (run Nx Ny W L scheds n (initWorld Nx Ny W host))
        (r + 1) x 0 (by omega) (by omega) hx0 hx1 (by omega) (by omega)
      rw [htop, hbot, e1, e2, e3, e4]
      exact ⟨rfl, rfl⟩
    · rw [run_other hv scheds hs _ n (r + 1) b hb, run_other hv scheds hs _ n r b hb]
      exact ih

end RunLemmas

/-! ### The norm of the difference between successive iterations -/

section Convergence

open Finset

/-- A sum over the indices shifted down by one. -/
theorem sum_shift_down (g : Int → ℝ) (n : Nat) :
    ∑ k ∈ range (n + 1), g ((k : Int) - 1) = g (-1) + ∑ k ∈ range n, g (k : Int) := by
  rw [Finset.sum_range_succ', add_comm]
  simp

/-- A sum over the indices shifted up by one. -/
theorem sum_shift_up (g : Int → ℝ) (n : Nat) :
    ∑ k ∈ range (n + 1), g ((k : Int) + 1) =
      ∑ k ∈ range (n + 1), g (k : Int) - g 0 + g ((n : Int) + 1) := by
  have h1 : ∑ k ∈ range (n + 1 + 1), g (k : Int) =
      ∑ k ∈ range (n + 1), g ((k : Int) + 1) + g 0 := by
    rw [Finset.sum_range_succ']
    simp
  have h2 : ∑ k ∈ range (n + 1 + 1), g (k : Int) =
      ∑ k ∈ range (n + 1), g (k : Int) + g ((n : Int) + 1) := by
    rw [Finset.sum_range_succ]
    simp
  linarith

/-- The square of an average of four is at most the average of the squares. -/
theorem sq_avg_le (a b c e : ℝ) :
    (1 / 4 * (a + b + c + e)) * (1 / 4 * (a + b + c + e)) ≤
      1 / 4 * (a * a + b * b + c * c + e * e) := by
  nlinarith [sq_nonneg (a - b), sq_nonneg (a - c), sq_nonneg (a - e), sq_nonneg (b - c),
    sq_nonneg (b - e), sq_nonneg (c - e)]

/-- The squares of the left neighbours sum to at most the squares of the cells, when the
column before the first one is zero. -/
theorem left_le (X n : Nat) (d : Int → Int → ℝ) (hleft : ∀ y : Nat, y < n → d (-1) y = 0) :
    ∑ x ∈ range X, ∑ y ∈ range n, d ((x : Int) - 1) y * d ((x : Int) - 1) y ≤
      ∑ x ∈ range X, ∑ y ∈ range n, d x y * d x y := by
  cases X with
  | zero => simp
  | succ m =>
    have h := sum_shift_down (fun x => ∑ y ∈ range n, d x y * d x y) m
    simp only at h
    rw [h, Finset.sum_range_succ]
    have h0 : ∑ y ∈ range n, d (-1) y * d (-1) y = 0 := by
      apply Finset.sum_eq_zero
      intro y hy
      rw [hleft y (Finset.mem_range.1 hy)]
      ring
    have hm : 0 ≤ ∑ y ∈ range n, d (m : Int) y * d (m : Int) y :=
      Finset.sum_nonneg (fun y _ => mul_self_nonneg _)
    linarith

/-- The squares of the right neighbours sum to at most the squares of the cells, when the
column after the last one is zero. -/
theorem right_le (X n : Nat) (d : Int → Int → ℝ) (hright : ∀ y : Nat, y < n → d X y = 0) :
    ∑ x ∈ range X, ∑ y ∈ range n, d ((x : Int) + 1) y * d ((x : Int) + 1) y ≤
      ∑ x ∈ range X, ∑ y ∈ range n, d x y * d x y := by
  cases X with
  | zero => simp
  | succ m =>
    have h := sum_shift_up (fun x => ∑ y ∈ range n, d x y * d x y) m
    simp only at h
    rw [h]
    have h0 : ∑ y ∈ range n, d ((m : Int) + 1) y * d ((m : Int) + 1) y = 0 := by
      apply Finset.sum_eq_zero
      intro y hy
      have := hright y (Finset.mem_range.1 hy)
      push_cast at this
      rw [this]
      ring
    have hm : 0 ≤ ∑ y ∈ range n, d (0 : Int) y * d (0 : Int) y :=
      Finset.sum_nonneg (fun y _ => mul_self_nonneg _)
    linarith

/-- The squares of the neighbours above: the cells, with the row above added and the last
row removed. -/
theorem up_eq (X n : Nat) (d : Int → Int → ℝ) :
    ∑ x ∈ range X, ∑ y ∈ range (n + 1), d x ((y : Int) - 1) * d x ((y : Int) - 1) =
      ∑ x ∈ range X, d x (-1) * d x (-1) + ∑ x ∈ range X, ∑ y ∈ range (n + 1), d x y * d x y
        - ∑ x ∈ range X, d x n * d x n := by
  rw [← Finset.sum_add_distrib, ← Finset.sum_sub_distrib]
  apply Finset.sum_congr rfl
  intro x _
  have h := sum_shift_down (fun y => d x y * d x y) n
  simp only at h
  rw [h, Finset.sum_range_succ]
  ring

/-- The squares of the neighbours below: the cells, with the first row removed and the row
below added. -/
theorem down_eq (X n : Nat) (d : Int → Int → ℝ) :
    ∑ x ∈ range X, ∑ y ∈ range (n + 1), d x ((y : Int) + 1) * d x ((y : Int) + 1) =
      ∑ x ∈ range X, ∑ y ∈ range (n + 1), d x y * d x y - ∑ x ∈ range X, d x 0 * d x 0
        + ∑ x ∈ range X, d x ((n : Int) + 1) * d x ((n : Int) + 1) := by
  rw [← Finset.sum_sub_distrib, ← Finset.sum_add_distrib]
  apply Finset.sum_congr rfl
  intro x _
  have h := sum_shift_up (fun y => d x y * d x y) n
  simp only at h
  rw [h]

/-- One averaging step over a stack of blocks does not increase the sum of squares, when the
frame is zero and the halo rows agree with the facing rows of the neighbouring blocks. -/
theorem jacobi_step_norm_le (W X : Nat) (n : Nat → Nat) (d d' : Nat → Int → Int → ℝ)
    (hstep : ∀ r, r < W → ∀ x y : Nat, x < X → y < n r + 1 →
      d' r x y = 1 / 4 * (d r ((x : Int) - 1) y + d r ((x : Int) + 1) y
        + d r x ((y : Int) - 1) + d r x ((y : Int) + 1)))
    (hleft : ∀ r, r < W → ∀ y : Nat, y < n r + 1 → d r (-1) y = 0)
    (hright : ∀ r, r < W → ∀ y : Nat, y < n r + 1 → d r X y = 0)
    (htop : ∀ x : Nat, x < X → d 0 x (-1) = 0)
    (hbot : ∀ r, r + 1 = W → ∀ x : Nat, x < X → d r x ((n r : Int) + 1) = 0)
    (hhalo : ∀ r, r + 1 < W → ∀ x : Nat, x < X →
      d (r + 1) x (-1) = d r x (n r) ∧ d r x ((n r : Int) + 1) = d (r + 1) x 0) :
    ∑ r ∈ range W, ∑ x ∈ range X, ∑ y ∈ range (n r + 1), d' r x y * d' r x y ≤
      ∑ r ∈ range W, ∑ x ∈ range X, ∑ y ∈ range (n r + 1), d r x y * d r x y := by
  -- termwise bound
  have hA : ∑ r ∈ range W, ∑ x ∈ range X, ∑ y ∈ range (n r + 1), d' r x y * d' r x y ≤
      ∑ r ∈ range W, (1 / 4 * (
        ∑ x ∈ range X, ∑ y ∈ range (n r + 1), d r ((x : Int) - 1) y * d r ((x : Int) - 1) y
        + ∑ x ∈ range X, ∑ y ∈ range (n r + 1), d r ((x : Int) + 1) y * d r ((x : Int) + 1) y
        + ∑ x ∈ range X, ∑ y ∈ range (n r + 1), d r x ((y : Int) - 1) * d r x ((y : Int) - 1)
        + ∑ x ∈ range X, ∑ y ∈ range (n r + 1),
            d r x ((y : Int) + 1) * d r x ((y : Int) + 1))) := by
    apply Finset.sum_le_sum
    intro r hr
    rw [← Finset.sum_add_distrib, ← Finset.sum_add_distrib, ← Finset.sum_add_distrib,
      Finset.mul_sum]
    apply Finset.sum_le_sum
    intro x hx
    rw [← Finset.sum_add_distrib, ← Finset.sum_add_distrib, ← Finset.sum_add_distrib,
      Finset.mul_sum]
    apply Finset.sum_le_sum
    intro y hy
    rw [hstep r (Finset.mem_range.1 hr) x y (Finset.mem_range.1 hx) (Finset.mem_range.1 hy)]
    exact sq_avg_le _ _ _ _
  -- left and right neighbours
  have hL : ∀ r ∈ range W,
      ∑ x ∈ range X, ∑ y ∈ range (n r + 1), d r ((x : Int) - 1) y * d r ((x : Int) - 1) y ≤
        ∑ x ∈ range X, ∑ y ∈ range (n r + 1), d r x y * d r x y := fun r hr =>
    left_le X (n r + 1) (d r) (hleft r (Finset.mem_range.1 hr))
  have hR : ∀ r ∈ range W,
      ∑ x ∈ range X, ∑ y ∈ range (n r + 1), d r ((x : Int) + 1) y * d r ((x : Int) + 1) y ≤
        ∑ x ∈ range X, ∑ y ∈ range (n r + 1), d r x y * d r x y := fun r hr =>
    right_le X (n r + 1) (d r) (hright r (Finset.mem_range.1 hr))
  -- rows above: the top halo rows against the last owned rows
  have hT : ∑ r ∈ range W, ∑ x ∈ range X, d r x (-1) * d r x (-1) ≤
      ∑ r ∈ range W, ∑ x ∈ range X, d r x (n r) * d r x (n r) := by
    cases W with
    | zero => simp
    | succ m =>
      rw [Finset.sum_range_succ', Finset.sum_range_succ]
      have h0 : ∑ x ∈ range X, d 0 x (-1) * d 0 x (-1) = 0 := by
        apply Finset.sum_eq_zero
        intro x hx
        rw [htop x (Finset.mem_range.1 hx)]
        ring
      have hsh : ∑ r ∈ range m, ∑ x ∈ range X, d (r + 1) x (-1) * d (r + 1) x (-1) =
          ∑ r ∈ range m, ∑ x ∈ range X, d r x (n r) * d r x (n r) := by
        apply Finset.sum_congr rfl
        intro r hr
        apply Finset.sum_congr rfl
        intro x hx
        rw [(hhalo r (by have := Finset.mem_range.1 hr; omega) x (Finset.mem_range.1 hx)).1]
      have hm : 0 ≤ ∑ x ∈ range X, d m x (n m) * d m x (n m) :=
        Finset.sum_nonneg (fun x _ => mul_self_nonneg _)
      linarith
  -- rows below: the bottom halo rows against the first owned rows
  have hB : ∑ r ∈ range W, ∑ x ∈ range X, d r x ((n r : Int) + 1) * d r x ((n r : Int) + 1) ≤
      ∑ r ∈ range W, ∑ x ∈ range X, d r x 0 * d r x 0 := by
    cases W with
    | zero => simp
    | succ m =>
      rw [Finset.sum_range_succ, Finset.sum_range_succ']
      have h0 : ∑ x ∈ range X, d m x ((n m : Int) + 1) * d m x ((n m : Int) + 1) = 0 := by
        apply Finset.sum_eq_zero
        intro x hx
        rw [hbot m rfl x (Finset.mem_range.1 hx)]
        ring
      have hsh : ∑ r ∈ range m, ∑ x ∈ range X,
            d r x ((n r : Int) + 1) * d r x ((n r : Int) + 1) =
          ∑ r ∈ range m, ∑ x ∈ range X, d (r + 1) x 0 * d (r + 1) x 0 := by
        apply Finset.sum_congr rfl
        intro r hr
        apply Finset.sum_congr rfl
        intro x hx
        rw [(hhalo r (by have := Finset.mem_range.1 hr; omega) x (Finset.mem_range.1 hx)).2]
      have hm : 0 ≤ ∑ x ∈ range X, d 0 x 0 * d 0 x 0 :=
        Finset.sum_nonneg (fun x _ => mul_self_nonneg _)
      linarith
  -- assemble
  have hU : ∑ r ∈ range W, ∑ x ∈ range X, ∑ y ∈ range (n r + 1),
        d r x ((y : Int) - 1) * d r x ((y : Int) - 1) =
      ∑ r ∈ range W, ∑ x ∈ range X, d r x (-1) * d r x (-1)
        + ∑ r ∈ range W, ∑ x ∈ range X, ∑ y ∈ range (n r + 1), d r x y * d r x y
        - ∑ r ∈ range W, ∑ x ∈ range X, d r x (n r) * d r x (n r) := by
    rw [← Finset.sum_add_distrib, ← Finset.sum_sub_distrib]
    exact Finset.sum_congr rfl (fun r _ => up_eq X (n r) (d r))
  have hD : ∑ r ∈ range W, ∑ x ∈ range X, ∑ y ∈ range (n r + 1),
        d r x ((y : Int) + 1) * d r x ((y : Int) + 1) =
      ∑ r ∈ range W, ∑ x ∈ range X, ∑ y ∈ range (n r + 1), d r x y * d r x y
        - ∑ r ∈ range W, ∑ x ∈ range X, d r x 0 * d r x 0
        + ∑ r ∈ range W, ∑ x ∈ range X, d r x ((n r : Int) + 1) * d r x ((n r : Int) + 1) := by
    rw [← Finset.sum_sub_distrib, ← Finset.sum_add_distrib]
    exact Finset.sum_congr rfl (fun r _ => down_eq X (n r) (d r))
  have hL' := Finset.sum_le_sum hL
  have hR' := Finset.sum_le_sum hR
  rw [← Finset.mul_sum, Finset.sum_add_distrib, Finset.sum_add_distrib,
    Finset.sum_add_distrib, hU, hD] at hA
  linarith

/-- The difference after iteration `k + 1` at an owned cell is a quarter of the sum of the
differences after iteration `k` at its four neighbours. -/
theorem diff_step {Nx Ny W L : Int} (hv : ValidConfig Nx Ny W L)
    (scheds : Nat → List (Int × Int)) (hs : ∀ i, FairSched W L (scheds i))
    (host : Int → Buf ℝ) (k : Nat) (r x y : Int) (hr0 : 0 ≤ r) (hr1 : r < W) (hx0 : 0 ≤ x)
    (hx1 : x < Nx) (hy0 : 0 ≤ y) (hy1 : y < (GetMySubarray Nx Ny W r).y_size) :
    diff Nx Ny W L scheds host (k + 1) r x y =
      1 / 4 * (diff Nx Ny W L scheds host k r (x - 1) y + diff Nx Ny W L scheds host k r (x + 1) y
        + diff Nx Ny W L scheds host k r x (y - 1) + diff Nx Ny W L scheds host k r x (y + 1)) := by
  have a1 := run_owned hv scheds hs (initWorld Nx Ny W host) (k + 1) r x y hr0 hr1 hx0 hx1 hy0 hy1
  have a2 := run_other hv scheds hs (initWorld Nx Ny W host) (k + 1) r ((k + 1) % 2) (by omega)
  have a3 := run_owned hv scheds hs (initWorld Nx Ny W host) k r x y hr0 hr1 hx0 hx1 hy0 hy1
  have a4 := run_other hv scheds hs (initWorld Nx Ny W host) k r (k % 2) (by omega)
  obtain ⟨n1, n2, n3, n4⟩ := XY_2_IDX_neighbours x y (GetMySubarray Nx Ny W r)
  unfold diff
  rw [n1, n2, n3, n4, a1, a2, a3, ← a4]
  unfold stencil
  norm_num
  ring

/-- The difference at a fixed boundary cell is zero. -/
theorem diff_boundary {Nx Ny W L : Int} (hv : ValidConfig Nx Ny W L)
    (scheds : Nat → List (Int × Int)) (hs : ∀ i, FairSched W L (scheds i))
    (host : Int → Buf ℝ) (k : Nat) (r x y : Int) (hc : BoundaryCell Nx Ny W r x y) :
    diff Nx Ny W L scheds host k r x y = 0 := by
  unfold diff
  rw [boundary_run hv scheds hs host (k + 1) r _ x y hc,
    boundary_run hv scheds hs host (k + 1) r _ x y hc, sub_self]

/-- The differences in the halo rows are those in the facing rows of the neighbours. -/
theorem diff_halo {Nx Ny W L : Int} (hv : ValidConfig Nx Ny W L)
    (scheds : Nat → List (Int × Int)) (hs : ∀ i, FairSched W L (scheds i))
    (host : Int → Buf ℝ) (k : Nat) (r x : Int) (hr0 : 0 ≤ r) (hr1 : r + 1 < W)
    (hx0 : 0 ≤ x) (hx1 : x < Nx) :
    diff Nx Ny W L scheds host k (r + 1) x (-1) =
        diff Nx Ny W L scheds host k r x ((GetMySubarray Nx Ny W r).y_size - 1) ∧
      diff Nx Ny W L scheds host k r x (GetMySubarray Nx Ny W r).y_size =
        diff Nx Ny W L scheds host k (r + 1) x 0 := by
  obtain ⟨e1, e2⟩ := run_halo hv scheds hs host (k + 1) ((k + 1) % 2) r x hr0 hr1 hx0 hx1
  obtain ⟨e3, e4⟩ := run_halo hv scheds hs host (k + 1) (k % 2) r x hr0 hr1 hx0 hx1
  unfold diff
  rw [e1, e2, e3, e4]
  exact ⟨rfl, rfl⟩

/-- The global sum of squared differences after iteration `k + 1` is at most the one after
iteration `k`, for every `k`. -/
theorem global_norm_step_le {Nx Ny L : Int} {W : Nat} (hv : ValidConfig Nx Ny W L)
    (scheds : Nat → List (Int × Int)) (hs : ∀ i, FairSched W L (scheds i))
    (host : Int → Buf ℝ) (k : Nat) :
    global_norm Nx Ny W (k + 1) (run Nx Ny W L scheds (k + 2) (initWorld Nx Ny W host)) ≤
      global_norm Nx Ny W k (run Nx Ny W L scheds (k + 1) (initWorld Nx Ny W host)) := by
  have hNx : 0 ≤ Nx := hv.1
  have hx : ∀ r : Nat, (GetMySubarray Nx Ny W r).x_size.toNat = Nx.toNat := fun r => by
    rw [(GetMySubarray_valid hv r).2.2.1]
  have hy : ∀ r : Nat, (GetMySubarray Nx Ny W r).y_size.toNat =
      ((GetMySubarray Nx Ny W r).y_size - 1).toNat + 1 := fun r => by
    have := (GetMySubarray_valid hv r).2.2.2
    omega
  have hy' : ∀ r : Nat, ((((GetMySubarray Nx Ny W r).y_size - 1).toNat : Nat) : Int) =
      (GetMySubarray Nx Ny W r).y_size - 1 := fun r => by
    have := (GetMySubarray_valid hv r).2.2.2
    omega
  have key := jacobi_step_norm_le W Nx.toNat
    (fun r => ((GetMySubarray Nx Ny W r).y_size - 1).toNat)
    (fun r x y => diff Nx Ny W L scheds host k r x y)
    (fun r x y => diff Nx Ny W L scheds host (k + 1) r x y)
    (fun r hr x y hx1 hy1 => by
      have := hy' r
      simp only at hy1
      exact diff_step hv scheds hs host k r x y (by omega) (by omega) (by omega) (by omega)
        (by omega) (by omega))
    (fun r hr y hy1 => by
      have := hy' r
      simp only at hy1
      exact diff_boundary hv scheds hs host k r (-1) y
        (Or.inl ⟨by omega, by omega, Or.inl rfl⟩))
    (fun r hr y hy1 => by
      have := hy' r
      simp only at hy1
      have hX : ((Nx.toNat : Nat) : Int) = Nx := Int.toNat_of_nonneg hNx
      simp only [hX]
      exact diff_boundary hv scheds hs host k r Nx y
        (Or.inl ⟨by omega, by omega, Or.inr rfl⟩))
    (fun x hx1 => diff_boundary hv scheds hs host k ((0 : Nat) : Int) x (-1)
        (Or.inr (Or.inl ⟨rfl, rfl, by omega, by omega⟩)))
    (fun r hr x hx1 => by
      have := hy' r
      simp only [this]
      rw [show (GetMySubarray Nx Ny W r).y_size - 1 + 1 = (GetMySubarray Nx Ny W r).y_size by
        ring]
      exact diff_boundary hv scheds hs host k r x _
        (Or.inr (Or.inr ⟨by omega, rfl, by omega, by omega⟩)))
    (fun r hr x hx1 => by
      have := hy' r
      simp only [this]
      rw [show (GetMySubarray Nx Ny W r).y_size - 1 + 1 = (GetMySubarray Nx Ny W r).y_size by
        ring]
      have h := diff_halo hv scheds hs host k r x (by omega) (by omega) (by omega) (by omega)
      push_cast
      exact h)
  unfold global_norm rank_norm
  simp only [hx, hy]
  exact key

/-- C20: over the real numbers, in a valid configuration started from the state set up by
`InitDeviceArrays` (any host data, any order of the lanes in each iteration, transfers
delivered within their iteration), there is a threshold `K` such that for every `k ≥ K` the sum
over all owned cells of all workers of `(a_out - a)^2` computed after iteration `k + 1` is at
most the same sum computed after iteration `k`. -/
theorem convergence_trend {Nx Ny L : Int} {W : Nat} (hv : ValidConfig Nx Ny W L)
    (scheds : Nat → List (Int × Int)) (hs : ∀ i, FairSched W L (scheds i))
    (host : Int → Buf ℝ) :
    ∃ K : Nat, ∀ k, K ≤ k →
      global_norm Nx Ny W (k + 1) (run Nx Ny W L scheds (k + 2) (initWorld Nx Ny W host)) ≤
        global_norm Nx Ny W k (run Nx Ny W L scheds (k + 1) (initWorld Nx Ny W host)) :=
  ⟨0, fun k _ => global_norm_step_le hv scheds hs host k⟩

/-- Witness of C20: `W = 2`, `Nx = 4`, `Ny = 4`, two lanes, host data zero, the lanes of each
iteration in rank order. -/
theorem convergence_trend_witness :
    ValidConfig 4 4 2 2 ∧ ∃ K : Nat, ∀ k, K ≤ k →
      global_norm 4 4 2 (k + 1)
          (run 4 4 2 2 (fun _ => allLanes 2 2) (k + 2) (initWorld 4 4 2 (fun _ _ => (0 : ℝ)))) ≤
        global_norm 4 4 2 k
          (run 4 4 2 2 (fun _ => allLanes 2 2) (k + 1) (initWorld 4 4 2 (fun _ _ => (0 : ℝ)))) :=
  ⟨by unfold ValidConfig; decide,
    convergence_trend (W := 2) (by unfold ValidConfig; decide) (fun _ => allLanes 2 2)
      (fun _ => fairSched_allLanes 2 2) (fun _ _ => (0 : ℝ))⟩

end Convergence

/-! ### The partition of the columns among the lanes -/

/-- The cells a lane assigns are the cells of its columns in the owned rows. -/
theorem mem_laneWrites (S : subarray) (L l : Int) (hy : 1 ≤ S.y_size) (idx : Int) :
    idx ∈ laneWrites S L l ↔
      ∃ c row, my_x_lb S L l ≤ c ∧ c < my_x_ub S L l ∧ 0 ≤ row ∧ row < S.y_size ∧
        idx = XY_2_IDX c row S := by
  unfold laneWrites
  simp only [List.mem_append, List.mem_flatMap, List.mem_map, mem_intRange, List.mem_cons,
    List.mem_singleton, List.not_mem_nil, or_false]
  constructor
  · rintro (⟨c, ⟨h1, h2⟩, h | h⟩ | ⟨row, ⟨hr1, hr2⟩, c, ⟨h1, h2⟩, h⟩)
    · exact ⟨c, 0, h1, h2, by omega, by omega, h⟩
    · exact ⟨c, S.y_size - 1, h1, h2, by omega, by omega, h⟩
    · exact ⟨c, row, h1, h2, by omega, by omega, h.symm⟩
  · rintro ⟨c, row, h1, h2, hr1, hr2, h⟩
    by_cases h0 : row = 0
    · subst h0
      exact Or.inl ⟨c, ⟨h1, h2⟩, Or.inl h⟩
    · by_cases hl : row = S.y_size - 1
      · subst hl
        exact Or.inl ⟨c, ⟨h1, h2⟩, Or.inr h⟩
      · exact Or.inr ⟨row, ⟨by omega, by omega⟩, c, ⟨h1, h2⟩, h.symm⟩

/-- The column ranges of two different lanes do not meet. -/
theorem lanes_disjoint (S : subarray) (L : Int) (hc : 0 ≤ col_per_wg S L) (l l' x : Int)
    (hne : l ≠ l') (h1 : my_x_lb S L l ≤ x) (h2 : x < my_x_ub S L l)
    (h1' : my_x_lb S L l' ≤ x) (h2' : x < my_x_ub S L l') : False := by
  unfold my_x_ub my_x_lb at *
  generalize col_per_wg S L = c at *
  rcases lt_or_gt_of_ne hne with h | h
  · have := Int.mul_le_mul_of_nonneg_left (show l + 1 ≤ l' by omega) hc
    have e : c * (l + 1) = c * l + c := by ring
    omega
  · have := Int.mul_le_mul_of_nonneg_left (show l' + 1 ≤ l by omega) hc
    have e : c * (l' + 1) = c * l' + c := by ring
    omega

/-- C25: for a width `x_size ≥ 1` and a lane count `L ≥ 1` that divides it, the column
ranges `[my_x_lb, my_x_ub)` of the lanes `0 .. L-1` are `[l * (x_size / L), (l + 1) * (x_size /
L))`, all of width `x_size / L`, pairwise disjoint, and their union is the set of owned columns
`0 .. x_size - 1`; and every owned cell is among the cells assigned by exactly one lane. -/
theorem lane_partition (S : subarray) (L : Int) (hx : 1 ≤ S.x_size) (hL : 1 ≤ L)
    (hdiv : Int.tmod S.x_size L = 0) :
    (∀ l, my_x_lb S L l = l * Int.tdiv S.x_size L ∧
      my_x_ub S L l = (l + 1) * Int.tdiv S.x_size L ∧
      my_x_ub S L l - my_x_lb S L l = Int.tdiv S.x_size L) ∧
    (∀ l l', 0 ≤ l → l < L → 0 ≤ l' → l' < L → l ≠ l' →
      ∀ x, ¬ (my_x_lb S L l ≤ x ∧ x < my_x_ub S L l ∧
        my_x_lb S L l' ≤ x ∧ x < my_x_ub S L l')) ∧
    (∀ x, (0 ≤ x ∧ x < S.x_size) ↔
      ∃ l, 0 ≤ l ∧ l < L ∧ my_x_lb S L l ≤ x ∧ x < my_x_ub S L l) ∧
    (∀ x y, 0 ≤ x → x < S.x_size → 0 ≤ y → y < S.y_size →
      ∃! l, (0 ≤ l ∧ l < L) ∧ XY_2_IDX x y S ∈ laneWrites S L l) := by
  obtain ⟨hmul, hc0⟩ := col_per_wg_mul S L (by omega) hL hdiv
  refine ⟨?_, ?_, ?_, ?_⟩
  · intro l
    unfold my_x_ub my_x_lb col_per_wg
    refine ⟨by ring, by ring, by ring⟩
  · rintro l l' - - - - hne x ⟨h1, h2, h1', h2'⟩
    exact lanes_disjoint S L hc0 l l' x hne h1 h2 h1' h2'
  · intro x
    constructor
    · rintro ⟨h0, h1⟩
      exact lane_of_column S L hL hdiv x h0 h1
    · rintro ⟨l, hl0, hl1, h1, h2⟩
      have := lane_columns_owned S L (by omega) hL hdiv l hl0 hl1
      omega
  · intro x y hx0 hx1 hy0 hy1
    obtain ⟨l, hl0, hl1, h1, h2⟩ := lane_of_column S L hL hdiv x hx0 hx1
    refine ⟨l, ⟨⟨hl0, hl1⟩, ?_⟩, ?_⟩
    · exact (mem_laneWrites S L l (by omega) _).2 ⟨x, y, h1, h2, hy0, hy1, rfl⟩
    · rintro l' ⟨⟨hl0', hl1'⟩, hmem⟩
      obtain ⟨c, row, hc1, hc2, -, -, he⟩ := (mem_laneWrites S L l' (by omega) _).1 hmem
      have hown := lane_columns_owned S L (by omega) hL hdiv l' hl0' hl1'
      unfold XY_2_IDX ROW_SIZE at he
      obtain ⟨-, hcx⟩ := cell_inj (S.x_size + 2) (y + 1) (x + 1) (row + 1) (c + 1) (by omega)
        (by omega) (by omega) (by omega) he
      by_contra hne
      exact lanes_disjoint S L hc0 l' l x hne (by omega) (by omega) h1 h2

/-- Witness of C25: width `8` and `4` lanes. -/
theorem lane_partition_witness :
    ∃! l, (0 ≤ l ∧ l < (4 : Int)) ∧
      XY_2_IDX 5 1 (⟨0, 1, 8, 3, 0⟩ : subarray) ∈ laneWrites (⟨0, 1, 8, 3, 0⟩ : subarray) 4 l :=
  (lane_partition (⟨0, 1, 8, 3, 0⟩ : subarray) 4 (by decide) (by decide) (by decide)).2.2.2
    5 1 (by decide) (by decide) (by decide) (by decide)

/-! ### What a lane transfers -/

/-- Transfers towards other processes leave the memory of the issuing process as it is. -/
theorem puts_keep_own {α : Type} (r : Int) (ps : List PutNotify) (h : ∀ q ∈ ps, q.target_rank ≠ r)
    (w : World α) (b : Nat) (idx : Int) :
    (ps.foldl (fun w p => MPI_Put_notify r p w) w) r b idx = w r b idx := by
  induction ps generalizing w with
  | nil => rfl
  | cons q qs ih =>
    rw [List.foldl_cons, ih (fun q' hq' => h q' (List.mem_cons_of_mem _ hq'))]
    unfold MPI_Put_notify
    rw [if_neg]
    rintro ⟨h1, -⟩
    exact h q (List.mem_cons_self _ _) h1.symm

section SendLemmas

variable {α : Type} [Add α] [Mul α] [OfScientific α]

/-- The loop body of a lane in its three steps: border loop, transfers, interior loops. -/
theorem laneStep_phases (Nx Ny W L : Int) (i : Nat) (r l : Int) (w : World α) :
    laneStep Nx Ny W L i r l w =
      setBuf ((lanePuts (GetMySubarray Nx Ny W r) L l i).foldl
          (fun w p => MPI_Put_notify r p w) (borderStep Nx Ny W L i r l w)) r ((i + 1) % 2)
        (computeInterior (GetMySubarray Nx Ny W r)
          (((lanePuts (GetMySubarray Nx Ny W r) L l i).foldl
            (fun w p => MPI_Put_notify r p w) (borderStep Nx Ny W L i r l w)) r (i % 2))
          (my_x_lb (GetMySubarray Nx Ny W r) L l) (my_x_ub (GetMySubarray Nx Ny W r) L l)
          (((lanePuts (GetMySubarray Nx Ny W r) L l i).foldl
            (fun w p => MPI_Put_notify r p w) (borderStep Nx Ny W L i r l w)) r
              ((i + 1) % 2))) := rfl

/-- The cells of the border loop of a lane are the cells of its columns in rows `0` and
`y_size - 1`. -/
theorem mem_borderWrites (S : subarray) (L l idx : Int) :
    idx ∈ borderWrites S L l ↔
      ∃ c, my_x_lb S L l ≤ c ∧ c < my_x_ub S L l ∧
        (idx = XY_2_IDX c 0 S ∨ idx = XY_2_IDX c (S.y_size - 1) S) := by
  unfold borderWrites
  simp only [List.mem_flatMap, mem_intRange, List.mem_cons, List.mem_singleton,
    List.not_mem_nil, or_false]
  constructor
  · rintro ⟨c, ⟨h1, h2⟩, h⟩
    exact ⟨c, h1, h2, h⟩
  · rintro ⟨c, h1, h2, h⟩
    exact ⟨c, ⟨h1, h2⟩, h⟩

/-- The origin range of a transfer that starts at the cell `(lb, y)` and has the width of
the lane is the row `y` of the columns of the lane. -/
theorem origin_range_row (S : subarray) (L l y idx : Int) :
    (XY_2_IDX (my_x_lb S L l) y S ≤ idx ∧
        idx < XY_2_IDX (my_x_lb S L l) y S + col_per_wg S L) ↔
      ∃ x, my_x_lb S L l ≤ x ∧ x < my_x_ub S L l ∧ idx = XY_2_IDX x y S := by
  unfold my_x_ub XY_2_IDX
  constructor
  · rintro ⟨h1, h2⟩
    exact ⟨idx - ((y + 1) * ROW_SIZE S + 1), by omega, by omega, by ring⟩
  · rintro ⟨x, h1, h2, rfl⟩
    constructor <;> omega

/-- C26: in a valid configuration, for every rank `r`, lane `l`, iteration `i` and every
transfer `p` the lane issues (`pre` are the transfers it issued before `p`): the origin is
in the write buffer `a_out`; the origin range of the upward transfer is exactly the cells
`(x, 0)` and that of the downward transfer exactly the cells `(x, y_size - 1)`, for the
columns `my_x_lb ≤ x < my_x_ub` of the lane; each origin cell is among the cells the border
loop of this lane assigned, and in the state in which `p` is issued it holds the value that
loop computed; no origin cell is among the cells another lane assigns. -/
theorem lane_sends_own {Nx Ny W L : Int} (hv : ValidConfig Nx Ny W L) (i : Nat) (r l : Int)
    (hl0 : 0 ≤ l) (hl1 : l < L) (w : World α) (pre post : List PutNotify) (p : PutNotify)
    (hp : lanePuts (GetMySubarray Nx Ny W r) L l i = pre ++ p :: post) :
    p.origin_buf = a_out_index i ∧
    ((p.target_rank = r - 1 ∧ ∀ idx, idx ∈ putOrigins p ↔
        ∃ x, my_x_lb (GetMySubarray Nx Ny W r) L l ≤ x ∧
          x < my_x_ub (GetMySubarray Nx Ny W r) L l ∧
          idx = XY_2_IDX x 0 (GetMySubarray Nx Ny W r)) ∨
      (p.target_rank = r + 1 ∧ ∀ idx, idx ∈ putOrigins p ↔
        ∃ x, my_x_lb (GetMySubarray Nx Ny W r) L l ≤ x ∧
          x < my_x_ub (GetMySubarray Nx Ny W r) L l ∧
          idx = XY_2_IDX x ((GetMySubarray Nx Ny W r).y_size - 1)
            (GetMySubarray Nx Ny W r))) ∧
    (∀ idx ∈ putOrigins p, idx ∈ borderWrites (GetMySubarray Nx Ny W r) L l ∧
      (pre.foldl (fun w q => MPI_Put_notify r q w) (borderStep Nx Ny W L i r l w)) r
          p.origin_buf idx =
        stencil (w r (a_index i)) (GetMySubarray Nx Ny W r) idx) ∧
    (∀ l', 0 ≤ l' → l' < L → l' ≠ l → ∀ idx ∈ putOrigins p,
      idx ∉ laneWrites (GetMySubarray Nx Ny W r) L l') := by
  obtain ⟨hrank, hcs, hxs, hys⟩ := GetMySubarray_valid hv r
  obtain ⟨hlb, hub, -⟩ := lane_bounds hv r l hl0 hl1
  have hc0 : 0 ≤ col_per_wg (GetMySubarray Nx Ny W r) L :=
    (col_per_wg_mul _ L (by rw [hxs]; exact hv.1) hv.2.2.2.1 (by rw [hxs]; exact hv.2.2.2.2)).2
  have hmem : p ∈ lanePuts (GetMySubarray Nx Ny W r) L l i := by
    rw [hp]
    exact List.mem_append_right _ (List.mem_cons_self _ _)
  have hpre : ∀ q ∈ pre, q.target_rank ≠ r := by
    intro q hq
    have hq' : q ∈ lanePuts (GetMySubarray Nx Ny W r) L l i := by
      rw [hp]
      exact List.mem_append_left _ hq
    rcases (lanePuts_win _ L l i q hq').2.2.2 with h | h <;> omega
  -- the origin range, row by row
  have hrow : ∃ y, (y = 0 ∨ y = (GetMySubarray Nx Ny W r).y_size - 1) ∧
      p.origin_buf = (i + 1) % 2 ∧
      ((y = 0 ∧ p.target_rank = r - 1) ∨
        (y = (GetMySubarray Nx Ny W r).y_size - 1 ∧ p.target_rank = r + 1)) ∧
      ∀ idx, idx ∈ putOrigins p ↔
        ∃ x, my_x_lb (GetMySubarray Nx Ny W r) L l ≤ x ∧
          x < my_x_ub (GetMySubarray Nx Ny W r) L l ∧
          idx = XY_2_IDX x y (GetMySubarray Nx Ny W r) := by
    rw [lanePuts_cases] at hmem
    rcases List.mem_append.1 hmem with h | h
    · split_ifs at h
      · rw [List.mem_singleton.1 h]
        refine ⟨0, Or.inl rfl, rfl, Or.inl ⟨rfl, by rw [hrank]⟩, fun idx => ?_⟩
        unfold putOrigins
        rw [mem_intRange]
        exact origin_range_row _ L l 0 idx
      · simp at h
    · split_ifs at h
      · rw [List.mem_singleton.1 h]
        refine ⟨_, Or.inr rfl, rfl, Or.inr ⟨rfl, by rw [hrank]⟩, fun idx => ?_⟩
        unfold putOrigins
        rw [mem_intRange]
        exact origin_range_row _ L l _ idx
      · simp at h
  obtain ⟨y, hy, hbuf, htgt, hrange⟩ := hrow
  have hborder : ∀ idx ∈ putOrigins p, ∃ c, my_x_lb (GetMySubarray Nx Ny W r) L l ≤ c ∧
      c < my_x_ub (GetMySubarray Nx Ny W r) L l ∧
      (idx = XY_2_IDX c 0 (GetMySubarray Nx Ny W r) ∨
        idx = XY_2_IDX c ((GetMySubarray Nx Ny W r).y_size - 1) (GetMySubarray Nx Ny W r)) := by
    intro idx hidx
    obtain ⟨x, h1, h2, he⟩ := (hrange idx).1 hidx
    rcases hy with rfl | rfl
    · exact ⟨x, h1, h2, Or.inl he⟩
    · exact ⟨x, h1, h2, Or.inr he⟩
  refine ⟨hbuf, ?_, ?_, ?_⟩
  · rcases htgt with ⟨rfl, ht⟩ | ⟨rfl, ht⟩
    · exact Or.inl ⟨ht, hrange⟩
    · exact Or.inr ⟨ht, hrange⟩
  · intro idx hidx
    refine ⟨(mem_borderWrites _ L l idx).2 (hborder idx hidx), ?_⟩
    rw [puts_keep_own r pre hpre, hbuf]
    unfold borderStep setBuf a_index
    simp only [and_self, if_true]
    exact ((writes_computeBorder (GetMySubarray Nx Ny W r) (w r (i % 2)) _ _)
      (w r ((i + 1) % 2)) idx).1 (hborder idx hidx)
  · intro l' hl0' hl1' hne idx hidx hmem'
    obtain ⟨x, h1, h2, he⟩ := (hrange idx).1 hidx
    obtain ⟨c, row, hc1, hc2, -, -, he'⟩ :=
      (mem_laneWrites (GetMySubarray Nx Ny W r) L l' hys idx).1 hmem'
    obtain ⟨hlb', hub', -⟩ := lane_bounds hv r l' hl0' hl1'
    rw [he] at he'
    unfold XY_2_IDX ROW_SIZE at he'
    rw [hxs] at he'
    obtain ⟨-, hcx⟩ := cell_inj (Nx + 2) (y + 1) (x + 1) (row + 1) (c + 1) (by omega)
      (by omega) (by omega) (by omega) he'
    exact lanes_disjoint _ L hc0 l' l x hne (by omega) (by omega) h1 h2

/-- Witness of C26: `W = 2`, `Nx = 4`, `Ny = 4`, two lanes; lane `1` of rank `0` issues the
downward transfer only, and its origin cell `15`, the cell `(2, 1)`, holds the value just
computed. -/
theorem lane_sends_own_witness :
    15 ∈ borderWrites (GetMySubarray 4 4 2 0) 2 1 ∧
      (([] : List PutNotify).foldl (fun w q => MPI_Put_notify 0 q w)
          (borderStep 4 4 2 2 0 0 1 (initWorld 4 4 2 (fun _ _ => (0 : ℚ))))) 0 1 15 =
        stencil (initWorld 4 4 2 (fun _ _ => (0 : ℚ)) 0 (a_index 0)) (GetMySubarray 4 4 2 0)
          15 :=
  (lane_sends_own (by unfold ValidConfig; decide) 0 0 1 (by decide) (by decide)
    (initWorld 4 4 2 (fun _ _ => (0 : ℚ))) [] [] (⟨1, 15, 2, 1, 3, 2, 0, 1⟩ : PutNotify)
    (by decide)).2.2.1 15 (by decide)

end SendLemmas

/-! ### The host loop with the norm report enabled -/

/-- The host loop from `passed_iters = p` on, when `n` more invocations of `B` iterations are
due: it ends within `n + 1` tests of its condition and submits these `n` invocations. -/
theorem hostLoop_batches (Niter B : Int) :
    ∀ (n : Nat) (p : Int) (fuel : Nat), Niter ≤ p + n * B →
      (∀ k : Nat, k < n → p + k * B < Niter) → n + 1 ≤ fuel →
      hostLoop Niter B fuel p = some ((List.range n).map (fun (k : Nat) => (p + k * B, B))) := by
  intro n
  induction n with
  | zero =>
    intro p fuel h1 _ hf
    obtain ⟨f, rfl⟩ : ∃ f, fuel = f + 1 := ⟨fuel - 1, by omega⟩
    unfold hostLoop
    rw [if_neg (by simpa using h1)]
    rfl
  | succ n ih =>
    intro p fuel h1 h2 hf
    obtain ⟨f, rfl⟩ : ∃ f, fuel = f + 1 := ⟨fuel - 1, by omega⟩
    have hp : p < Niter := by simpa using h2 0 (by omega)
    have e : ((n + 1 : Nat) : Int) * B = n * B + B := by push_cast; ring
    unfold hostLoop
    rw [if_pos hp, ih (p + B) f (by omega) (fun k hk => by
      have := h2 (k + 1) (by omega)
      have e' : ((k + 1 : Nat) : Int) * B = k * B + B := by push_cast; ring
      omega) (by omega)]
    rw [List.range_succ_eq_map, Option.map_some', List.map_cons, List.map_map]
    congr 2
    · simp
    · apply List.map_congr_left
      intro k _
      simp only [Function.comp_apply, Nat.succ_eq_add_one]
      congr 1
      push_cast
      ring

/-- The host loop ends for every iteration count and every norm interval. -/
theorem hostLoop_ends (Niter NormIteration : Int) :
    ∃ (fuel0 : Nat) (ks : List (Int × Int)), ∀ fuel, fuel0 ≤ fuel →
      hostLoop Niter (iterations_batch Niter NormIteration) fuel 0 = some ks := by
  by_cases hN : Niter ≤ 0
  · refine ⟨1, _, fun fuel hf => hostLoop_batches Niter _ 0 0 fuel (by simpa using hN) ?_ hf⟩
    intro k hk
    omega
  · by_cases hB : NormIteration ≤ 0
    · have hb : iterations_batch Niter NormIteration = Niter := by
        unfold iterations_batch
        rw [if_pos hB]
      rw [hb]
      refine ⟨2, _, fun fuel hf => hostLoop_batches Niter Niter 1 0 fuel (by simp) ?_ hf⟩
      intro k hk
      have : k = 0 := by omega
      subst this
      simp
      omega
    · have hb : iterations_batch Niter NormIteration = NormIteration := by
        unfold iterations_batch
        rw [if_neg hB]
      rw [hb]
      have hB' : 0 < NormIteration := by omega
      have hQ0 : 0 ≤ (Niter + NormIteration - 1) / NormIteration :=
        Int.ediv_nonneg (by omega) (by omega)
      have hQ1 := Int.ediv_mul_le (Niter + NormIteration - 1) (Int.ne_of_gt hB')
      have hQ2 := Int.lt_ediv_add_one_mul_self (Niter + NormIteration - 1) hB'
      obtain ⟨q, hq⟩ : ∃ q : Nat, (q : Int) = (Niter + NormIteration - 1) / NormIteration :=
        ⟨((Niter + NormIteration - 1) / NormIteration).toNat, Int.toNat_of_nonneg hQ0⟩
      rw [← hq] at hQ1 hQ2
      refine ⟨q + 1, _, fun fuel hf => hostLoop_batches Niter NormIteration q 0 fuel ?_ ?_ hf⟩
      · have e : ((q : Int) + 1) * NormIteration = q * NormIteration + NormIteration := by ring
        omega
      · intro k hk
        have h1 : (k : Int) * NormIteration ≤ ((q : Int) - 1) * NormIteration :=
          Int.mul_le_mul_of_nonneg_right (by omega) (by omega)
        have e : ((q : Int) - 1) * NormIteration = q * NormIteration - NormIteration := by ring
        omega

/-- C22 (as stated, at `W = 2`): in a run of two workers without abort (`Nx = 4`, two lanes,
the constants `Niter = 100`, `NormIteration = 0` of the source) it is not the case that every
rank has a completion message among its events: rank `1` submits its kernel and prints
none. -/
theorem completion_message_every_rank_fails :
    ¬ (∀ r : Int, 0 ≤ r → r < 2 →
      ∃ evs, mainEvents 4 100 0 2 r 2 = some evs ∧ ∃ m, Event.success m ∈ evs) := by
  intro h
  obtain ⟨evs, h1, m, h2⟩ := h 1 (by decide) (by decide)
  have e : mainEvents 4 100 0 2 1 2 =
      some [Event.win_create 0, Event.win_create 1, Event.kernel 0 100] := by decide
  rw [e] at h1
  cases h1
  simp at h2

/-- C22 (amended): when the lane count divides `Nx`, so that no rank aborts, `main` reaches
its end on every rank (enough tests of the host loop condition given); rank `0` prints the
completion message, once and as its last event, and no other rank prints one. -/
theorem completion_message (Nx Niter NormIteration L : Int) (hdiv : Int.tmod Nx L = 0) :
    ∃ fuel0 : Nat, ∀ fuel, fuel0 ≤ fuel → ∀ r : Int,
      ∃ evs, mainEvents Nx Niter NormIteration L r fuel = some evs ∧
        (r = 0 → evs.getLast? = some (Event.success 0) ∧
          evs.count (Event.success 0) = 1) ∧
        (r ≠ 0 → ∀ m, Event.success m ∉ evs) := by
  obtain ⟨fuel0, ks, hks⟩ := hostLoop_ends Niter NormIteration
  refine ⟨fuel0, fun fuel hf r => ?_⟩
  have hab : startupAbort Nx L r = false := by
    unfold startupAbort
    simp [hdiv]
  unfold mainEvents
  rw [hab, hks fuel hf]
  refine ⟨_, rfl, ?_, ?_⟩
  · rintro rfl
    simp only [if_true]
    constructor
    · rw [List.getLast?_append]
      rfl
    · rw [List.count_append, List.count_append]
      have : List.count (Event.success 0) (ks.map (fun k => Event.kernel k.1 k.2)) = 0 := by
        rw [List.count_eq_zero]
        intro hmem
        obtain ⟨k, -, hk⟩ := List.mem_map.1 hmem
        cases hk
      rw [this]
      rfl
  · intro hr m hmem
    rw [if_neg hr] at hmem
    simp only [List.append_nil] at hmem
    rcases List.mem_append.1 hmem with hmem | hmem
    · simp at hmem
    · obtain ⟨k, -, hk⟩ := List.mem_map.1 hmem
      cases hk

/-- Witness of C22 (amended): `Nx = 4` with two lanes. -/
theorem completion_message_witness :
    ∃ fuel0 : Nat, ∀ fuel, fuel0 ≤ fuel → ∀ r : Int,
      ∃ evs, mainEvents 4 100 0 2 r fuel = some evs ∧
        (r = 0 → evs.getLast? = some (Event.success 0) ∧
          evs.count (Event.success 0) = 1) ∧
        (r ≠ 0 → ∀ m, Event.success m ∉ evs) :=
  completion_message 4 100 0 2 (by decide)

/-! ### The stacked rows of all ranks against a single grid -/

/-- The offset of the next rank. -/
theorem rowOffset_succ (Nx Ny : Int) (W r : Nat) :
    rowOffset Nx Ny W (r + 1) =
      rowOffset Nx Ny W r + (GetMySubarray Nx Ny (W : Int) (r : Int)).y_size := by
  unfold rowOffset
  rw [List.range_succ, List.map_append, List.sum_append]
  simp

/-- The height of the stacked grid is the offset one past the last rank. -/
theorem rowOffset_total (Nx Ny : Int) (W : Nat) :
    rowOffset Nx Ny W W = (ySizes Nx Ny W).sum := rfl

/-- The offsets grow with the rank. -/
theorem rowOffset_mono {Nx Ny L : Int} {W : Nat} (hv : ValidConfig Nx Ny W L) (r s : Nat)
    (h : r ≤ s) : rowOffset Nx Ny W r ≤ rowOffset Nx Ny W s := by
  induction s, h using Nat.le_induction with
  | base => exact le_refl _
  | succ s _ ih =>
    rw [rowOffset_succ]
    have := (GetMySubarray_valid hv (s : Int)).2.2.2
    omega

section StackLemmas

variable {α : Type} [Add α] [Mul α] [OfScientific α]

/-- When the owned cells of every rank agree with the grid `G`, which has the fixed boundary
of `globalInit`, so do the side columns and the halo rows (corners apart). -/
theorem stacked_ext {Nx Ny L : Int} {W : Nat} (hv : ValidConfig Nx Ny W L)
    (scheds : Nat → List (Int × Int)) (hs : ∀ i, FairSched W L (scheds i))
    (host : Int → Buf α) (N : Nat) (G : Int → Int → α)
    (hG : ∀ x y, ¬ (0 ≤ x ∧ x < Nx ∧ 0 ≤ y ∧ y < rowOffset Nx Ny W W) →
      G x y = globalInit Nx (rowOffset Nx Ny W W) x y)
    (hown : ∀ r : Nat, r < W → ∀ x y, 0 ≤ x → x < Nx → 0 ≤ y →
      y < (GetMySubarray Nx Ny W r).y_size →
      run Nx Ny W L scheds N (initWorld Nx Ny W host) r (N % 2)
        (XY_2_IDX x y (GetMySubarray Nx Ny W r)) = G x (rowOffset Nx Ny W r + y))
    (r : Nat) (hr : r < W) (x y Y : Int) (hx0 : -1 ≤ x) (hx1 : x ≤ Nx) (hy0 : -1 ≤ y)
    (hy1 : y ≤ (GetMySubarray Nx Ny W r).y_size)
    (hnc : (0 ≤ x ∧ x < Nx) ∨ (0 ≤ y ∧ y < (GetMySubarray Nx Ny W r).y_size))
    (hY : Y = rowOffset Nx Ny W r + y) :
    run Nx Ny W L scheds N (initWorld Nx Ny W host) r (N % 2)
      (XY_2_IDX x y (GetMySubarray Nx Ny W r)) = G x Y := by
  subst hY
  have hys := (GetMySubarray_valid hv (r : Int)).2.2.2
  have h0 : 0 ≤ rowOffset Nx Ny W r := rowOffset_mono hv 0 r (Nat.zero_le r)
  have h1 : rowOffset Nx Ny W (r + 1) ≤ rowOffset Nx Ny W W := rowOffset_mono hv (r + 1) W hr
  rw [rowOffset_succ] at h1
  by_cases hxo : 0 ≤ x ∧ x < Nx
  · by_cases hyo : 0 ≤ y ∧ y < (GetMySubarray Nx Ny W r).y_size
    · exact hown r hr x y hxo.1 hxo.2 hyo.1 hyo.2
    · by_cases hy : y = -1
      · subst hy
        cases r with
        | zero =>
          have hz : rowOffset Nx Ny W 0 = 0 := rfl
          rw [boundary_run hv scheds hs host N ((0 : Nat) : Int) _ x (-1)
            (Or.inr (Or.inl ⟨rfl, rfl, hxo.1, hxo.2⟩)), if_neg (by omega),
            hG x _ (by omega)]
          unfold globalInit
          rw [if_neg (by omega), if_pos (Or.inl (by simp [rowOffset]))]
        | succ r' =>
          have hys' := (GetMySubarray_valid hv (r' : Int)).2.2.2
          have hh := (run_halo hv scheds hs host N (N % 2) (r' : Int) x (by omega)
            (by omega) hxo.1 hxo.2).1
          have e : ((r' + 1 : Nat) : Int) = (r' : Int) + 1 := by push_cast; ring
          rw [e, hh, hown r' (by omega) x _ hxo.1 hxo.2 (by omega) (by omega),
            rowOffset_succ]
          congr 1
          ring
      · have hy : y = (GetMySubarray Nx Ny W r).y_size := by omega
        by_cases hlast : r + 1 = W
        · have hW : rowOffset Nx Ny W W = rowOffset Nx Ny W (r + 1) := by rw [hlast]
          rw [rowOffset_succ] at hW
          rw [boundary_run hv scheds hs host N (r : Int) _ x y
            (Or.inr (Or.inr ⟨by omega, hy, hxo.1, hxo.2⟩)), if_pos hy, hG x _ (by omega)]
          unfold globalInit
          rw [if_pos (by omega)]
        · have hys' := (GetMySubarray_valid hv ((r : Int) + 1)).2.2.2
          have hh := (run_halo hv scheds hs host N (N % 2) (r : Int) x (by omega)
            (by omega) hxo.1 hxo.2).2
          have e : (r : Int) + 1 = ((r + 1 : Nat) : Int) := by push_cast; ring
          rw [hy, hh, e, hown (r + 1) (by omega) x 0 hxo.1 hxo.2 (le_refl 0)
            (by rw [← e]; omega), rowOffset_succ]
          congr 1
          ring
  · have hyo : 0 ≤ y ∧ y < (GetMySubarray Nx Ny W r).y_size := by
      rcases hnc with h | h
      · exact absurd h hxo
      · exact h
    rw [boundary_run hv scheds hs host N (r : Int) _ x y
      (Or.inl ⟨hyo.1, hyo.2, by omega⟩), if_neg (by omega), hG x _ (fun h => hxo ⟨h.1, h.2.1⟩)]
    unfold globalInit
    rw [if_neg (by omega), if_pos (Or.inr (by omega))]

/-- C27: in a valid configuration (`0 ≤ Nx`, `1 ≤ W ≤ Ny`, lane count `L ≥ 1` dividing
`Nx`), with every transfer of an iteration delivered before the next iteration starts and
any order of the lanes, after `N` iterations from the state set up by `InitDeviceArrays` the
owned cell `(x, y)` of rank `r`, in the buffer written last, equals the cell `(x, rowOffset r
+ y)` of `N` steps of the single-grid reference iteration on a grid of width `Nx` and height
`sum(y_size)` started from `globalInit`; the ranks are stacked in rank order: the offset of
rank `0` is `0`, that of rank `r + 1` is that of rank `r` plus `y_size` of rank `r`, and
the offset one past the last rank is the height. -/
theorem distributed_eq_global {Nx Ny L : Int} {W : Nat} (hv : ValidConfig Nx Ny W L)
    (scheds : Nat → List (Int × Int)) (hs : ∀ i, FairSched W L (scheds i))
    (host : Int → Buf α) (N : Nat) :
    (∀ r : Nat, r < W → ∀ x y, 0 ≤ x → x < Nx → 0 ≤ y →
      y < (GetMySubarray Nx Ny W r).y_size →
      run Nx Ny W L scheds N (initWorld Nx Ny W host) r (N % 2)
          (XY_2_IDX x y (GetMySubarray Nx Ny W r)) =
        jacobiRef Nx (ySizes Nx Ny W).sum N (globalInit Nx (ySizes Nx Ny W).sum) x
          (rowOffset Nx Ny W r + y)) ∧
    rowOffset Nx Ny W 0 = 0 ∧
    (∀ r : Nat, rowOffset Nx Ny W (r + 1) =
      rowOffset Nx Ny W r + (GetMySubarray Nx Ny (W : Int) (r : Int)).y_size) ∧
    rowOffset Nx Ny W W = (ySizes Nx Ny W).sum := by
  refine ⟨?_, rfl, rowOffset_succ Nx Ny W, rfl⟩
  rw [← rowOffset_total]
  induction N with
  | zero =>
    intro r hr x y hx0 hx1 hy0 hy1
    obtain ⟨-, -, hxs, hys⟩ := GetMySubarray_valid hv (r : Int)
    have h0 : 0 ≤ rowOffset Nx Ny W r := rowOffset_mono hv 0 r (Nat.zero_le r)
    have h1 : rowOffset Nx Ny W (r + 1) ≤ rowOffset Nx Ny W W := rowOffset_mono hv (r + 1) W hr
    rw [rowOffset_succ] at h1
    show initWorld Nx Ny W host r (0 % 2) _ = globalInit Nx _ x _
    have c := InitDeviceArrays_cell (GetMySubarray Nx Ny W r) (host r) (y + 1) (x + 1)
      (by omega) (by omega) (by omega) (by omega)
    rw [if_neg (by omega), if_neg (by omega), if_neg (by omega)] at c
    rw [initWorld_apply]
    unfold XY_2_IDX ROW_SIZE globalInit
    rw [c, if_neg (by omega), if_neg (by omega)]
  | succ N ih =>
    intro r hr x y hx0 hx1 hy0 hy1
    have h0 : 0 ≤ rowOffset Nx Ny W r := rowOffset_mono hv 0 r (Nat.zero_le r)
    have h1 : rowOffset Nx Ny W (r + 1) ≤ rowOffset Nx Ny W W := rowOffset_mono hv (r + 1) W hr
    rw [rowOffset_succ] at h1
    have hext := stacked_ext hv scheds hs host N
      (jacobiRef Nx (rowOffset Nx Ny W W) N (globalInit Nx (rowOffset Nx Ny W W)))
      (fun x y h => jacobiRef_border Nx _ N _ x y h) ih r hr
    obtain ⟨n1, n2, n3, n4⟩ := XY_2_IDX_neighbours x y (GetMySubarray Nx Ny W r)
    rw [run_owned hv scheds hs _ N r x y (by omega) (by omega) hx0 hx1 hy0 hy1]
    unfold stencil
    rw [← n1, ← n2, ← n3, ← n4,
      hext (x - 1) y (rowOffset Nx Ny W r + y) (by omega) (by omega) (by omega) (by omega)
        (Or.inr ⟨hy0, hy1⟩) rfl,
      hext (x + 1) y (rowOffset Nx Ny W r + y) (by omega) (by omega) (by omega) (by omega)
        (Or.inr ⟨hy0, hy1⟩) rfl,
      hext x (y - 1) (rowOffset Nx Ny W r + y - 1) (by omega) (by omega) (by omega) (by omega)
        (Or.inl ⟨hx0, hx1⟩) (by ring),
      hext x (y + 1) (rowOffset Nx Ny W r + y + 1) (by omega) (by omega) (by omega) (by omega)
        (Or.inl ⟨hx0, hx1⟩) (by ring)]
    show _ = jacobiRefStep Nx _ (jacobiRef Nx _ N _) x _
    unfold jacobiRefStep
    rw [if_pos ⟨hx0, hx1, by omega, by omega⟩]

/-- Witness of C27: `W = 2`, `Nx = 4`, `Ny = 4`, two lanes, three iterations over the
rationals: the owned cell `(0, 1)` of rank `1` is the cell `(0, 3)` of the single grid. -/
theorem distributed_eq_global_witness :
    run 4 4 2 2 (fun _ => allLanes 2 2) 3 (initWorld 4 4 2 (fun _ _ => (0 : ℚ))) 1 (3 % 2)
        (XY_2_IDX 0 1 (GetMySubarray 4 4 2 1)) =
      jacobiRef 4 (ySizes 4 4 2).sum 3 (globalInit 4 (ySizes 4 4 2).sum) 0
        (rowOffset 4 4 2 1 + 1) :=
  (distributed_eq_global (W := 2) (by unfold ValidConfig; decide) (fun _ => allLanes 2 2)
    (fun _ => fairSched_allLanes 2 2) (fun _ _ => (0 : ℚ)) 3).1 1 (by decide) 0 1
    (by decide) (by decide) (by decide) (by decide)

end StackLemmas

/-! ### Transfers against reads in the asynchronous execution -/

/-- C21 (code at the failing input): two ranks of two lanes on the grid `Nx = 4`, `Ny = 4`.
Rank `0` runs iteration `0` to its end while rank `1` has not started; in the wait step the
counter of rank `0` is still `0`, below `c_expected = 2`, but the uninitialised `c` holds
`2`, so lane `0` leaves the polling loop.  Rank `0` is then in iteration `1`, about to run
its border loops on the read buffer `A_device[1]`.  When lane `0` of rank `1` now issues the
upward transfer of iteration `0`, it writes the bottom halo row of `A_device[1]` of rank
`0`, cells that the lanes of rank `0` still read in the iteration they are executing. -/
theorem put_under_read :
    (asyncRun 4 4 2 2 100
        [Action.border 0 0, Action.border 0 1, Action.puts 0 0, Action.puts 0 1,
          Action.interior 0 0, Action.interior 0 1, Action.barrier1 0] asyncInit).map
      (fun s => (s.notif 0 (cwin_index (s.iter 0)),
        c_expected (GetMySubarray 4 4 2 0) 2)) = some (0, 2) ∧
    (asyncRun 4 4 2 2 100
        [Action.border 0 0, Action.border 0 1, Action.puts 0 0, Action.puts 0 1,
          Action.interior 0 0, Action.interior 0 1, Action.barrier1 0, Action.wait 0 2,
          Action.barrier2 0, Action.border 1 0] asyncInit).map
      (fun s => (s.iter 0, s.phase 0 0, s.phase 0 1)) = some (1, Phase.border, Phase.border) ∧
    (asyncRun 4 4 2 2 100
        [Action.border 0 0, Action.border 0 1, Action.puts 0 0, Action.puts 0 1,
          Action.interior 0 0, Action.interior 0 1, Action.barrier1 0, Action.wait 0 2,
          Action.barrier2 0, Action.border 1 0] asyncInit).map
      (fun s => (s.iter 1, s.phase 1 0)) = some (0, Phase.puts) ∧
    (asyncRun 4 4 2 2 100
        [Action.border 0 0, Action.border 0 1, Action.puts 0 0, Action.puts 0 1,
          Action.interior 0 0, Action.interior 0 1, Action.barrier1 0, Action.wait 0 2,
          Action.barrier2 0, Action.border 1 0] asyncInit).map
      (fun s => ((asyncStep 4 4 2 2 100 (Action.puts 1 0) s).isSome,
        putConflict 4 4 2 2 s 1 0)) = some (true, true) := by
  refine ⟨?_, ?_, ?_, ?_⟩ <;> decide

/-! ### The asynchronous execution when the wait step works -/

/-- The invariant depends only on the progress counts of the lanes `0 .. L-1` and on the
counters. -/
theorem asyncInv_frame (W : Int) (L : Nat) (s s' : Async)
    (hP : ∀ r l : Int, 0 ≤ l → l < L → putProgress s' r l = putProgress s r l)
    (hZ : ∀ r : Int, waitProgress s' r = waitProgress s r) (hn : s'.notif = s.notif)
    (h : AsyncInv W L s) : AsyncInv W L s' := by
  obtain ⟨hA, hB⟩ := h
  have hpend : ∀ r r' w, pendingFrom L s' r r' w = pendingFrom L s r r' w := by
    intro r r' w
    unfold pendingFrom
    apply List.countP_congr
    intro l hl
    have hl' := List.mem_range.1 hl
    rw [hP r l (by omega) (by omega), hZ r']
  refine ⟨fun r r' l h1 h2 h3 h4 h5 h6 h7 => ?_, fun r' w h1 h2 h3 => ?_⟩
  · rw [hP r l h6 h7, hZ r']
    exact hA r r' l h1 h2 h3 h4 h5 h6 h7
  · rw [hn, hpend, hpend]
    exact hB r' w h1 h2 h3

/-- All lanes `0 .. L-1` of a rank in a phase. -/
theorem lanesAt_iff (L : Nat) (s : Async) (r : Int) (ph : Phase) :
    lanesAt L s r ph = true ↔ ∀ l : Int, 0 ≤ l → l < L → s.phase r l = ph := by
  unfold lanesAt
  rw [List.all_eq_true]
  constructor
  · intro h l hl0 hl1
    have := h l.toNat (List.mem_range.2 (by omega))
    rw [Int.toNat_of_nonneg hl0] at this
    simpa using this
  · intro h l hl
    have hl' := List.mem_range.1 hl
    simpa using h l (by omega) (by omega)

/-- The invariant holds before the first iteration. -/
theorem asyncInv_init (W : Int) (L : Nat) : AsyncInv W L asyncInit := by
  refine ⟨fun r r' l _ _ _ _ _ _ _ => ?_, fun r' w _ _ _ => ?_⟩
  · simp [waitProgress, putProgress, asyncInit, afterPuts]
  · have h : ∀ r, pendingFrom L asyncInit r r' w = 0 := by
      intro r
      unfold pendingFrom
      rw [List.countP_eq_zero]
      intro l _
      simp only [waitProgress, putProgress, asyncInit, afterPuts]
      split_ifs <;> simp
    rw [h, h]
    simp [asyncInit]

/-- Moving a lane between two phases on the same side of its transfers keeps the number of
transfers issued. -/
theorem putProgress_setPhase (s : Async) (r l : Int) (ph : Phase)
    (h : afterPuts ph = afterPuts (s.phase r l)) (r1 l1 : Int) :
    putProgress (setPhase s r l ph) r1 l1 = putProgress s r1 l1 := by
  unfold putProgress setPhase
  by_cases hc : r1 = r ∧ l1 = l
  · obtain ⟨rfl, rfl⟩ := hc
    simp only [and_self, if_true, h]
  · simp only [if_neg hc]

/-- Moving a lane between two phases other than the second barrier keeps the number of wait
steps completed. -/
theorem waitProgress_setPhase (s : Async) (r l : Int) (ph : Phase)
    (h1 : ph ≠ Phase.barrier2) (h2 : s.phase r l ≠ Phase.barrier2) (r1 : Int) :
    waitProgress (setPhase s r l ph) r1 = waitProgress s r1 := by
  unfold waitProgress setPhase
  by_cases hc : r1 = r ∧ (0 : Int) = l
  · obtain ⟨rfl, rfl⟩ := hc
    simp only [and_self, if_true, if_neg h1, if_neg h2]
  · simp only [if_neg hc]

/-- The border loop of a lane keeps the invariant. -/
theorem asyncInv_border (Nx Ny W : Int) (L last : Nat) (r l : Int) (s s' : Async)
    (hstep : asyncStep Nx Ny W L last (Action.border r l) s = some s')
    (h : AsyncInv W L s) : AsyncInv W L s' := by
  simp only [asyncStep] at hstep
  split_ifs at hstep with hc
  cases hstep
  obtain ⟨-, -, -, -, hph⟩ := hc
  exact asyncInv_frame W L s _
    (fun r1 l1 _ _ => putProgress_setPhase s r l _ (by rw [hph]; rfl) r1 l1)
    (fun r1 => waitProgress_setPhase s r l _ (by decide) (by rw [hph]; decide) r1) rfl h

/-- The interior loops of a lane keep the invariant. -/
theorem asyncInv_interior (Nx Ny W : Int) (L last : Nat) (r l : Int) (s s' : Async)
    (hstep : asyncStep Nx Ny W L last (Action.interior r l) s = some s')
    (h : AsyncInv W L s) : AsyncInv W L s' := by
  simp only [asyncStep] at hstep
  split_ifs at hstep with hc
  cases hstep
  obtain ⟨-, -, -, -, hph⟩ := hc
  exact asyncInv_frame W L s _
    (fun r1 l1 _ _ => putProgress_setPhase s r l _ (by rw [hph]; rfl) r1 l1)
    (fun r1 => waitProgress_setPhase s r l _ (by decide) (by rw [hph]; decide) r1) rfl h

/-- The first barrier keeps the invariant. -/
theorem asyncInv_barrier1 (Nx Ny W : Int) (L last : Nat) (hL : 1 ≤ L) (r : Int)
    (s s' : Async) (hstep : asyncStep Nx Ny W L last (Action.barrier1 r) s = some s')
    (h : AsyncInv W L s) : AsyncInv W L s' := by
  simp only [asyncStep] at hstep
  split_ifs at hstep with hc
  cases hstep
  obtain ⟨-, -, hall⟩ := hc
  rw [lanesAt_iff] at hall
  refine asyncInv_frame W L s _ (fun r1 l1 hl0 hl1 => ?_) (fun r1 => ?_) rfl h
  · unfold putProgress
    by_cases hr : r1 = r
    · subst hr
      simp only [if_true, hall l1 hl0 hl1]
      by_cases h0 : l1 = 0 <;> simp [h0, afterPuts]
    · simp only [if_neg hr]
  · unfold waitProgress
    by_cases hr : r1 = r
    · subst hr
      simp [hall 0 (le_refl 0) (by omega)]
    · simp only [if_neg hr]

/-- The second barrier keeps the invariant. -/
theorem asyncInv_barrier2 (Nx Ny W : Int) (L last : Nat) (hL : 1 ≤ L) (r : Int)
    (s s' : Async) (hstep : asyncStep Nx Ny W L last (Action.barrier2 r) s = some s')
    (h : AsyncInv W L s) : AsyncInv W L s' := by
  simp only [asyncStep] at hstep
  by_cases hc : 0 ≤ r ∧ r < W ∧ lanesAt L s r Phase.barrier2 = true
  swap
  · rw [if_neg hc] at hstep
    cases hstep
  rw [if_pos hc] at hstep
  cases hstep
  obtain ⟨-, -, hall⟩ := hc
  rw [lanesAt_iff] at hall
  refine asyncInv_frame W L s _ (fun r1 l1 hl0 hl1 => ?_) (fun r1 => ?_) rfl h
  · unfold putProgress
    by_cases hr : r1 = r
    · subst hr
      simp only [if_true, hall l1 hl0 hl1]
      by_cases hlast : s.iter r1 + 1 < last <;> simp [hlast, afterPuts]
    · simp only [if_neg hr]
  · unfold waitProgress
    by_cases hr : r1 = r
    · subst hr
      simp only [if_true, hall 0 (le_refl 0) (by omega)]
      by_cases hlast : s.iter r1 + 1 < last <;> simp [hlast]
    · simp only [if_neg hr]

/-- Counting over the lanes when one lane starts to satisfy the condition. -/
theorem countP_range_flip (L : Nat) (p q : Nat → Bool) (l0 : Nat) (hl : l0 < L)
    (hp : p l0 = false) (hq : q l0 = true) (hoth : ∀ l, l < L → l ≠ l0 → q l = p l) :
    (List.range L).countP q = (List.range L).countP p + 1 := by
  induction L with
  | zero => omega
  | succ L ih =>
    rw [List.range_succ, List.countP_append, List.countP_append]
    by_cases h : l0 = L
    · subst h
      have e : (List.range l0).countP q = (List.range l0).countP p := by
        apply List.countP_congr
        intro l hl'
        have := List.mem_range.1 hl'
        rw [hoth l (by omega) (by omega)]
      rw [e]
      simp [List.countP_cons, hp, hq]
    · rw [ih (by omega) (fun l hl' hne => hoth l (by omega) hne)]
      have e := hoth L (by omega) (fun h' => h h'.symm)
      simp [List.countP_cons, e]
      omega

/-- In a state that satisfies the invariant, adjacent ranks are at most one iteration
apart: bounds on the progress of a lane against the wait steps of a neighbour. -/
theorem asyncInv_bounds (W : Int) (L : Nat) (hL : 1 ≤ L) (s : Async) (h : AsyncInv W L s)
    (r r' l : Int) (hr0 : 0 ≤ r) (hr1 : r < W) (hr0' : 0 ≤ r') (hr1' : r' < W)
    (hadj : r' = r + 1 ∨ r = r' + 1) (hl0 : 0 ≤ l) (hl1 : l < L) :
    waitProgress s r' ≤ putProgress s r l ∧ putProgress s r l ≤ waitProgress s r' + 2 ∧
      s.iter r ≤ waitProgress s r' + 1 ∧ putProgress s r l ≤ s.iter r + 1 ∧
      s.iter r ≤ putProgress s r l := by
  have h1 := h.1 r r' l hr0 hr1 hr0' hr1' hadj hl0 hl1
  have h2 := h.1 r' r 0 hr0' hr1' hr0 hr1 (by omega) (le_refl 0) (by omega)
  have h3 : putProgress s r l ≤ s.iter r + 1 ∧ s.iter r ≤ putProgress s r l := by
    unfold putProgress
    split_ifs <;> omega
  have h4 : s.iter r ≤ waitProgress s r := by
    unfold waitProgress
    omega
  have h5 : putProgress s r' 0 ≤ waitProgress s r' + 1 := by
    unfold putProgress waitProgress
    split_ifs <;> omega
  omega

/-- The transfers of a lane keep the invariant: the counters of the neighbours go up by the
transfer that the lane has now issued. -/
theorem asyncInv_puts (Nx Ny W : Int) (L last : Nat) (hL : 1 ≤ L) (r l : Int)
    (s s' : Async) (hstep : asyncStep Nx Ny W L last (Action.puts r l) s = some s')
    (h : AsyncInv W L s) : AsyncInv W L s' := by
  simp only [asyncStep] at hstep
  by_cases hc : 0 ≤ r ∧ r < W ∧ 0 ≤ l ∧ l < L ∧ s.phase r l = Phase.puts
  swap
  · rw [if_neg hc] at hstep
    cases hstep
  rw [if_pos hc] at hstep
  obtain ⟨hr0, hr1, hl0, hl1, hph⟩ := hc
  obtain ⟨hrank, hcs, -, -, -⟩ := GetMySubarray_fields Nx Ny W r
  -- the progress counts in the new state
  have hZ : ∀ r1, waitProgress s' r1 = waitProgress s r1 := by
    intro r1
    cases hstep
    exact waitProgress_setPhase s r l _ (by decide) (by rw [hph]; decide) r1
  have hPo : ∀ r1 l1, ¬ (r1 = r ∧ l1 = l) → putProgress s' r1 l1 = putProgress s r1 l1 := by
    intro r1 l1 hne
    cases hstep
    show putProgress (setPhase s r l Phase.interior) r1 l1 = _
    unfold putProgress setPhase
    simp only [if_neg hne]
  have hPs : putProgress s r l = s.iter r := by
    unfold putProgress
    rw [hph]
    rfl
  have hPl : putProgress s' r l = s.iter r + 1 := by
    cases hstep
    show putProgress (setPhase s r l Phase.interior) r l = _
    unfold putProgress setPhase
    simp [afterPuts]
  have hnot : ∀ (r' : Int) (w : Nat), s'.notif r' w = s.notif r' w +
      (((if r ≠ 0 ∧ r - 1 = r' ∧ (s.iter r + 1) % 2 = w then 1 else 0) +
        (if r ≠ W - 1 ∧ r + 1 = r' ∧ (s.iter r + 1) % 2 = w then 1 else 0) : Nat) : Int) := by
    intro r' w
    cases hstep
    show (lanePuts (GetMySubarray Nx Ny W r) L l (s.iter r)).foldl
      (fun n p => notifyPut p n) s.notif r' w = _
    rw [notify_foldl, lanePuts_towards, hrank, hcs]
  -- the lanes counted by a counter
  have hpo : ∀ ρ r' w, ρ ≠ r → pendingFrom L s' ρ r' w = pendingFrom L s ρ r' w := by
    intro ρ r' w hρ
    unfold pendingFrom
    apply List.countP_congr
    intro l1 _
    rw [hPo ρ l1 (fun hh => hρ hh.1), hZ r']
  have hpr : ∀ r' w, 0 ≤ r' → r' < W → (r' = r + 1 ∨ r = r' + 1) → w < 2 →
      pendingFrom L s' r r' w =
        pendingFrom L s r r' w + (if (s.iter r + 1) % 2 = w then 1 else 0) := by
    intro r' w hr0' hr1' hadj hw
    obtain ⟨b1, -, b3, -, -⟩ := asyncInv_bounds W L hL s h r r' l hr0 hr1 hr0' hr1' hadj hl0 hl1
    rw [hPs] at b1
    unfold pendingFrom
    by_cases hwin : (s.iter r + 1) % 2 = w
    · rw [if_pos hwin]
      apply countP_range_flip L _ _ l.toNat (by omega)
      · rw [Int.toNat_of_nonneg hl0, hPs]
        simp only [decide_eq_false_iff_not]
        split_ifs <;> omega
      · rw [Int.toNat_of_nonneg hl0, hPl, hZ r']
        simp only [decide_eq_true_eq]
        split_ifs <;> omega
      · intro l1 _ hne
        rw [hPo r l1 (fun hh => hne (by omega)), hZ r']
    · rw [if_neg hwin, Nat.add_zero]
      apply List.countP_congr
      intro l1 _
      by_cases hl : (l1 : Int) = l
      · rw [hl, hPl, hPs, hZ r']
        simp only [decide_eq_true_eq]
        constructor <;> intro hh <;> split_ifs at hh ⊢ <;> omega
      · rw [hPo r l1 (fun hh => hl hh.2), hZ r']
  refine ⟨fun ρ r' l1 h1 h2 h3 h4 h5 h6 h7 => ?_, fun r' w h1 h2 h3 => ?_⟩
  · rw [hZ r']
    have := h.1 ρ r' l1 h1 h2 h3 h4 h5 h6 h7
    by_cases hc : ρ = r ∧ l1 = l
    · obtain ⟨rfl, rfl⟩ := hc
      rw [hPl]
      rw [hPs] at this
      omega
    · rw [hPo ρ l1 hc]
      exact this
  · rw [hnot r' w, h.2 r' w h1 h2 h3]
    by_cases hu : r' = r + 1
    · have e1 : r' - 1 = r := by omega
      rw [e1, hpr r' w h1 h2 (Or.inl hu) h3, hpo (r' + 1) r' w (by omega)]
      push_cast
      split_ifs <;> omega
    · by_cases hd : r = r' + 1
      · have e2 : r' + 1 = r := by omega
        rw [e2, hpr r' w h1 h2 (Or.inr hd) h3, hpo (r' - 1) r' w (by omega)]
        push_cast
        split_ifs <;> omega
      · rw [hpo (r' - 1) r' w (by omega), hpo (r' + 1) r' w (by omega)]
        push_cast
        split_ifs <;> omega

/-- The wait step keeps the invariant when the variable `c` starts below `c_expected`, here
`c ≤ 0`: lane `0` leaves the polling loop only when every lane of every neighbour has issued
the transfers of the iteration, and the reset counter counts nothing. -/
theorem asyncInv_wait (Nx Ny W : Int) (L last : Nat) (hL : 1 ≤ L) (r c : Int) (hc0 : c ≤ 0)
    (s s' : Async) (hstep : asyncStep Nx Ny W L last (Action.wait r c) s = some s')
    (h : AsyncInv W L s) : AsyncInv W L s' := by
  simp only [asyncStep] at hstep
  by_cases hc : 0 ≤ r ∧ r < W ∧ s.phase r 0 = Phase.wait ∧
      (pollLoop (c_expected (GetMySubarray Nx Ny W r) L)
        (fun _ => s.notif r (cwin_index (s.iter r))) 2 0 c).isSome = true
  swap
  · rw [if_neg hc] at hstep
    cases hstep
  rw [if_pos hc] at hstep
  obtain ⟨hr0, hr1, hph, hsome⟩ := hc
  obtain ⟨hrank, hcs, -, -, -⟩ := GetMySubarray_fields Nx Ny W r
  have hZs : waitProgress s r = s.iter r := by
    unfold waitProgress
    rw [hph]
    simp
  have hZr : waitProgress s' r = s.iter r + 1 := by
    cases hstep
    show waitProgress (setPhase s r 0 Phase.barrier2) r = _
    unfold waitProgress setPhase
    simp
  have hZo : ∀ r1, r1 ≠ r → waitProgress s' r1 = waitProgress s r1 := by
    intro r1 hne
    cases hstep
    show waitProgress (setPhase s r 0 Phase.barrier2) r1 = _
    unfold waitProgress setPhase
    simp [hne]
  have hP : ∀ r1 l1, putProgress s' r1 l1 = putProgress s r1 l1 := by
    intro r1 l1
    cases hstep
    exact putProgress_setPhase s r 0 _ (by rw [hph]; rfl) r1 l1
  have hn : ∀ (r' : Int) (w : Nat), s'.notif r' w =
      if r' = r ∧ w = (s.iter r + 1) % 2 then 0 else s.notif r' w := by
    intro r' w
    cases hstep
    rfl
  -- the counter has reached `c_expected`
  have hreach : c_expected (GetMySubarray Nx Ny W r) L ≤ c ∨
      c_expected (GetMySubarray Nx Ny W r) L ≤ s.notif r ((s.iter r + 1) % 2) := by
    obtain ⟨⟨m, c'⟩, hp⟩ := Option.isSome_iff_exists.1 hsome
    obtain ⟨e1, -, e3⟩ := pollLoop_exit _ _ _ _ _ _ _ hp
    by_cases hlt : c < c_expected (GetMySubarray Nx Ny W r) L
    · right
      have := (e3 hlt).2
      simp only [cwin_index] at this
      rw [← this]
      exact e1
    · left
      omega
  have hce : c_expected (GetMySubarray Nx Ny W r) L =
      (if r ≠ 0 then (L : Int) else 0) + (if r ≠ W - 1 then (L : Int) else 0) := by
    unfold c_expected
    rw [hrank, hcs]
    split_ifs <;> simp
  have hB := h.2 r ((s.iter r + 1) % 2) hr0 hr1 (Nat.mod_lt _ (by norm_num))
  have hle : ∀ ρ w, pendingFrom L s ρ r w ≤ L := by
    intro ρ w
    unfold pendingFrom
    calc _ ≤ (List.range L).length := List.countP_le_length _
      _ = L := List.length_range L
  have hfull : ∀ ρ, 0 ≤ ρ → ρ < W → (r = ρ + 1 ∨ ρ = r + 1) →
      pendingFrom L s ρ r ((s.iter r + 1) % 2) = L := by
    intro ρ h0 h1 hadj
    have a1 := hle (r - 1) ((s.iter r + 1) % 2)
    have a2 := hle (r + 1) ((s.iter r + 1) % 2)
    rw [hce] at hreach
    rcases hadj with e | e
    · have e' : r - 1 = ρ := by omega
      rw [e'] at hB a1
      split_ifs at hreach hB <;> omega
    · have e' : r + 1 = ρ := by omega
      rw [e'] at hB a2
      split_ifs at hreach hB <;> omega
  have hall : ∀ ρ l, 0 ≤ ρ → ρ < W → (r = ρ + 1 ∨ ρ = r + 1) → 0 ≤ l → l < (L : Int) →
      s.iter r + 1 ≤ putProgress s ρ l := by
    intro ρ l h0 h1 hadj hl0 hl1
    have hf := hfull ρ h0 h1 hadj
    unfold pendingFrom at hf
    have hlen : (List.range L).countP (fun (l : Nat) =>
        decide (waitProgress s r +
          (if (waitProgress s r + 1) % 2 = (s.iter r + 1) % 2 then 1 else 2) ≤
            putProgress s ρ (l : Int))) = (List.range L).length := by
      rw [hf, List.length_range]
    rw [List.countP_eq_length] at hlen
    have := hlen l.toNat (List.mem_range.2 (by omega))
    rw [Int.toNat_of_nonneg hl0] at this
    simpa [hZs] using this
  -- the lanes counted by a counter in the new state
  have hpo : ∀ ρ r' w, r' ≠ r → pendingFrom L s' ρ r' w = pendingFrom L s ρ r' w := by
    intro ρ r' w hne
    unfold pendingFrom
    apply List.countP_congr
    intro l1 _
    rw [hP ρ l1, hZo r' hne]
  have hpr1 : ∀ ρ, 0 ≤ ρ → ρ < W → (r = ρ + 1 ∨ ρ = r + 1) →
      pendingFrom L s' ρ r ((s.iter r + 1) % 2) = 0 := by
    intro ρ h0 h1 hadj
    unfold pendingFrom
    rw [List.countP_eq_zero]
    intro l hl
    have hl' := List.mem_range.1 hl
    obtain ⟨-, b2, -, -, -⟩ := asyncInv_bounds W L hL s h ρ r l h0 h1 hr0 hr1 (by omega)
      (by omega) (by omega)
    rw [hZs] at b2
    simp only [decide_eq_true_eq, hZr, hP]
    split_ifs <;> omega
  have hpr2 : ∀ ρ w, w < 2 → w ≠ (s.iter r + 1) % 2 →
      pendingFrom L s' ρ r w = pendingFrom L s ρ r w := by
    intro ρ w hw hne
    unfold pendingFrom
    apply List.countP_congr
    intro l1 _
    rw [hP ρ l1, hZr, hZs]
    simp only [decide_eq_true_eq]
    constructor <;> intro hh <;> split_ifs at hh ⊢ <;> omega
  refine ⟨fun ρ r' l1 h1 h2 h3 h4 h5 h6 h7 => ?_, fun r' w h1 h2 h3 => ?_⟩
  · rw [hP ρ l1]
    by_cases hr' : r' = r
    · rw [hr', hZr]
      exact hall ρ l1 h1 h2 (by omega) h6 h7
    · rw [hZo r' hr']
      exact h.1 ρ r' l1 h1 h2 h3 h4 h5 h6 h7
  · rw [hn r' w]
    by_cases hr' : r' = r
    · rw [hr'] at h1 h2 ⊢
      by_cases hw : w = (s.iter r + 1) % 2
      · rw [if_pos ⟨rfl, hw⟩, hw]
        have e1 : 0 < r → pendingFrom L s' (r - 1) r ((s.iter r + 1) % 2) = 0 :=
          fun hh => hpr1 (r - 1) (by omega) (by omega) (by omega)
        have e2 : r + 1 < W → pendingFrom L s' (r + 1) r ((s.iter r + 1) % 2) = 0 :=
          fun hh => hpr1 (r + 1) (by omega) (by omega) (by omega)
        split_ifs with a b
        · rw [e1 a, e2 b]
          simp
        · rw [e1 a]
          simp
        · rw [e2 ‹_›]
          simp
        · simp
      · rw [if_neg (fun hh => hw hh.2), hpr2 (r - 1) w h3 hw, hpr2 (r + 1) w h3 hw]
        exact h.2 r w h1 h2 h3
    · rw [if_neg (fun hh => hr' hh.1), hpo (r' - 1) r' w hr', hpo (r' + 1) r' w hr']
      exact h.2 r' w h1 h2 h3

/-- Every step keeps the invariant, a wait step when its variable `c` starts at most `0`. -/
theorem asyncInv_step (Nx Ny W : Int) (L last : Nat) (hL : 1 ≤ L) (a : Action)
    (ha : ∀ r c, a = Action.wait r c → c ≤ 0) (s s' : Async)
    (hstep : asyncStep Nx Ny W L last a s = some s') (h : AsyncInv W L s) :
    AsyncInv W L s' := by
  cases a with
  | border r l => exact asyncInv_border Nx Ny W L last r l s s' hstep h
  | puts r l => exact asyncInv_puts Nx Ny W L last hL r l s s' hstep h
  | interior r l => exact asyncInv_interior Nx Ny W L last r l s s' hstep h
  | barrier1 r => exact asyncInv_barrier1 Nx Ny W L last hL r s s' hstep h
  | wait r c => exact asyncInv_wait Nx Ny W L last hL r c (ha r c rfl) s s' hstep h
  | barrier2 r => exact asyncInv_barrier2 Nx Ny W L last hL r s s' hstep h

/-- Every state reached by steps whose wait steps start with `c ≤ 0` satisfies the
invariant. -/
theorem asyncInv_run (Nx Ny W : Int) (L last : Nat) (hL : 1 ≤ L) (acts : List Action)
    (hc : ∀ r c, Action.wait r c ∈ acts → c ≤ 0) (s s' : Async)
    (hrun : asyncRun Nx Ny W L last acts s = some s') (h : AsyncInv W L s) :
    AsyncInv W L s' := by
  induction acts generalizing s with
  | nil =>
    simp only [asyncRun, List.foldlM_nil] at hrun
    cases hrun
    exact h
  | cons a acts ih =>
    simp only [asyncRun, List.foldlM_cons] at hrun
    cases hs : asyncStep Nx Ny W L last a s with
    | none =>
      rw [hs] at hrun
      cases hrun
    | some s1 =>
      rw [hs] at hrun
      exact ih (fun r c hm => hc r c (List.mem_cons_of_mem _ hm)) s1 hrun
        (asyncInv_step Nx Ny W L last hL a
          (fun r c e => hc r c (by rw [e]; exact List.mem_cons_self _ _)) s s1 hs h)

/-- The columns of a lane lie among the columns of the grid. -/
theorem lane_columns (S : subarray) (L l : Int) (hx : 0 ≤ S.x_size) (hL : 1 ≤ L)
    (hdiv : Int.tmod S.x_size L = 0) (hl0 : 0 ≤ l) (hl1 : l < L) :
    0 ≤ col_per_wg S L ∧ 0 ≤ my_x_lb S L l ∧ my_x_ub S L l ≤ S.x_size := by
  obtain ⟨hm, hc⟩ := col_per_wg_mul S L hx hL hdiv
  unfold my_x_ub my_x_lb
  generalize col_per_wg S L = c at *
  have h1 : 0 ≤ c * l := mul_nonneg hc hl0
  have h2 : c * (l + 1) ≤ c * L := Int.mul_le_mul_of_nonneg_left (by omega) hc
  have e : c * (l + 1) = c * l + c := by ring
  omega

/-- The interior loops of a lane read no cell of the two halo rows. -/
theorem interiorReads_rows (S : subarray) (L l : Int) (hx : 0 ≤ S.x_size) (hL : 1 ≤ L)
    (hdiv : Int.tmod S.x_size L = 0) (hl0 : 0 ≤ l) (hl1 : l < L) (idx : Int)
    (h : idx ∈ interiorReads S L l) :
    ROW_SIZE S ≤ idx ∧ idx ≤ (S.y_size + 1) * ROW_SIZE S := by
  obtain ⟨-, hlb, hub⟩ := lane_columns S L l hx hL hdiv hl0 hl1
  unfold interiorReads at h
  simp only [List.mem_flatMap, mem_intRange] at h
  obtain ⟨row, ⟨hr1, hr2⟩, col, ⟨hc1, hc2⟩, hmem⟩ := h
  unfold stencilReads XY_2_IDX at hmem
  unfold ROW_SIZE at *
  have hR : 0 ≤ S.x_size + 2 := by omega
  have e1 : S.x_size + 2 ≤ row * (S.x_size + 2) := by nlinarith
  have e2 : (row + 2) * (S.x_size + 2) ≤ S.y_size * (S.x_size + 2) :=
    Int.mul_le_mul_of_nonneg_right (by omega) hR
  simp only [List.mem_cons, List.mem_singleton, List.not_mem_nil, or_false] at hmem
  rcases hmem with rfl | rfl | rfl | rfl <;> constructor <;> nlinarith

/-- The target of a transfer is an adjacent rank, its window is the write buffer of the
iteration, and its target cells lie in a halo row of the target. -/
theorem lanePuts_target (Nx Ny W L : Int) (hv : ValidConfig Nx Ny W L) (r l : Int) (i : Nat)
    (hr0 : 0 ≤ r) (hr1 : r < W) (hl0 : 0 ≤ l) (hl1 : l < L) (p : PutNotify)
    (hp : p ∈ lanePuts (GetMySubarray Nx Ny W r) L l i) :
    0 ≤ p.target_rank ∧ p.target_rank < W ∧
      (p.target_rank = r + 1 ∨ r = p.target_rank + 1) ∧ p.win = (i + 1) % 2 ∧
      ∀ idx ∈ putTargets p,
        idx < ROW_SIZE (GetMySubarray Nx Ny W p.target_rank) ∨
          ((GetMySubarray Nx Ny W p.target_rank).y_size + 1) *
            ROW_SIZE (GetMySubarray Nx Ny W p.target_rank) < idx := by
  obtain ⟨hNx, hW, hWNy, hL, hdiv⟩ := hv
  obtain ⟨hrank, hcs, hxs, -, -⟩ := GetMySubarray_fields Nx Ny W r
  obtain ⟨hcw, hlb, hub⟩ := lane_columns (GetMySubarray Nx Ny W r) L l (by rw [hxs]; exact hNx)
    hL (by rw [hxs]; exact hdiv) hl0 hl1
  unfold my_x_ub at hub
  rw [hxs] at hub
  rcases lanePuts_mem _ _ _ _ p hp with ⟨hne, rfl⟩ | ⟨hne, rfl⟩
  · rw [hrank] at hne
    simp only [hrank]
    refine ⟨by omega, by omega, Or.inr (by omega), trivial, fun idx hidx => Or.inr ?_⟩
    unfold putTargets at hidx
    rw [mem_intRange] at hidx
    simp only at hidx
    rw [l_nbh_offt_prev Nx Ny W r (by omega)] at hidx
    obtain ⟨-, -, hxs', -, -⟩ := GetMySubarray_fields Nx Ny W (r - 1)
    unfold ROW_SIZE
    rw [hxs']
    nlinarith [hidx.1]
  · rw [hrank, hcs] at hne
    simp only [hrank]
    refine ⟨by omega, by omega, Or.inl trivial, trivial, fun idx hidx => Or.inl ?_⟩
    unfold putTargets at hidx
    rw [mem_intRange] at hidx
    simp only at hidx
    obtain ⟨-, -, hxs', -, -⟩ := GetMySubarray_fields Nx Ny W (r + 1)
    unfold ROW_SIZE
    rw [hxs']
    omega

/-- With a polling loop that starts below `c_expected` (every wait step starts with
`c ≤ 0`), no transfer is issued under a read: in every state reached from the initial one,
a lane about to issue its transfers writes no cell that a lane of the target may still read
in the iteration the target is executing.  The target is in the same iteration, and then
the window is its write buffer, or one iteration behind with every lane past its border
loop, and then the reads left are those of the interior loops, which touch no halo row. -/
theorem puts_after_reads (Nx Ny W : Int) (L last : Nat) (hv : ValidConfig Nx Ny W L)
    (acts : List Action) (hc : ∀ r c, Action.wait r c ∈ acts → c ≤ 0) (s : Async)
    (hrun : asyncRun Nx Ny W L last acts asyncInit = some s) (r l : Int)
    (hr0 : 0 ≤ r) (hr1 : r < W) (hl0 : 0 ≤ l) (hl1 : l < L)
    (hph : s.phase r l = Phase.puts) : putConflict Nx Ny W L s r l = false := by
  have hL : 1 ≤ L := by
    have := hv.2.2.2.1
    omega
  have hinv := asyncInv_run Nx Ny W L last hL acts hc asyncInit s hrun (asyncInv_init W L)
  have hPs : putProgress s r l = s.iter r := by
    unfold putProgress
    rw [hph]
    rfl
  unfold putConflict
  rw [List.any_eq_false]
  intro p hp
  obtain ⟨ht0, ht1, hadj, hwin, hhalo⟩ := lanePuts_target Nx Ny W L hv r l (s.iter r)
    hr0 hr1 hl0 hl1 p hp
  rw [Bool.and_eq_true]
  rintro ⟨hw, hx⟩
  simp only [decide_eq_true_eq, win_buffer, a_index] at hw
  rw [hwin] at hw
  -- the target is one iteration behind
  have a1 := hinv.1 r p.target_rank l hr0 hr1 ht0 ht1 hadj hl0 hl1
  rw [hPs] at a1
  have a2 : s.iter p.target_rank ≤ waitProgress s p.target_rank := by
    unfold waitProgress
    omega
  have a3 : s.iter r ≤ waitProgress s r := by
    unfold waitProgress
    omega
  rw [List.any_eq_true] at hx
  obtain ⟨l', hl', hx⟩ := hx
  rw [List.any_eq_true] at hx
  obtain ⟨idx, hidx, hx⟩ := hx
  simp only [decide_eq_true_eq] at hx
  have hl'' := List.mem_range.1 hl'
  have a4 := hinv.1 p.target_rank r l' ht0 ht1 hr0 hr1 (by omega) (by omega) (by omega)
  have ha : afterPuts (s.phase p.target_rank (l' : Int)) = true := by
    unfold putProgress at a4
    by_contra hne
    rw [if_neg hne] at a4
    omega
  obtain ⟨-, -, hxs, -, -⟩ := GetMySubarray_fields Nx Ny W p.target_rank
  have hr := fun h => interiorReads_rows (GetMySubarray Nx Ny W p.target_rank) L l'
    (by rw [hxs]; exact hv.1) hv.2.2.2.1 (by rw [hxs]; exact hv.2.2.2.2) (by omega) (by omega)
    idx h
  have hh := hhalo idx hidx
  generalize s.phase p.target_rank (l' : Int) = ph at hx ha
  cases ph <;> simp [pendingReads, afterPuts] at hx ha
  have := hr hx
  omega

/-- The statement of `puts_after_reads` at a run in which rank `0`, after a wait that read
the counter, is in iteration `1` about to issue its transfers while the lanes of rank `1`
are in the interior loops of iteration `0`. -/
theorem puts_after_reads_witness :
    ∃ s : Async,
      asyncRun 4 4 2 2 100
        [Action.border 0 0, Action.border 0 1, Action.puts 0 0, Action.puts 0 1,
          Action.interior 0 0, Action.interior 0 1, Action.barrier1 0,
          Action.border 1 0, Action.border 1 1, Action.puts 1 0, Action.puts 1 1,
          Action.wait 0 0, Action.barrier2 0, Action.border 0 0] asyncInit = some s ∧
      (s.iter 0, s.phase 0 0, s.iter 1, s.phase 1 0, s.phase 1 1) =
        (1, Phase.puts, 0, Phase.interior, Phase.interior) ∧
      putConflict 4 4 2 2 s 0 0 = false := by
  have hsome : (asyncRun 4 4 2 2 100
      [Action.border 0 0, Action.border 0 1, Action.puts 0 0, Action.puts 0 1,
        Action.interior 0 0, Action.interior 0 1, Action.barrier1 0,
        Action.border 1 0, Action.border 1 1, Action.puts 1 0, Action.puts 1 1,
        Action.wait 0 0, Action.barrier2 0, Action.border 0 0] asyncInit).isSome = true := by
    decide
  obtain ⟨s, hs⟩ := Option.isSome_iff_exists.1 hsome
  have hst : (asyncRun 4 4 2 2 100
      [Action.border 0 0, Action.border 0 1, Action.puts 0 0, Action.puts 0 1,
        Action.interior 0 0, Action.interior 0 1, Action.barrier1 0,
        Action.border 1 0, Action.border 1 1, Action.puts 1 0, Action.puts 1 1,
        Action.wait 0 0, Action.barrier2 0, Action.border 0 0] asyncInit).map
      (fun s => (s.iter 0, s.phase 0 0, s.iter 1, s.phase 1 0, s.phase 1 1)) =
      some (1, Phase.puts, 0, Phase.interior, Phase.interior) := by
    decide
  rw [hs] at hst
  have hst' := Option.some.inj hst
  have hph : s.phase 0 0 = Phase.puts := (Prod.mk.inj (Prod.mk.inj hst').2).1
  refine ⟨s, hs, hst', ?_⟩
  refine puts_after_reads 4 4 2 2 100 (by unfold ValidConfig; decide) _ ?_ s hs 0 0
    (by decide) (by decide) (by decide) (by decide) hph
  intro r c hm
  simp at hm
  omega

/-! ### The `int` arithmetic at 32 bits -/

/-- An `int` expression whose mathematical value is an `int` value has that value. -/
theorem wrapInt_eq (x : Int) (h0 : -2147483648 ≤ x) (h1 : x ≤ INT_MAX) : wrapInt x = x := by
  unfold wrapInt
  unfold INT_MAX at h1
  omega

/-- While `(Nx + 2) * (Ny / W + 1) + 1` is an `int` value, `GetMySubarray` at 32 bits returns
the record of the exact computation. -/
theorem GetMySubarray32_eq (Nx Ny W r : Int) (hNx : 0 ≤ Nx) (hNy : 0 ≤ Ny) (hW : 1 ≤ W)
    (hr0 : 0 ≤ r) (hr1 : r ≤ INT_MAX) (hfit : (Nx + 2) * (Int.tdiv Ny W + 1) + 1 ≤ INT_MAX) :
    GetMySubarray32 Nx Ny W r = GetMySubarray Nx Ny W r := by
  have hq : 0 ≤ Int.tdiv Ny W := by
    rw [Int.tdiv_eq_ediv hNy (by omega)]
    exact Int.ediv_nonneg hNy (by omega)
  have ht0 : 0 ≤ Int.tmod (Int.tdiv Ny W) W := by
    rw [Int.tmod_eq_emod hq (by omega)]
    exact Int.emod_nonneg _ (by omega)
  have ht1 : Int.tmod (Int.tdiv Ny W) W ≤ Int.tdiv Ny W := by
    rw [Int.tmod_eq_emod hq (by omega), Int.emod_def]
    have := mul_nonneg (show (0 : Int) ≤ W by omega)
      (Int.ediv_nonneg hq (show (0 : Int) ≤ W by omega))
    omega
  have hP1 : Nx + 2 ≤ (Nx + 2) * (Int.tdiv Ny W + 1) := by nlinarith
  have hP2 : Int.tdiv Ny W + 1 ≤ (Nx + 2) * (Int.tdiv Ny W + 1) := by nlinarith
  have e1 : wrapInt (Int.tdiv Ny W) = Int.tdiv Ny W := wrapInt_eq _ (by omega) (by omega)
  have e2 : wrapInt (Nx + 2) = Nx + 2 := wrapInt_eq _ (by omega) (by omega)
  have e3 : wrapInt (Int.tdiv Ny W + 1) = Int.tdiv Ny W + 1 :=
    wrapInt_eq _ (by omega) (by omega)
  have e4 : wrapInt ((Nx + 2) * (Int.tdiv Ny W + 1)) = (Nx + 2) * (Int.tdiv Ny W + 1) :=
    wrapInt_eq _ (by omega) (by omega)
  have e5 : wrapInt ((Nx + 2) * (Int.tdiv Ny W + 1) + 1) =
      (Nx + 2) * (Int.tdiv Ny W + 1) + 1 := wrapInt_eq _ (by omega) (by omega)
  have e6 : wrapInt (Int.tmod (Int.tdiv Ny W) W) = Int.tmod (Int.tdiv Ny W) W :=
    wrapInt_eq _ (by omega) (by omega)
  have e7 : wrapInt (r - 1) = r - 1 := wrapInt_eq _ (by omega) (by omega)
  by_cases ht : Int.tmod (Int.tdiv Ny W) W = 0
  · have e0 : wrapInt 0 = 0 := by decide
    simp [GetMySubarray32, GetMySubarray, e0, e1, e2, e3, e4, e5, ht]
  · by_cases h1 : r < Int.tmod (Int.tdiv Ny W) W <;>
      simp [GetMySubarray32, GetMySubarray, e1, e2, e3, e4, e5, e6, e7, ht, h1]

/-- At the grid size of the source, `Nx = Ny = 16384`, the decomposer at 32 bits returns the
record of the exact computation, for every number of ranks and every rank. -/
theorem GetMySubarray32_source (W r : Int) (hW : 1 ≤ W) (hr0 : 0 ≤ r) (hr1 : r ≤ INT_MAX) :
    GetMySubarray32 16384 16384 W r = GetMySubarray 16384 16384 W r := by
  have hq : Int.tdiv 16384 W ≤ 16384 := by
    rw [Int.tdiv_eq_ediv (by omega) (by omega)]
    exact Int.ediv_le_self W (by omega)
  exact GetMySubarray32_eq 16384 16384 W r (by omega) (by omega) hW hr0 hr1
    (by unfold INT_MAX; omega)

/-- The row width at 32 bits. -/
theorem ROW_SIZE32_eq (S : subarray) (hx : 0 ≤ S.x_size) (hrs : S.x_size + 2 ≤ INT_MAX) :
    ROW_SIZE32 S = ROW_SIZE S :=
  wrapInt_eq _ (by omega) hrs

/-- An element index at 32 bits, for a padded row and column that are not negative and an
index that is an `int` value. -/
theorem XY_2_IDX32_eq (S : subarray) (X Y : Int) (hx : 0 ≤ S.x_size)
    (hrs : S.x_size + 2 ≤ INT_MAX) (hX : 0 ≤ X + 1) (hY : 0 ≤ Y + 1)
    (hmax : XY_2_IDX X Y S ≤ INT_MAX) : XY_2_IDX32 X Y S = XY_2_IDX X Y S := by
  unfold XY_2_IDX32
  rw [ROW_SIZE32_eq S hx hrs]
  unfold XY_2_IDX ROW_SIZE at *
  have h1 : Y + 1 ≤ (Y + 1) * (S.x_size + 2) := by nlinarith
  have h2 : 0 ≤ (Y + 1) * (S.x_size + 2) := mul_nonneg hY (by omega)
  rw [wrapInt_eq (Y + 1) (by omega) (by omega), wrapInt_eq (X + 1) (by omega) (by omega),
    wrapInt_eq ((Y + 1) * (S.x_size + 2)) (by omega) (by omega),
    wrapInt_eq _ (by omega) hmax]

/-- C6 (as stated, at `Nx = Ny = 65536`, `W = 2`, rank `1`): the product of line 75 is formed
in `int`; `(65536 + 2) * (32768 + 1) + 1 = 2147614723` is above `INT_MAX`, and `l_nbh_offt`
is `-2147352573`, not the claimed `(x_size + 2) * (y_size of rank 0 + 1) + 1`. -/
theorem neighbour_write_offset_overflows :
    (GetMySubarray32 65536 65536 2 1).l_nbh_offt = -2147352573 ∧
      ((GetMySubarray32 65536 65536 2 1).x_size + 2) *
        ((GetMySubarray32 65536 65536 2 (1 - 1)).y_size + 1) + 1 = 2147614723 ∧
      (GetMySubarray32 65536 65536 2 1).l_nbh_offt ≠
        ((GetMySubarray32 65536 65536 2 1).x_size + 2) *
          ((GetMySubarray32 65536 65536 2 (1 - 1)).y_size + 1) + 1 := by
  decide

/-- C6 (amended): for grid sizes `Nx ≥ 0`, `Ny ≥ 0` and ranks `1 ≤ r < W` such that
`(Nx + 2) * (Ny / W + 2) + 1` is an `int` value, the `l_nbh_offt` that `GetMySubarray`
computes for rank `r` is `(x_size + 2) * (y' + 1) + 1` with `y'` the `y_size` it computes for
rank `r - 1`; this is the index of cell `(0, y')` of rank `r - 1`, the first non-corner cell
of its bottom halo row; and it exceeds the unadjusted value `(Nx + 2) * (Ny / W + 1) + 1` by
one row width exactly when rank `r - 1` has the extra row. -/
theorem neighbour_write_offset (Nx Ny W r : Int) (hNx : 0 ≤ Nx) (hNy : 0 ≤ Ny) (hr : 1 ≤ r)
    (hrW : r < W) (hW : W ≤ INT_MAX)
    (hfit : (Nx + 2) * (Int.tdiv Ny W + 2) + 1 ≤ INT_MAX) :
    (GetMySubarray32 Nx Ny W r).l_nbh_offt =
        ((GetMySubarray32 Nx Ny W r).x_size + 2) *
          ((GetMySubarray32 Nx Ny W (r - 1)).y_size + 1) + 1 ∧
      (GetMySubarray32 Nx Ny W r).l_nbh_offt =
        XY_2_IDX32 0 (GetMySubarray32 Nx Ny W (r - 1)).y_size
          (GetMySubarray32 Nx Ny W (r - 1)) ∧
      (GetMySubarray32 Nx Ny W r).l_nbh_offt =
        (Nx + 2) * (Int.tdiv Ny W + 1) + 1 +
          (if (GetMySubarray32 Nx Ny W (r - 1)).y_size = Int.tdiv Ny W + 1 then Nx + 2
            else 0) := by
  have hq : 0 ≤ Int.tdiv Ny W := by
    rw [Int.tdiv_eq_ediv hNy (by omega)]
    exact Int.ediv_nonneg hNy (by omega)
  have hfit' : (Nx + 2) * (Int.tdiv Ny W + 1) + 1 ≤ INT_MAX := by nlinarith
  rw [GetMySubarray32_eq Nx Ny W r hNx hNy (by omega) (by omega) (by omega) hfit',
    GetMySubarray32_eq Nx Ny W (r - 1) hNx hNy (by omega) (by omega) (by omega) hfit']
  obtain ⟨c1, c2, c3⟩ := neighbour_offset_exact Nx Ny W r hr
  refine ⟨c1, ?_, c3⟩
  obtain ⟨-, -, hxs, hys, -⟩ := GetMySubarray_fields Nx Ny W (r - 1)
  have hy0 : 0 ≤ (GetMySubarray Nx Ny W (r - 1)).y_size := by
    rw [hys]
    split_ifs <;> omega
  have hy1 : (GetMySubarray Nx Ny W (r - 1)).y_size ≤ Int.tdiv Ny W + 1 := by
    rw [hys]
    split_ifs <;> omega
  rw [XY_2_IDX32_eq _ 0 _ (by rw [hxs]; exact hNx) (by rw [hxs]; nlinarith) (by omega)
    (by omega) (by
      unfold XY_2_IDX ROW_SIZE
      rw [hxs]
      nlinarith)]
  exact c2

/-- Witness of C6 (amended) at `Nx = 4`, `Ny = 6`, `W = 2`, rank `1`: `Ny / W = 3` and
`3 % 2 = 1`, so rank `0` has the extra row, `y_size = 4`, and the offset of rank `1` is the
adjusted one, `6 * 5 + 1 = 31 = 6 * 4 + 1 + 6`. -/
theorem neighbour_write_offset_witness :
    ((GetMySubarray32 4 6 2 1).l_nbh_offt =
        ((GetMySubarray32 4 6 2 1).x_size + 2) *
          ((GetMySubarray32 4 6 2 (1 - 1)).y_size + 1) + 1 ∧
      (GetMySubarray32 4 6 2 1).l_nbh_offt =
        XY_2_IDX32 0 (GetMySubarray32 4 6 2 (1 - 1)).y_size (GetMySubarray32 4 6 2 (1 - 1)) ∧
      (GetMySubarray32 4 6 2 1).l_nbh_offt =
        (4 + 2) * (Int.tdiv 6 2 + 1) + 1 +
          (if (GetMySubarray32 4 6 2 (1 - 1)).y_size = Int.tdiv 6 2 + 1 then 4 + 2 else 0)) ∧
    (GetMySubarray32 4 6 2 (1 - 1)).y_size = Int.tdiv 6 2 + 1 ∧
    (GetMySubarray32 4 6 2 1).l_nbh_offt = 31 :=
  ⟨neighbour_write_offset 4 6 2 1 (by decide) (by decide) (by decide) (by decide) (by decide)
    (by decide), by decide, by decide⟩

end Jacobi

namespace MemoryTransfers

/-! ### Loops over ranges -/

end MemoryTransfers

namespace Query9

/-! ### The ORDERS producer -/

/-- The messages of `ProducerOrders`: `o_iters` data messages, then one final message. -/
theorem ProducerOrders_messages (K mx : Nat) (key date : Nat → Nat) (o_rows l_rows : Nat) :
    (ProducerOrders K mx key date o_rows l_rows).length = o_iters o_rows K + 1 ∧
    (∀ i, i < o_iters o_rows K →
      ∃ m, (ProducerOrders K mx key date o_rows l_rows)[i]? = some m ∧
        m.done = false ∧ m.valid = true) ∧
    (∃ m, (ProducerOrders K mx key date o_rows l_rows)[o_iters o_rows K]? = some m ∧
      m.done = true ∧ m.valid = false) := by
  unfold ProducerOrders
  refine ⟨by simp, fun i hi => ?_, ?_⟩
  · rw [List.getElem?_map, List.getElem?_range (by omega)]
    refine ⟨_, rfl, ?_, ?_⟩
    · simp
      omega
    · simp
      omega
  · rw [List.getElem?_map, List.getElem?_range (by omega)]
    exact ⟨_, rfl, by simp, by simp⟩

/-- The validity flag of a slot is the test of its row index against the row count of
LINEITEM. -/
theorem ordersSlot_valid (K mx : Nat) (key date : Nat → Nat) (l_rows i j : Nat) :
    ((ordersSlot K mx key date l_rows i j).valid = true ↔ i * K + j < l_rows) ∧
    (i * K + j < l_rows → (ordersSlot K mx key date l_rows i j).orderkey = key (i * K + j)) ∧
    (¬ i * K + j < l_rows → (ordersSlot K mx key date l_rows i j).orderkey = mx) := by
  unfold ordersSlot
  refine ⟨by simp, fun h => by simp [h], fun h => by simp [h]⟩

/-- Whenever LINEITEM has more rows than ORDERS, for every window size the slot with the row
index `o_rows`, the first one past the table, is emitted, marked valid, and carries the key
read past the table. -/
theorem ProducerOrders_slot_past_table (K mx : Nat) (key date : Nat → Nat)
    (o_rows l_rows : Nat) (hK : 1 ≤ K) (h : o_rows < l_rows) :
    ∃ m, (ProducerOrders K mx key date o_rows l_rows)[o_rows / K]? = some m ∧
      ∃ r, m.data[o_rows % K]? = some r ∧ r.valid = true ∧ r.orderkey = key o_rows := by
  have hi : o_rows / K < o_iters o_rows K + 1 := by
    unfold o_iters
    have := Nat.div_le_div_right (c := K) (show o_rows ≤ o_rows + K - 1 by omega)
    omega
  have hj : o_rows % K < K := Nat.mod_lt _ (by omega)
  have e : o_rows / K * K + o_rows % K = o_rows := Nat.div_add_mod' o_rows K
  obtain ⟨v1, v2, -⟩ := ordersSlot_valid K mx key date l_rows (o_rows / K) (o_rows % K)
  rw [e] at v1 v2
  unfold ProducerOrders
  rw [List.getElem?_map, List.getElem?_range hi]
  refine ⟨_, rfl, ?_⟩
  simp only [List.getElem?_map, List.getElem?_range hj, Option.map_some']
  exact ⟨_, rfl, v1.2 h, v2 h⟩

/-- C29 (code at the failing input): ORDERS has `2` rows and LINEITEM `8`, windows of `4`
rows, `numeric_limits<DBIdentifier>::max() = 4294967295`; the order keys of the table are
`1` and `2`, and a read past the table returns `999`.  The kernel emits one data message and
the final message; in the data message the slots with row index `2` and `3`, which are not
rows of ORDERS, are marked valid and carry the key read past the table instead of the
sentinel, and so are the four slots of the final message. -/
theorem ProducerOrders_marks_rows_past_table :
    ProducerOrders 4 4294967295 (fun i => if i < 2 then i + 1 else 999) (fun _ => 0) 2 8 =
      [⟨false, true, [⟨true, 1, 0⟩, ⟨true, 2, 0⟩, ⟨true, 999, 0⟩, ⟨true, 999, 0⟩]⟩,
       ⟨true, false, [⟨true, 999, 0⟩, ⟨true, 999, 0⟩, ⟨true, 999, 0⟩, ⟨true, 999, 0⟩]⟩] := by
  decide

/-! ### The profit accumulation -/

/-- An invariant of a loop over `0 .. n - 1`. -/
theorem range_loop_inv {σ : Type} (f : σ → Nat → σ) (P : Nat → σ → Prop) (n : Nat) (s0 : σ)
    (h0 : P 0 s0) (hstep : ∀ i s, i < n → P i s → P (i + 1) (f s i)) :
    P n ((List.range n).foldl f s0) := by
  induction n with
  | zero => exact h0
  | succ n ih =>
    rw [List.range_succ, List.foldl_append]
    exact hstep n _ (Nat.lt_succ_self n)
      (ih (fun i s hi hP => hstep i s (Nat.lt_succ_of_lt hi) hP))

/-- What slot `j` of a message adds to entry `i` of accumulator `j`. -/
theorem accumulateSlot_apply (q e d : Nat → Int) (m : FinalPipeData) (j : Nat)
    (acc : Accumulators) (j' i : Nat) :
    accumulateSlot q e d m j acc j' i =
      acc j' i + (if j' = j ∧ D_valid m j = true ∧ accIndex (m.data j) = i
        then amount q e d (m.data j) true else 0) := by
  unfold accumulateSlot
  by_cases hj : j' = j
  · subst hj
    by_cases hv : D_valid m j' = true
    · by_cases hi : i = accIndex (m.data j')
      · subst hi
        simp [hv]
      · have hi' : ¬ accIndex (m.data j') = i := fun h => hi h.symm
        simp [hv, Function.update_noteq hi, hi']
    · have hv' : D_valid m j' = false := by simpa using hv
      by_cases hi : i = 0
      · subst hi
        simp [hv']
      · simp [hv', Function.update_noteq hi]
  · simp [Function.update_noteq hj, hj]

/-- C30, second part: a slot whose record is not valid leaves every accumulator as it
is. -/
theorem accumulateSlot_invalid (q e d : Nat → Int) (m : FinalPipeData) (j : Nat)
    (acc : Accumulators) (h : D_valid m j = false) : accumulateSlot q e d m j acc = acc := by
  funext j' i
  rw [accumulateSlot_apply, h]
  simp

/-- A sum accumulated by a loop. -/
theorem foldl_add_eq_sum (K : Nat) (f : Nat → Int) :
    (List.range K).foldl (fun a j => a + f j) 0 = ((List.range K).map f).sum := by
  exact range_loop_inv (fun a j => a + f j) (fun k a => a = ((List.range k).map f).sum) K 0
    rfl (fun k a _ hP => by
      simp only at hP ⊢
      rw [hP, List.range_succ, List.map_append, List.sum_append]
      simp)

/-- What a message adds to an entry of an accumulator. -/
theorem accumulateMessage_apply (K : Nat) (q e d : Nat → Int) (m : FinalPipeData)
    (acc : Accumulators) (j i : Nat) :
    accumulateMessage K q e d m acc j i =
      acc j i + (if j < K ∧ D_valid m j = true ∧ accIndex (m.data j) = i
        then amount q e d (m.data j) true else 0) := by
  unfold accumulateMessage
  have h := range_loop_inv (fun acc j => accumulateSlot q e d m j acc)
    (fun k (acc' : Accumulators) => ∀ j i, acc' j i =
      acc j i + (if j < k ∧ D_valid m j = true ∧ accIndex (m.data j) = i
        then amount q e d (m.data j) true else 0)) K acc
    (fun j i => by simp)
    (fun k acc' _ hP j i => by
      simp only at hP ⊢
      rw [accumulateSlot_apply, hP j i, add_assoc]
      congr 1
      by_cases hc : D_valid m j = true ∧ accIndex (m.data j) = i
      · by_cases hjk : j = k
        · subst hjk
          rw [if_neg (fun h => by omega), if_pos ⟨rfl, hc⟩, if_pos ⟨by omega, hc⟩, zero_add]
        · by_cases hlt : j < k
          · rw [if_pos ⟨hlt, hc⟩, if_neg (fun h => hjk h.1), if_pos ⟨by omega, hc⟩, add_zero]
          · rw [if_neg (fun h => hlt h.1), if_neg (fun h => hjk h.1),
              if_neg (fun h => by omega), add_zero]
      · rw [if_neg (fun h => hc h.2), if_neg (fun h => hc (by rw [h.1]; exact h.2)),
          if_neg (fun h => hc h.2), add_zero])
  exact h j i

/-- The total over the accumulators after one more message. -/
theorem accumulateMessage_total (K : Nat) (q e d : Nat → Int) (m : FinalPipeData)
    (acc : Accumulators) (i : Nat) :
    ((List.range K).map (fun j => accumulateMessage K q e d m acc j i)).sum =
      ((List.range K).map (fun j => acc j i)).sum +
        ((List.range K).map (fun j =>
          if D_valid m j = true ∧ accIndex (m.data j) = i
            then amount q e d (m.data j) true else 0)).sum := by
  rw [← List.sum_map_add]
  congr 1
  apply List.map_congr_left
  intro j hj
  rw [accumulateMessage_apply]
  congr 1
  by_cases hc : D_valid m j = true ∧ accIndex (m.data j) = i
  · rw [if_pos ⟨List.mem_range.1 hj, hc⟩, if_pos hc]
  · rw [if_neg (fun h => hc h.2), if_neg hc]

/-- The loop over the messages: it ends at the first message with `done` set, and the total
over the accumulators is the sum of what the messages before it add. -/
theorem computeLoop_total (K : Nat) (q e d : Nat → Int) (pre : List FinalPipeData)
    (last : FinalPipeData) (rest : List FinalPipeData) (hpre : ∀ m ∈ pre, m.done = false)
    (hlast : last.done = true) (acc : Accumulators) :
    ∃ acc', computeLoop K q e d (pre ++ last :: rest) acc = some acc' ∧
      ∀ i, ((List.range K).map (fun j => acc' j i)).sum =
        ((List.range K).map (fun j => acc j i)).sum +
          (pre.map (fun m => ((List.range K).map (fun j =>
            if D_valid m j = true ∧ accIndex (m.data j) = i
              then amount q e d (m.data j) true else 0)).sum)).sum := by
  induction pre generalizing acc with
  | nil =>
    refine ⟨accumulateMessage K q e d last acc, ?_, fun i => ?_⟩
    · show (if last.done = true then _ else _) = _
      rw [if_pos hlast]
    · rw [accumulateMessage_total]
      congr 1
      have : ∀ j, D_valid last j = false := fun j => by
        unfold D_valid
        simp [hlast]
      simp [this]
  | cons m ms ih =>
    have hm : m.done = false := hpre m (List.mem_cons_self _ _)
    obtain ⟨acc', h1, h2⟩ := ih (fun m' hm' => hpre m' (List.mem_cons_of_mem _ hm'))
      (accumulateMessage K q e d m acc)
    refine ⟨acc', ?_, fun i => ?_⟩
    · show (if m.done = true then _ else _) = _
      rw [if_neg (by simp [hm])]
      exact h1
    · rw [h2 i, accumulateMessage_total, List.map_cons, List.sum_cons, add_assoc]

/-- The accumulator index of a record with an order year in `1992 .. 1998` and a nation key
in `0 .. 24`: no wrap-around. -/
theorem accIndex_eq (D : FinalData) (h1 : 1992 ≤ orderyear D) (h2 : orderyear D ≤ 1998)
    (h3 : D.nationkey ≤ 24) : accIndex D = (orderyear D - 1992) * 25 + D.nationkey := by
  unfold accIndex
  generalize orderyear D = Y at *
  generalize D.nationkey = N at *
  omega

/-- The write-back stores, for every nation `n < 25` and year offset `y < 7`, the total of
entry `y * 25 + n` over the accumulators at index `(y + 1992) * 25 + n`. -/
theorem pushBack_apply (K : Nat) (acc : Accumulators) (sum_profit : Nat → Int) (n y : Nat)
    (hn : n < 25) (hy : y < 7) :
    pushBack K acc sum_profit ((y + 1992) * 25 + n) =
      ((List.range K).map (fun j => acc j (y * 25 + n))).sum := by
  unfold pushBack
  have h := range_loop_inv (fun out n =>
      (List.range 7).foldl (fun out y =>
        Function.update out ((y + 1992) * 25 + n)
          ((List.range K).foldl (fun a j => a + acc j (y * 25 + n)) 0)) out)
    (fun n0 (out : Nat → Int) => ∀ n y, n < n0 → y < 7 →
      out ((y + 1992) * 25 + n) = ((List.range K).map (fun j => acc j (y * 25 + n))).sum)
    25 sum_profit (fun n y hn _ => by omega)
    (fun n0 out hn0 hP => by
      simp only at hP ⊢
      have hin := range_loop_inv (fun out y =>
          Function.update out ((y + 1992) * 25 + n0)
            ((List.range K).foldl (fun a j => a + acc j (y * 25 + n0)) 0))
        (fun y0 (out' : Nat → Int) =>
          (∀ n y, n < n0 → y < 7 →
            out' ((y + 1992) * 25 + n) =
              ((List.range K).map (fun j => acc j (y * 25 + n))).sum) ∧
          (∀ y, y < y0 →
            out' ((y + 1992) * 25 + n0) =
              ((List.range K).map (fun j => acc j (y * 25 + n0))).sum))
        7 out ⟨hP, fun y hy => by omega⟩
        (fun y0 out' hy0 hQ => by
          simp only at hQ ⊢
          obtain ⟨q1, q2⟩ := hQ
          constructor
          · intro n y hn hy
            rw [Function.update_noteq (by omega)]
            exact q1 n y hn hy
          · intro y hy
            by_cases hyy : y = y0
            · subst hyy
              rw [Function.update_same, foldl_add_eq_sum]
            · rw [Function.update_noteq (by omega)]
              exact q2 y (by omega))
      obtain ⟨r1, r2⟩ := hin
      intro n y hn hy
      by_cases hnn : n = n0
      · subst hnn
        exact r2 y hy
      · exact r1 n y (by omega) hy)
  exact h n y hn hy

/-- C30: in the `Compute` kernel, when every valid record received before the message with
`done` set has an order year `Y` in `1992 .. 1998` and a nation key `N` in `0 .. 24`: its
accumulator index is `(Y - 1992) * 25 + N` without wrap-around, below `2 ^ 8` and below
`25 * 7`, and the index determines `(Y, N)`; a record that is not valid changes no
accumulator; the kernel ends, and afterwards, for every `Y` in `1992 .. 1998` and `N` in
`0 .. 24`, `sum_profit[Y * 25 + N]`, an index below `25 * 2020`, is the sum over the valid
records of that year and nation of `extendedprice * (100 - discount) - supplycost * quantity *
100`. -/
theorem profit_accumulation (K : Nat) (l_quantity l_extendedprice l_discount : Nat → Int)
    (pre : List FinalPipeData) (last : FinalPipeData) (rest : List FinalPipeData)
    (sum_profit : Nat → Int) (hpre : ∀ m ∈ pre, m.done = false) (hlast : last.done = true)
    (hrec : ∀ m ∈ pre, ∀ j, j < K → D_valid m j = true →
      1992 ≤ orderyear (m.data j) ∧ orderyear (m.data j) ≤ 1998 ∧
        (m.data j).nationkey ≤ 24) :
    (∀ m ∈ pre, ∀ j, j < K → D_valid m j = true →
      accIndex (m.data j) = (orderyear (m.data j) - 1992) * 25 + (m.data j).nationkey ∧
        accIndex (m.data j) < 2 ^ 8 ∧ accIndex (m.data j) < 25 * 7) ∧
    (∀ D D' : FinalData, 1992 ≤ orderyear D → orderyear D ≤ 1998 → D.nationkey ≤ 24 →
      1992 ≤ orderyear D' → orderyear D' ≤ 1998 → D'.nationkey ≤ 24 →
      accIndex D = accIndex D' → orderyear D = orderyear D' ∧ D.nationkey = D'.nationkey) ∧
    (∀ (m : FinalPipeData) (j : Nat) (acc : Accumulators), D_valid m j = false →
      accumulateSlot l_quantity l_extendedprice l_discount m j acc = acc) ∧
    ∃ out, Compute K l_quantity l_extendedprice l_discount (pre ++ last :: rest) sum_profit =
        some out ∧
      ∀ Y N, 1992 ≤ Y → Y ≤ 1998 → N ≤ 24 →
        Y * 25 + N < 25 * 2020 ∧
        out (Y * 25 + N) = (pre.map (fun m => ((List.range K).map (fun j =>
          if D_valid m j = true ∧ orderyear (m.data j) = Y ∧ (m.data j).nationkey = N then
            l_extendedprice (m.data j).lineitemIdx * (100 - l_discount (m.data j).lineitemIdx)
              - (m.data j).supplycost * l_quantity (m.data j).lineitemIdx * 100
          else 0)).sum)).sum := by
  refine ⟨?_, ?_, ?_, ?_⟩
  · intro m hm j hj hv
    obtain ⟨h1, h2, h3⟩ := hrec m hm j hj hv
    have e := accIndex_eq (m.data j) h1 h2 h3
    rw [e]
    refine ⟨rfl, ?_, ?_⟩ <;> omega
  · intro D D' h1 h2 h3 h1' h2' h3' he
    rw [accIndex_eq D h1 h2 h3, accIndex_eq D' h1' h2' h3'] at he
    omega
  · intro m j acc h
    exact accumulateSlot_invalid _ _ _ m j acc h
  · obtain ⟨acc', hloop, htot⟩ := computeLoop_total K l_quantity l_extendedprice l_discount
      pre last rest hpre hlast (fun _ _ => 0)
    refine ⟨pushBack K acc' sum_profit, ?_, fun Y N hY1 hY2 hN => ⟨by omega, ?_⟩⟩
    · unfold Compute
      rw [hloop]
      rfl
    · have eY : Y * 25 + N = (Y - 1992 + 1992) * 25 + N := by omega
      rw [eY, pushBack_apply K acc' sum_profit N (Y - 1992) (by omega) (by omega), htot]
      have hz : ((List.range K).map (fun j => (fun (_ : Nat) (_ : Nat) => (0 : Int)) j
          ((Y - 1992) * 25 + N))).sum = 0 := by simp
      rw [hz, zero_add]
      congr 1
      apply List.map_congr_left
      intro m hm
      congr 1
      apply List.map_congr_left
      intro j hj
      by_cases hv : D_valid m j = true
      · obtain ⟨h1, h2, h3⟩ := hrec m hm j (List.mem_range.1 hj) hv
        have e := accIndex_eq (m.data j) h1 h2 h3
        by_cases hc : orderyear (m.data j) = Y ∧ (m.data j).nationkey = N
        · rw [if_pos ⟨hv, by rw [e]; omega⟩, if_pos ⟨hv, hc⟩]
          simp [amount]
        · rw [if_neg (fun h => hc (by rw [e] at h; omega)), if_neg (fun h => hc h.2)]
      · rw [if_neg (fun h => hv h.1), if_neg (fun h => hv h.1)]

/-- Witness of C30: one slot per message; a valid record of year `1995` and nation `3` for
the line item `0` (order date `1995 * 512`), then the message with `done` set: the profit of
`(1995, 3)` is
`1000 * (100 - 5) - 20 * 7 * 100`. -/
theorem profit_accumulation_witness :
    ∃ out, Compute 1 (fun _ => 7) (fun _ => 1000) (fun _ => 5)
        ([(⟨false, true, fun _ => ⟨true, 0, 20, 1021440, 3⟩⟩ : FinalPipeData)] ++
          (⟨true, false, fun _ => ⟨false, 0, 0, 0, 0⟩⟩ : FinalPipeData) :: [])
        (fun _ => 0) = some out ∧
      ∀ Y N, 1992 ≤ Y → Y ≤ 1998 → N ≤ 24 →
        Y * 25 + N < 25 * 2020 ∧
        out (Y * 25 + N) =
          ([(⟨false, true, fun _ => ⟨true, 0, 20, 1021440, 3⟩⟩ : FinalPipeData)].map
            (fun m => ((List.range 1).map (fun j =>
              if D_valid m j = true ∧ orderyear (m.data j) = Y ∧ (m.data j).nationkey = N then
                (fun (_ : Nat) => (1000 : Int)) (m.data j).lineitemIdx *
                    (100 - (fun (_ : Nat) => (5 : Int)) (m.data j).lineitemIdx)
                  - (m.data j).supplycost * (fun (_ : Nat) => (7 : Int)) (m.data j).lineitemIdx
                    * 100
              else 0)).sum)).sum :=
  (profit_accumulation 1 (fun _ => 7) (fun _ => 1000) (fun _ => 5)
    [⟨false, true, fun _ => ⟨true, 0, 20, 1021440, 3⟩⟩]
    ⟨true, false, fun _ => ⟨false, 0, 0, 0, 0⟩⟩ [] (fun _ => 0)
    (fun m hm => by rw [List.mem_singleton.1 hm])
    rfl
    (fun m hm j _ _ => by
      rw [List.mem_singleton.1 hm]
      refine ⟨?_, ?_, ?_⟩
      · show 1992 ≤ (1021440 / 2 ^ 9) % 2 ^ 23
        norm_num
      · show (1021440 / 2 ^ 9) % 2 ^ 23 ≤ 1998
        norm_num
      · show 3 ≤ 24
        norm_num)).2.2.2

end Query9
